import Mathlib

/-!
Module introspection and stream context of the http-wasm bridge.

A shallow embedding of `BytecodeUtil` (`source/extensions/common/http_wasm/bytecode_util.cc`):
`checkWasmHeader`, `parseVarint`, `getCustomSection`, `getFunctionNameIndex` and
`getStrippedSource`; of the classes `Buffer` and `Context` (`context.h`, `context.cc`): the
lifecycle entry points, the deferred actions, the buffer view, the header map accessors and
the constructors; and of the key of the class `Plugin` (`plugin.h`), together with theorems
about them.

Conventions of the embedding:

* a `std::string_view` / `std::string` is the list of bytes it denotes;
* a `const char*` into a buffer is the index (a natural number) of the byte it points to,
  `end` is the length of the buffer (or an index inside it);
* every read goes through `List.get?`-style indexing; a read outside the buffer yields
  `Outcome.fault`, which is distinct from the function returning `false`;
* `while` loops are recursive functions over a fuel argument; the entry points supply
  enough fuel for the loop to run to completion, and running out is `Outcome.outOfFuel`;
* `uint32_t` arithmetic is arithmetic on `Nat` reduced modulo `2 ^ 32`;
* reference parameters are returned with a `true` result; what they hold after a `false`
  return is not tracked.
-/

namespace HttpWasm

/-- A byte buffer. -/
abbrev Bytes := List UInt8

/-- Result of running one of the parsers.  `ok a` is a `true` return together with the
values written through the reference parameters, `fail` is a `false` return. -/
inductive Outcome (α : Type) where
  | ok (a : α) : Outcome α
  | fail : Outcome α
  | fault : Outcome α
  | outOfFuel : Outcome α
  deriving DecidableEq, Repr

/-- The bytes `[pos, pos + len)` of a buffer, when they all lie inside it. -/
def readRange (b : Bytes) (pos len : Nat) : Option Bytes :=
  if pos + len ≤ b.length then some ((b.drop pos).take len) else none

/-- The constant `wasm_magic_number`. -/
def wasm_magic_number : Bytes := [0x00, 0x61, 0x73, 0x6d]

/-- The function `BytecodeUtil::checkWasmHeader`: `ok ()` for `true`, `fail` for `false`. -/
def checkWasmHeader (bytecode : Bytes) : Outcome Unit :=
  if bytecode.length < 8 then .ok ()
  else
    match readRange bytecode 0 4 with
    | none => .fault
    | some m => if m = wasm_magic_number then .ok () else .fail

/-- The loop of `BytecodeUtil::parseVarint`, with the locals `pos`, `shift` and `total`. -/
def parseVarintLoop (bytes : Bytes) (end_ : Nat) : Nat → Nat → Nat → Nat → Outcome (Nat × Nat)
  | 0, pos, _, _ => if pos < end_ then .outOfFuel else .fail
  | fuel + 1, pos, shift, total =>
    if pos < end_ then
      if pos + 1 > end_ then .fail
      else
        match bytes[pos]? with
        | none => .fault
        | some b =>
          let v := b.toNat &&& 0x7f
          if shift = 28 ∧ v > 3 then .fail
          else
            let total := (total + (v <<< shift) % 2 ^ 32) % 2 ^ 32
            if b.toNat &&& 0x80 = 0 then .ok (total, pos + 1)
            else
              let shift := shift + 7
              if shift > 28 then .fail
              else parseVarintLoop bytes end_ fuel (pos + 1) shift total
    else .fail

/-- The function `BytecodeUtil::parseVarint(pos, end, ret)`: on success the decoded value and
the advanced position. -/
def parseVarint (bytes : Bytes) (pos end_ : Nat) : Outcome (Nat × Nat) :=
  parseVarintLoop bytes end_ (end_ - pos) pos 0 0

/-- The loop of `BytecodeUtil::getCustomSection`; `ret` is the caller's view, returned
unchanged when no section matches. -/
def getCustomSectionLoop (bytecode name ret : Bytes) : Nat → Nat → Outcome Bytes
  | 0, pos => if pos < bytecode.length then .outOfFuel else .ok ret
  | fuel + 1, pos =>
    if pos < bytecode.length then
      if pos + 1 > bytecode.length then .fail
      else
        match bytecode[pos]? with
        | none => .fault
        | some section_type =>
          match parseVarint bytecode (pos + 1) bytecode.length with
          | .fail => .fail
          | .fault => .fault
          | .outOfFuel => .outOfFuel
          | .ok (section_len, pos) =>
            if pos + section_len > bytecode.length then .fail
            else if section_type = 0 then
              let section_end := pos + section_len
              match parseVarint bytecode pos section_end with
              | .fail => .fail
              | .fault => .fault
              | .outOfFuel => .outOfFuel
              | .ok (section_name_len, pos) =>
                if pos + section_name_len > section_end then .fail
                else if section_name_len = name.length then
                  match readRange bytecode pos section_name_len with
                  | none => .fault
                  | some section_name =>
                    if section_name = name then
                      match readRange bytecode (pos + section_name_len)
                          (section_end - (pos + section_name_len)) with
                      | none => .fault
                      | some r => .ok r
                    else getCustomSectionLoop bytecode name ret fuel section_end
                else getCustomSectionLoop bytecode name ret fuel section_end
            else getCustomSectionLoop bytecode name ret fuel (pos + section_len)
    else .ok ret

/-- The function `BytecodeUtil::getCustomSection(bytecode, name, ret)`. -/
def getCustomSection (bytecode name ret : Bytes) : Outcome Bytes :=
  match checkWasmHeader bytecode with
  | .fail => .fail
  | .fault => .fault
  | .outOfFuel => .outOfFuel
  | .ok () => getCustomSectionLoop bytecode name ret bytecode.length 8

/-- The table `std::unordered_map<uint32_t, std::string>`, as an association list. -/
abbrev NameTable := List (Nat × Bytes)

/-- The method `std::unordered_map::insert`: a key already present keeps its value. -/
def NameTable.insert (t : NameTable) (k : Nat) (v : Bytes) : NameTable :=
  if t.any (fun e => e.1 = k) then t else t ++ [(k, v)]

/-- The method `std::string::c_str` as a C string: the bytes before the first NUL. -/
def c_str (s : Bytes) : Bytes := s.takeWhile (fun b => b ≠ 0)

/-- The demangling step of `getFunctionNameIndex`: `cxa_demangle` stands for
`abi::__cxa_demangle` (`none` for a null result); the raw name is kept when it fails. -/
def demangleName (cxa_demangle : Bytes → Option Bytes) (func_name : Bytes) : Bytes :=
  match cxa_demangle (c_str func_name) with
  | some data => data
  | none => func_name

/-- The `for` loop over the name map in `getFunctionNameIndex`; the first argument is the
number of entries still to read.  Yields the final position and table. -/
def functionNamesLoop (cxa_demangle : Bytes → Option Bytes) (sec : Bytes) :
    Nat → Nat → NameTable → Outcome (Nat × NameTable)
  | 0, pos, ret => .ok (pos, ret)
  | n + 1, pos, ret =>
    match parseVarint sec pos sec.length with
    | .fail => .fail
    | .fault => .fault
    | .outOfFuel => .outOfFuel
    | .ok (func_index, pos) =>
      match parseVarint sec pos sec.length with
      | .fail => .fail
      | .fault => .fault
      | .outOfFuel => .outOfFuel
      | .ok (func_name_size, pos) =>
        if pos + func_name_size > sec.length then .fail
        else
          match readRange sec pos func_name_size with
          | none => .fault
          | some func_name =>
            functionNamesLoop cxa_demangle sec n (pos + func_name_size)
              (ret.insert func_index (demangleName cxa_demangle func_name))

/-- The `while` loop over the subsections of the name section in `getFunctionNameIndex`. -/
def subsectionsLoop (cxa_demangle : Bytes → Option Bytes) (sec : Bytes) :
    Nat → Nat → NameTable → Outcome NameTable
  | 0, pos, ret => if pos < sec.length then .outOfFuel else .ok ret
  | fuel + 1, pos, ret =>
    if pos < sec.length then
      match sec[pos]? with
      | none => .fault
      | some subsection_id =>
        match parseVarint sec (pos + 1) sec.length with
        | .fail => .fail
        | .fault => .fault
        | .outOfFuel => .outOfFuel
        | .ok (subsection_size, pos) =>
          if pos + subsection_size > sec.length then .fail
          else if subsection_id ≠ 1 then
            subsectionsLoop cxa_demangle sec fuel (pos + subsection_size) ret
          else
            let start := pos
            match parseVarint sec pos sec.length with
            | .fail => .fail
            | .fault => .fault
            | .outOfFuel => .outOfFuel
            | .ok (namemap_vector_size, pos) =>
              if pos + namemap_vector_size > sec.length then .fail
              else
                match functionNamesLoop cxa_demangle sec namemap_vector_size pos ret with
                | .fail => .fail
                | .fault => .fault
                | .outOfFuel => .outOfFuel
                | .ok (pos, ret) =>
                  if start + subsection_size ≠ pos then .fail
                  else subsectionsLoop cxa_demangle sec fuel pos ret
    else .ok ret

/-- The section name looked up by `getFunctionNameIndex`: `"name"`. -/
def nameSectionName : Bytes := [0x6e, 0x61, 0x6d, 0x65]

/-- The function `BytecodeUtil::getFunctionNameIndex(bytecode, ret)`. -/
def getFunctionNameIndex (cxa_demangle : Bytes → Option Bytes) (bytecode : Bytes)
    (ret : NameTable) : Outcome NameTable :=
  match getCustomSection bytecode nameSectionName [] with
  | .fail => .fail
  | .fault => .fault
  | .outOfFuel => .outOfFuel
  | .ok name_section =>
    if name_section ≠ [] then
      subsectionsLoop cxa_demangle name_section name_section.length 0 ret
    else .ok ret

/-- The reserved substring `"precompiled_"`. -/
def precompiledTag : Bytes :=
  [0x70, 0x72, 0x65, 0x63, 0x6f, 0x6d, 0x70, 0x69, 0x6c, 0x65, 0x64, 0x5f]

/-- The test `section_name.find("precompiled_") != std::string::npos`. -/
def isPrecompiled (section_name : Bytes) : Bool :=
  decide (precompiledTag <:+: section_name)

/-- The loop of `BytecodeUtil::getStrippedSource`, with the output string `ret`. -/
def getStrippedSourceLoop (bytecode : Bytes) : Nat → Nat → Bytes → Outcome Bytes
  | 0, pos, ret =>
    if pos < bytecode.length then .outOfFuel
    else if ret = [] then .ok bytecode else .ok ret
  | fuel + 1, pos, ret =>
    if pos < bytecode.length then
      let section_start := pos
      if pos + 1 > bytecode.length then .fail
      else
        match bytecode[pos]? with
        | none => .fault
        | some section_type =>
          match parseVarint bytecode (pos + 1) bytecode.length with
          | .fail => .fail
          | .fault => .fault
          | .outOfFuel => .outOfFuel
          | .ok (section_len, pos) =>
            if pos + section_len > bytecode.length then .fail
            else if section_type = 0 then
              let section_data_start := pos
              match parseVarint bytecode pos bytecode.length with
              | .fail => .fail
              | .fault => .fault
              | .outOfFuel => .outOfFuel
              | .ok (section_name_len, pos) =>
                if pos + section_name_len > bytecode.length then .fail
                else
                  match readRange bytecode pos section_name_len with
                  | none => .fault
                  | some section_name =>
                    if isPrecompiled section_name ∧ ret = [] then
                      match readRange bytecode 0 section_start with
                      | none => .fault
                      | some pre =>
                        getStrippedSourceLoop bytecode fuel (section_data_start + section_len)
                          (ret ++ pre)
                    else
                      getStrippedSourceLoop bytecode fuel (section_data_start + section_len) ret
            else
              if ret ≠ [] then
                match readRange bytecode section_start (pos + section_len - section_start) with
                | none => .fault
                | some s => getStrippedSourceLoop bytecode fuel (pos + section_len) (ret ++ s)
              else getStrippedSourceLoop bytecode fuel (pos + section_len) ret
    else if ret = [] then .ok bytecode else .ok ret

/-- The function `BytecodeUtil::getStrippedSource(bytecode, ret)`. -/
def getStrippedSource (bytecode ret : Bytes) : Outcome Bytes :=
  match checkWasmHeader bytecode with
  | .fail => .fail
  | .fault => .fault
  | .outOfFuel => .outOfFuel
  | .ok () => getStrippedSourceLoop bytecode bytecode.length 8 ret

/-! ## Specification-side notions -/

/-- The number denoted by a little-endian sequence of 7-bit groups (unsigned LEB128). -/
def lebValue : Bytes → Nat
  | [] => 0
  | b :: bs => b.toNat % 128 + 128 * lebValue bs

/-- Framing of an unsigned LEB128 number: the last byte has a clear continuation bit,
every byte before it has the continuation bit set. -/
def lebFramed : Bytes → Bool
  | [] => false
  | [b] => decide (b.toNat < 128)
  | b :: c :: bs => decide (128 ≤ b.toNat) && lebFramed (c :: bs)

/-- The bytes `enc` are an unsigned LEB128 encoding (minimal or not) of `n`, of at most five
bytes, with `n` below `2 ^ 30`. -/
def IsVarint (enc : Bytes) (n : Nat) : Prop :=
  lebFramed enc = true ∧ enc.length ≤ 5 ∧ lebValue enc = n ∧ n < 2 ^ 30

instance (enc : Bytes) (n : Nat) : Decidable (IsVarint enc n) :=
  inferInstanceAs (Decidable (_ ∧ _ ∧ _ ∧ _))

/-- The minimal unsigned LEB128 encoding, by groups of seven bits; the first argument bounds
the number of groups. -/
def leb128Fuel : Nat → Nat → Bytes
  | 0, n => [UInt8.ofNat n]
  | f + 1, n =>
    if n < 128 then [UInt8.ofNat n]
    else UInt8.ofNat (n % 128 + 128) :: leb128Fuel f (n / 128)

/-- The unsigned LEB128 encoding of `n`. -/
def leb128 (n : Nat) : Bytes := leb128Fuel n n

/-- Truncation: the input ends, after at most four bytes, before any byte with a clear
continuation bit. -/
def varintTruncated (s : Bytes) : Prop :=
  s.length ≤ 4 ∧ ∀ b ∈ s, 128 ≤ b.toNat

/-- Overflow: a fifth byte is read (the first four all have the continuation bit set) and
its low seven bits exceed 3 or its continuation bit is set. -/
def varintOverflow (s : Bytes) : Prop :=
  ∃ b4, s[4]? = some b4 ∧ (∀ b ∈ s.take 4, 128 ≤ b.toNat) ∧
    (3 < b4.toNat % 128 ∨ 128 ≤ b4.toNat)

/-- A section of a module as it is laid out in the file.  A custom section (type tag 0) is
the encoded section length, the encoded name length, the name and the rest of the payload;
any other section is a non-zero type tag, the encoded section length and the payload. -/
inductive WasmSection where
  | custom (lenEnc nameEnc name body : Bytes) : WasmSection
  | plain (type : UInt8) (lenEnc payload : Bytes) : WasmSection
  deriving DecidableEq, Repr

/-- The bytes of a section: type tag, length field, payload. -/
def WasmSection.bytes : WasmSection → Bytes
  | .custom lenEnc nameEnc name body => 0 :: (lenEnc ++ (nameEnc ++ (name ++ body)))
  | .plain type lenEnc payload => type :: (lenEnc ++ payload)

/-- A correctly framed section: the length field is a varint giving the length of the
payload, and the name-length field of a custom section is a varint giving the length of its
name.  Varints are those of `IsVarint`: at most five bytes, value below `2 ^ 30`. -/
def WasmSection.Framed : WasmSection → Prop
  | .custom lenEnc nameEnc name body =>
    IsVarint lenEnc (nameEnc.length + name.length + body.length) ∧
      IsVarint nameEnc name.length
  | .plain type lenEnc payload => type ≠ 0 ∧ IsVarint lenEnc payload.length

instance : (s : WasmSection) → Decidable s.Framed
  | .custom _ _ _ _ => inferInstanceAs (Decidable (_ ∧ _))
  | .plain _ _ _ => inferInstanceAs (Decidable (_ ∧ _))

/-- The section is a custom section whose name is exactly `n`. -/
def WasmSection.isNamed (n : Bytes) : WasmSection → Bool
  | .custom _ _ name _ => decide (name = n)
  | .plain _ _ _ => false

/-- The section is reserved: a custom section whose name contains `"precompiled_"`. -/
def WasmSection.isReserved : WasmSection → Bool
  | .custom _ _ name _ => decide (precompiledTag <:+: name)
  | .plain _ _ _ => false

/-- The section is a custom section. -/
def WasmSection.isCustom : WasmSection → Bool
  | .custom _ _ _ _ => true
  | .plain _ _ _ => false

/-- The bytes of a sequence of sections, in file order. -/
def sectionsBytes : List WasmSection → Bytes
  | [] => []
  | s :: ss => s.bytes ++ sectionsBytes ss

/-- An 8-byte module header starting with the magic number. -/
def IsHeader (hdr : Bytes) : Prop :=
  hdr.length = 8 ∧ hdr.take 4 = wasm_magic_number

instance (hdr : Bytes) : Decidable (IsHeader hdr) :=
  inferInstanceAs (Decidable (_ ∧ _))

/-- A module header: the magic number and version 1. -/
def exampleHeader : Bytes := [0x00, 0x61, 0x73, 0x6d, 0x01, 0x00, 0x00, 0x00]

/-- The sections that `getStrippedSource` keeps: all of them when none is reserved; otherwise
those before the first reserved section and the non-custom sections after it. -/
def strippedSections : List WasmSection → List WasmSection
  | [] => []
  | s :: ss =>
    if s.isReserved then ss.filter (fun x => !x.isCustom)
    else s :: strippedSections ss

/-- A section header lies at offset `p` of `B`: the type tag `t`, then a length field that
is a varint of value `len`; the payload is `[q, q + len)` and lies inside `B`. -/
def SectionAt (B : Bytes) (p : Nat) (t : UInt8) (q len : Nat) : Prop :=
  ∃ lenEnc, IsVarint lenEnc len ∧ readRange B p (1 + lenEnc.length) = some (t :: lenEnc) ∧
    q = p + 1 + lenEnc.length ∧ q + len ≤ B.length

/-- The offsets at which the sections of `B` start: offset 8, and the end of the payload of
every section that starts at such an offset. -/
inductive SectionStart (B : Bytes) : Nat → Prop where
  | first : SectionStart B 8
  | next (p q len : Nat) (t : UInt8) :
      SectionStart B p → SectionAt B p t q len → SectionStart B (q + len)

/-- The scan of `getStrippedSource` reads a reserved name: at the start of the payload of
some custom section of `B` lies a length-prefixed field, read up to the end of the buffer
(not of the section), whose content contains `"precompiled_"`. -/
def ScansReservedName (B : Bytes) : Prop :=
  ∃ p q len nameEnc name, SectionStart B p ∧ SectionAt B p 0 q len ∧
    IsVarint nameEnc name.length ∧
    readRange B q (nameEnc.length + name.length) = some (nameEnc ++ name) ∧
    precompiledTag <:+: name

/-- Some custom section of `B` has a name containing `"precompiled_"`.  The name of a custom
section is the length-prefixed field at the start of its payload; it lies inside the
payload `[q, q + len)` of the section. -/
def HasReservedSection (B : Bytes) : Prop :=
  ∃ p q len nameEnc name, SectionStart B p ∧ SectionAt B p 0 q len ∧
    IsVarint nameEnc name.length ∧
    readRange B q (nameEnc.length + name.length) = some (nameEnc ++ name) ∧
    nameEnc.length + name.length ≤ len ∧
    precompiledTag <:+: name

/-- A module made of a custom section of declared length 0, which has no name, followed by
a section of type 13 whose twelve bytes of payload are `"precompiled_"`. -/
def strayNameModule : Bytes := exampleHeader ++ ([0, 0] ++ ([0x0d, 0x0c] ++ precompiledTag))

/-- An entry of the function-name map: the encoded function index, the encoded name length
and the name. -/
structure NameEntry where
  indexEnc : Bytes
  index : Nat
  nameLenEnc : Bytes
  name : Bytes
  deriving DecidableEq, Repr

/-- The bytes of an entry. -/
def NameEntry.bytes (e : NameEntry) : Bytes := e.indexEnc ++ (e.nameLenEnc ++ e.name)

/-- A correctly framed entry: both fields are varints, of the index and of the length of
the name. -/
def NameEntry.Framed (e : NameEntry) : Prop :=
  IsVarint e.indexEnc e.index ∧ IsVarint e.nameLenEnc e.name.length

instance (e : NameEntry) : Decidable e.Framed :=
  inferInstanceAs (Decidable (_ ∧ _))

/-- The bytes of a sequence of entries. -/
def entriesBytes : List NameEntry → Bytes
  | [] => []
  | e :: es => e.bytes ++ entriesBytes es

/-- A subsection of the `"name"` section.  The function-names subsection (id 1) is the
encoded subsection size, the encoded number of entries and the entries; any other
subsection is its id, the encoded size and the payload. -/
inductive Subsection where
  | functionNames (sizeEnc countEnc : Bytes) (entries : List NameEntry) : Subsection
  | other (id : UInt8) (sizeEnc payload : Bytes) : Subsection
  deriving DecidableEq, Repr

/-- The bytes of a subsection: id, size field, payload. -/
def Subsection.bytes : Subsection → Bytes
  | .functionNames sizeEnc countEnc entries =>
    1 :: (sizeEnc ++ (countEnc ++ entriesBytes entries))
  | .other id sizeEnc payload => id :: (sizeEnc ++ payload)

/-- A correctly framed subsection: the size field is a varint giving the length of the
payload; in the function-names subsection the count is a varint giving the number of
entries and every entry is framed; any other subsection has an id different from 1. -/
def Subsection.Framed : Subsection → Prop
  | .functionNames sizeEnc countEnc entries =>
    IsVarint sizeEnc (countEnc.length + (entriesBytes entries).length) ∧
      IsVarint countEnc entries.length ∧ ∀ e ∈ entries, e.Framed
  | .other id sizeEnc payload => id ≠ 1 ∧ IsVarint sizeEnc payload.length

instance : (s : Subsection) → Decidable s.Framed
  | .functionNames _ _ _ => inferInstanceAs (Decidable (_ ∧ _ ∧ _))
  | .other _ _ _ => inferInstanceAs (Decidable (_ ∧ _))

/-- The subsection is the function-names subsection. -/
def Subsection.isFunctionNames : Subsection → Bool
  | .functionNames _ _ _ => true
  | .other _ _ _ => false

/-- The bytes of a sequence of subsections. -/
def subsectionsBytes : List Subsection → Bytes
  | [] => []
  | s :: ss => s.bytes ++ subsectionsBytes ss

/-- The table after inserting the entries, in order, each name demangled. -/
def insertEntries (cxa_demangle : Bytes → Option Bytes) (t : NameTable) :
    List NameEntry → NameTable
  | [] => t
  | e :: es =>
    insertEntries cxa_demangle (t.insert e.index (demangleName cxa_demangle e.name)) es

/-- The table after the subsections: only function-names subsections add entries. -/
def tableOf (cxa_demangle : Bytes → Option Bytes) : List Subsection → NameTable → NameTable
  | [], t => t
  | .functionNames _ _ entries :: ss, t =>
    tableOf cxa_demangle ss (insertEntries cxa_demangle t entries)
  | .other _ _ _ :: ss, t => tableOf cxa_demangle ss t

/-- A demangler that knows the single symbol `_Z1gv`, demangled to `g()`. -/
def exampleDemangle (s : Bytes) : Option Bytes :=
  if s = [0x5f, 0x5a, 0x31, 0x67, 0x76] then some [0x67, 0x28, 0x29] else none

/-- The run ended with a Boolean result: it neither read outside the buffer nor ran out of
fuel. -/
def Outcome.returns {α : Type} : Outcome α → Bool
  | .ok _ => true
  | .fail => true
  | .fault => false
  | .outOfFuel => false

/-! ### The stream context (`context.h`, `context.cc`) -/

/-- The class `Plugin` (`plugin.h`): the public identity and policy fields, and the key. -/
structure Plugin where
  name_ : String := ""
  root_id_ : String := ""
  vm_id_ : String := ""
  engine_ : String := ""
  plugin_configuration_ : String := ""
  fail_open_ : Bool := false
  key_ : String := ""
  deriving DecidableEq, Repr

/-- An `Http::HeaderMap` owned by the proxy: its entries, in order. -/
abbrev HeaderMap := List (String × String)

/-- The class `Buffer`: the two references to the proxy's buffer (here the bytes they point
to) and the read cursor. -/
structure Buffer where
  const_buffer_instance_ : Option Bytes := none
  buffer_instance_ : Option Bytes := none
  bytes_to_skip_ : Nat := 0
  deriving DecidableEq, Repr

/-- The method `Buffer::clear`. -/
def Buffer.clear (b : Buffer) : Buffer :=
  { b with const_buffer_instance_ := none, buffer_instance_ := none }

/-- The method `Buffer::set(::Envoy::Buffer::Instance*)`. -/
def Buffer.set (b : Buffer) (buffer_instance : Option Bytes) : Buffer :=
  { b.clear with buffer_instance_ := buffer_instance, const_buffer_instance_ := buffer_instance }

/-- The method `Buffer::size`. -/
def Buffer.size (b : Buffer) : Nat :=
  match b.const_buffer_instance_ with
  | some data => data.length
  | none => 0

/-- The buffer kinds that `getBuffer` distinguishes; `Other` stands for every value that
reaches the `default` label. -/
inductive WasmBufferType where
  | HttpRequestBody : WasmBufferType
  | HttpResponseBody : WasmBufferType
  | Other : WasmBufferType
  deriving DecidableEq, Repr

/-- An invocation of a guest entry point, with the arguments passed after `this`. -/
inductive GuestCall where
  | handle_request : GuestCall
  | handle_response (request_context : Nat) (is_error : Nat) : GuestCall
  deriving DecidableEq, Repr

/-- The class `Context`, for one stream.  `W` is the state of the guest engine that `wasm_`
points to (`none` is the null pointer), `A` the type of the closures queued in
`after_vm_call_actions_`, `V` the state of the surrounding proxy on which these closures act.
`decoder_callbacks_` and `encoder_callbacks_` tell whether the pointer of that name is set.
The last four fields are not in the source: `proxy` is that state, `guestCalls` records
the guest invocations made so far, `ranActions` the deferred actions run so far and
`clearRouteCacheCalls` counts the calls of `clearRouteCache` on the downstream callbacks. -/
structure Context (W A V : Type) where
  wasm_ : Option W := none
  plugin_ : Plugin := {}
  request_context_ : Nat := 0
  after_vm_call_actions_ : List A := []
  in_vm_context_created_ : Bool := false
  destroyed_ : Bool := false
  end_of_stream_ : Bool := false
  buffering_request_body_ : Bool := false
  buffering_response_body_ : Bool := false
  request_headers_ : Option HeaderMap := none
  response_headers_ : Option HeaderMap := none
  request_body_buffer_ : Option Bytes := none
  response_body_buffer_ : Option Bytes := none
  buffer_ : Buffer := {}
  request_trailers_ : Option HeaderMap := none
  response_trailers_ : Option HeaderMap := none
  decoder_callbacks_ : Bool := false
  encoder_callbacks_ : Bool := false
  proxy : V
  guestCalls : List GuestCall := []
  ranActions : List A := []
  clearRouteCacheCalls : Nat := 0

/-- The collaborators of the context whose code is not in the source tree, taken as
parameters.  `isFailed` is `Wasm::isFailed`.  `handle_request_` and `handle_response_` are
the two guest entry points of the engine: given the calling context and the engine state
(and, for the response, the arguments `request_context` and `is_error`), they yield the
value returned by the guest, the engine state after the call and the closures that the guest
registered through `addAfterVmCallAction` during the call.  `runAction` runs a queued
closure on the proxy and yields the closures it registered in turn. -/
structure Host (W A V : Type) where
  isFailed : W → Bool
  handle_request_ : Context W A V → W → Nat × W × List A
  handle_response_ : Context W A V → W → Nat → Nat → Nat × W × List A
  runAction : A → V → V × List A

/-- The numeric values of the enumerators of `FilterHeadersStatus`, `FilterDataStatus`,
`FilterTrailersStatus` and `FilterMetadataStatus` (`http_wasm_enums.h`, not in the source
tree), taken as parameters.  A status of one of these types is its numeric value. -/
structure StatusCodes where
  headersContinue : Nat
  headersStopIteration : Nat
  headersStopAllIterationAndBuffer : Nat
  headersStopAllIterationAndWatermark : Nat
  dataContinue : Nat
  dataStopIterationAndBuffer : Nat
  dataStopIterationAndWatermark : Nat
  dataStopIterationNoBuffer : Nat
  trailersContinue : Nat
  trailersStopIteration : Nat
  metadataContinue : Nat
  deriving DecidableEq, Repr

/-- The enumerators of one enumeration have pairwise different values. -/
def StatusCodes.Distinct (E : StatusCodes) : Prop :=
  [E.headersContinue, E.headersStopIteration, E.headersStopAllIterationAndBuffer,
    E.headersStopAllIterationAndWatermark].Nodup ∧
  [E.dataContinue, E.dataStopIterationAndBuffer, E.dataStopIterationAndWatermark,
    E.dataStopIterationNoBuffer].Nodup ∧
  [E.trailersContinue, E.trailersStopIteration].Nodup

instance (E : StatusCodes) : Decidable E.Distinct :=
  inferInstanceAs (Decidable (_ ∧ _ ∧ _))

/-- The values of the status enumerators in the proxy-wasm ABI. -/
def exampleCodes : StatusCodes :=
  { headersContinue := 0, headersStopIteration := 1, headersStopAllIterationAndBuffer := 3,
    headersStopAllIterationAndWatermark := 4, dataContinue := 0,
    dataStopIterationAndBuffer := 1, dataStopIterationAndWatermark := 2,
    dataStopIterationNoBuffer := 3, trailersContinue := 0, trailersStopIteration := 1,
    metadataContinue := 0 }

/-- The proxy's enumeration `Http::FilterHeadersStatus`, restricted to the values used. -/
inductive Http.FilterHeadersStatus where
  | Continue : Http.FilterHeadersStatus
  | StopIteration : Http.FilterHeadersStatus
  | StopAllIterationAndBuffer : Http.FilterHeadersStatus
  | StopAllIterationAndWatermark : Http.FilterHeadersStatus
  deriving DecidableEq, Repr

/-- The proxy's enumeration `Http::FilterDataStatus`. -/
inductive Http.FilterDataStatus where
  | Continue : Http.FilterDataStatus
  | StopIterationAndBuffer : Http.FilterDataStatus
  | StopIterationAndWatermark : Http.FilterDataStatus
  | StopIterationNoBuffer : Http.FilterDataStatus
  deriving DecidableEq, Repr

/-- The function `convertFilterHeadersStatus`; the `default` label shares the `Continue`
case. -/
def convertFilterHeadersStatus (E : StatusCodes) (status : Nat) : Http.FilterHeadersStatus :=
  if status = E.headersStopIteration then .StopIteration
  else if status = E.headersStopAllIterationAndBuffer then .StopAllIterationAndBuffer
  else if status = E.headersStopAllIterationAndWatermark then .StopAllIterationAndWatermark
  else .Continue

/-- The function `convertFilterDataStatus`; the `default` label shares the `Continue` case. -/
def convertFilterDataStatus (E : StatusCodes) (status : Nat) : Http.FilterDataStatus :=
  if status = E.dataStopIterationAndBuffer then .StopIterationAndBuffer
  else if status = E.dataStopIterationAndWatermark then .StopIterationAndWatermark
  else if status = E.dataStopIterationNoBuffer then .StopIterationNoBuffer
  else .Continue

/-- The method `Context::isFailed`. -/
def Context.isFailed {W A V : Type} (h : Host W A V) (c : Context W A V) : Bool :=
  match c.wasm_ with
  | none => true
  | some w => h.isFailed w

/-- The macro `CHECK_FAIL`: `some r` when it returns `r` from the enclosing function,
`none` when execution goes on. -/
def CHECK_FAIL {W A V : Type} (h : Host W A V) (c : Context W A V)
    (_return_open _return_closed : Nat) : Option Nat :=
  if c.isFailed h then
    if c.plugin_.fail_open_ then some _return_open else some _return_closed
  else none

/-- The context once a guest call has returned: the engine is in state `w`, the closures
`acts` registered during the call are at the back of the queue, and the call is recorded. -/
def Context.afterGuestCall {W A V : Type} (c : Context W A V) (w : W) (acts : List A)
    (call : GuestCall) : Context W A V :=
  { c with wasm_ := some w,
           after_vm_call_actions_ := c.after_vm_call_actions_ ++ acts,
           guestCalls := c.guestCalls ++ [call] }

/-- The call `wasm_->handle_request_(this)`: the value returned by the guest and the context
after the call.  The macro `CHECK_FAIL` lets no call through while `wasm_` is null. -/
def callHandleRequest {W A V : Type} (h : Host W A V) (c : Context W A V) :
    Nat × Context W A V :=
  match c.wasm_ with
  | none => (0, c)
  | some w =>
    let r := h.handle_request_ c w
    (r.1, c.afterGuestCall r.2.1 r.2.2 GuestCall.handle_request)

/-- The call `wasm_->handle_response_(this, request_context_, 0)`. -/
def callHandleResponse {W A V : Type} (h : Host W A V) (c : Context W A V) :
    Nat × Context W A V :=
  match c.wasm_ with
  | none => (0, c)
  | some w =>
    let r := h.handle_response_ c w c.request_context_ 0
    (r.1, c.afterGuestCall r.2.1 r.2.2 (GuestCall.handle_response c.request_context_ 0))

/-- The method `Context::convertVmCallResultToFilterHeadersStatus`. -/
def convertVmCallResultToFilterHeadersStatus (E : StatusCodes) (result : Nat) : Nat :=
  if result = E.headersStopIteration then E.headersStopAllIterationAndWatermark
  else result

/-- The method `Context::convertVmCallResultToFilterDataStatus`. -/
def convertVmCallResultToFilterDataStatus (result : Nat) : Nat := result

/-- The method `Context::onRequestHeaders`: the returned status and the context after the
call. -/
def onRequestHeaders {W A V : Type} (h : Host W A V) (E : StatusCodes) (c : Context W A V)
    (_headers : Nat) (_end_of_stream : Bool) : Nat × Context W A V :=
  match CHECK_FAIL h c E.headersContinue E.headersStopAllIterationAndWatermark with
  | some r => (r, c)
  | none =>
    let (result, c) := callHandleRequest h c
    match CHECK_FAIL h c E.headersContinue E.headersStopAllIterationAndWatermark with
    | some r => (r, c)
    | none =>
      let c := { c with request_context_ := (result / 2 ^ 32) % 2 ^ 32 }
      let next := result % 2 ^ 32
      (convertVmCallResultToFilterHeadersStatus E next, c)

/-- The method `Context::onRequestBody`. -/
def onRequestBody {W A V : Type} (h : Host W A V) (E : StatusCodes) (c : Context W A V)
    (_body_length : Nat) (_end_of_stream : Bool) : Nat × Context W A V :=
  match CHECK_FAIL h c E.dataContinue E.dataStopIterationNoBuffer with
  | some r => (r, c)
  | none =>
    let (result, c) := callHandleRequest h c
    match CHECK_FAIL h c E.dataContinue E.dataStopIterationNoBuffer with
    | some r => (r, c)
    | none =>
      let c := { c with request_context_ := (result / 2 ^ 32) % 2 ^ 32 }
      let next := result % 2 ^ 32
      (convertVmCallResultToFilterDataStatus next, c)

/-- The method `Context::onRequestTrailers`. -/
def onRequestTrailers {W A V : Type} (h : Host W A V) (E : StatusCodes) (c : Context W A V)
    (_trailers : Nat) : Nat × Context W A V :=
  match CHECK_FAIL h c E.trailersContinue E.trailersStopIteration with
  | some r => (r, c)
  | none => (E.trailersContinue, c)

/-- The method `Context::onRequestMetadata`. -/
def onRequestMetadata {W A V : Type} (h : Host W A V) (E : StatusCodes) (c : Context W A V)
    (_elements : Nat) : Nat × Context W A V :=
  match CHECK_FAIL h c E.metadataContinue E.metadataContinue with
  | some r => (r, c)
  | none => (E.metadataContinue, c)

/-- The method `Context::onResponseHeaders`. -/
def onResponseHeaders {W A V : Type} (h : Host W A V) (E : StatusCodes) (c : Context W A V)
    (_headers : Nat) (_end_of_stream : Bool) : Nat × Context W A V :=
  match CHECK_FAIL h c E.headersContinue E.headersStopAllIterationAndWatermark with
  | some r => (r, c)
  | none =>
    let (_, c) := callHandleResponse h c
    (E.headersContinue, c)

/-- The method `Context::onResponseBody`. -/
def onResponseBody {W A V : Type} (h : Host W A V) (E : StatusCodes) (c : Context W A V)
    (_body_length : Nat) (_end_of_stream : Bool) : Nat × Context W A V :=
  match CHECK_FAIL h c E.dataContinue E.dataStopIterationNoBuffer with
  | some r => (r, c)
  | none =>
    let (_, c) := callHandleResponse h c
    (E.dataContinue, c)

/-- The method `Context::onResponseTrailers`. -/
def onResponseTrailers {W A V : Type} (h : Host W A V) (E : StatusCodes) (c : Context W A V)
    (_trailers : Nat) : Nat × Context W A V :=
  match CHECK_FAIL h c E.trailersContinue E.trailersStopIteration with
  | some r => (r, c)
  | none => (E.trailersContinue, c)

/-- The method `Context::onResponseMetadata`. -/
def onResponseMetadata {W A V : Type} (h : Host W A V) (E : StatusCodes) (c : Context W A V)
    (_elements : Nat) : Nat × Context W A V :=
  match CHECK_FAIL h c E.metadataContinue E.metadataContinue with
  | some r => (r, c)
  | none => (E.metadataContinue, c)

/-- The loop of `Context::doAfterVmCallActions`: the front closure is popped, then run; what
it registers goes to the back of the queue.  `none` when the fuel runs out before the queue
is empty. -/
def doAfterVmCallActionsLoop {W A V : Type} (h : Host W A V) :
    Nat → Context W A V → Option (Context W A V)
  | 0, c =>
    match c.after_vm_call_actions_ with
    | [] => some c
    | _ :: _ => none
  | fuel + 1, c =>
    match c.after_vm_call_actions_ with
    | [] => some c
    | f :: rest =>
      let r := h.runAction f c.proxy
      doAfterVmCallActionsLoop h fuel
        { c with after_vm_call_actions_ := rest ++ r.2, proxy := r.1,
                 ranActions := c.ranActions ++ [f] }

/-- The method `Context::doAfterVmCallActions`. -/
def doAfterVmCallActions {W A V : Type} (h : Host W A V) (fuel : Nat) (c : Context W A V) :
    Option (Context W A V) :=
  if !c.after_vm_call_actions_.isEmpty then doAfterVmCallActionsLoop h fuel c
  else some c

/-- The function `headerSize`. -/
def headerSize (p : Option HeaderMap) : Nat :=
  match p with
  | some m => m.length % 2 ^ 32
  | none => 0

/-- The method `Context::getBuffer`: whether the returned pointer is non-null, and the
context after the call. -/
def getBuffer {W A V : Type} (c : Context W A V) (type : WasmBufferType) :
    Option Buffer × Context W A V :=
  match type with
  | .HttpRequestBody =>
    let b := c.buffer_.set c.request_body_buffer_
    (some b, { c with buffer_ := b })
  | .HttpResponseBody =>
    let b := c.buffer_.set c.response_body_buffer_
    (some b, { c with buffer_ := b })
  | .Other => (none, c)

/-- The method `Context::decodeHeaders`; the scope guard `DeferAfterCallActions` runs
`doAfterVmCallActions` when the function returns past its declaration. -/
def decodeHeaders {W A V : Type} (h : Host W A V) (E : StatusCodes) (fuel : Nat)
    (c : Context W A V) (headers : HeaderMap) (end_stream : Bool) :
    Option (Http.FilterHeadersStatus × Context W A V) :=
  let c := { c with in_vm_context_created_ := true, request_headers_ := some headers }
  if !end_stream then some (.StopIteration, c)
  else
    let c := { c with end_of_stream_ := end_stream }
    let r := onRequestHeaders h E c (headerSize (some headers)) end_stream
    let result := convertFilterHeadersStatus E r.1
    (doAfterVmCallActions h fuel r.2).map (fun c => (result, c))

/-- The method `Context::decodeData`. -/
def decodeData {W A V : Type} (h : Host W A V) (E : StatusCodes) (fuel : Nat)
    (c : Context W A V) (data : Bytes) (end_stream : Bool) :
    Option (Http.FilterDataStatus × Context W A V) :=
  if !c.in_vm_context_created_ then some (.Continue, c)
  else
    let c := { c with request_body_buffer_ := some data, end_of_stream_ := end_stream }
    let (buffer, c) := getBuffer c .HttpRequestBody
    let buffer_size := match buffer with
      | none => 0
      | some b => b.size
    let c := { c with buffering_request_body_ := true }
    let r := onRequestBody h E c (buffer_size % 2 ^ 32) end_stream
    let result := convertFilterDataStatus E r.1
    (doAfterVmCallActions h fuel r.2).map (fun c => (result, c))

/-- The method `Context::encodeHeaders`. -/
def encodeHeaders {W A V : Type} (h : Host W A V) (E : StatusCodes) (fuel : Nat)
    (c : Context W A V) (headers : HeaderMap) (end_stream : Bool) :
    Option (Http.FilterHeadersStatus × Context W A V) :=
  let c := { c with response_headers_ := some headers }
  if !c.in_vm_context_created_ then some (.Continue, c)
  else if !end_stream then some (.StopIteration, c)
  else
    let c := { c with end_of_stream_ := end_stream }
    let r := onResponseHeaders h E c (headerSize (some headers)) end_stream
    let result := convertFilterHeadersStatus E r.1
    (doAfterVmCallActions h fuel r.2).map (fun c => (result, c))

/-- The method `Context::encodeData`. -/
def encodeData {W A V : Type} (h : Host W A V) (E : StatusCodes) (fuel : Nat)
    (c : Context W A V) (data : Bytes) (end_stream : Bool) :
    Option (Http.FilterDataStatus × Context W A V) :=
  if !c.in_vm_context_created_ then some (.Continue, c)
  else
    let c := { c with response_body_buffer_ := some data, end_of_stream_ := end_stream }
    let (buffer, c) := getBuffer c .HttpResponseBody
    let buffer_size := match buffer with
      | none => 0
      | some b => b.size
    let r := onResponseBody h E c (buffer_size % 2 ^ 32) end_stream
    let result := convertFilterDataStatus E r.1
    (doAfterVmCallActions h fuel r.2).map (fun c => (result, c))

/-- Running the closures `q` one after the other on the proxy: the proxy afterwards and what
they registered, in order. -/
def runGeneration {W A V : Type} (h : Host W A V) (v : V) : List A → V × List A
  | [] => (v, [])
  | f :: q =>
    let r := h.runAction f v
    let s := runGeneration h r.1 q
    (s.1, r.2 ++ s.2)

/-- The first-in first-out schedule of a queue `q`: the closures of `q` in registration
order, then in the same way the closures they registered, for at most `k` rounds.  Yields
the proxy at the end and the closures in the order in which they run; `none` when closures
are still pending after `k` rounds. -/
def fifoSchedule {W A V : Type} (h : Host W A V) : Nat → V → List A → Option (V × List A)
  | _, v, [] => some (v, [])
  | 0, _, _ :: _ => none
  | k + 1, v, f :: q =>
    let s := runGeneration h v (f :: q)
    (fifoSchedule h k s.1 s.2).map (fun t => (t.1, (f :: q) ++ t.2))

/-- An engine whose state is its failed flag and whose guest traps on every call: each
entry point returns 1 and leaves the engine failed; a queued closure is a response code,
running it records the code on the proxy. -/
def trappingHost : Host Bool Nat (List Nat) :=
  { isFailed := fun w => w,
    handle_request_ := fun _ _ => (1, true, []),
    handle_response_ := fun _ _ _ _ => (1, true, []),
    runAction := fun a v => (v ++ [a], []) }

/-- An engine that never fails: `handle_request` returns the packed value `7 * 2 ^ 32 + 1`
(continuation id 7, next-action code 1) and registers the closure 503, `handle_response`
returns 1; a queued closure is a response code, running it records the code on the proxy and
a code above 900 registers the closure one below. -/
def healthyHost : Host Bool Nat (List Nat) :=
  { isFailed := fun w => w,
    handle_request_ := fun _ w => (7 * 2 ^ 32 + 1, w, [503]),
    handle_response_ := fun _ w _ _ => (1, w, []),
    runAction := fun a v => (v ++ [a], if 900 < a then [a - 1] else []) }

/-- A stream context bound to a live engine, fail-closed, past `decodeHeaders`. -/
def liveContext : Context Bool Nat (List Nat) :=
  { wasm_ := some false, plugin_ := { fail_open_ := false }, in_vm_context_created_ := true,
    proxy := [] }

/-- A stream context without engine (as built for a failed plugin), fail-closed. -/
def failedContext : Context Bool Nat (List Nat) :=
  { wasm_ := none, plugin_ := { fail_open_ := false }, proxy := [] }

/-- The context once the closures `t` have run: empty queue, proxy `v`, `t` recorded. -/
def Context.afterActions {W A V : Type} (c : Context W A V) (v : V) (pending t : List A) :
    Context W A V :=
  { c with after_vm_call_actions_ := pending, proxy := v, ranActions := c.ranActions ++ t }

/-- A live context whose queue holds the closures 902 and 5. -/
def queuedContext : Context Bool Nat (List Nat) :=
  { liveContext with after_vm_call_actions_ := [902, 5] }

/-- The enumeration `WasmResult` (`http_wasm_common.h`), restricted to the values used. -/
inductive WasmResult where
  | Ok : WasmResult
  | NotFound : WasmResult
  | BadArgument : WasmResult
  | Unimplemented : WasmResult
  deriving DecidableEq, Repr

/-- The method `Buffer::copyTo`: the returned value (the `uint64_t` that the `return`
converts to `int64_t`), the bytes that `copyOut` writes at `ptr`, and the buffer after the
call. -/
def Buffer.copyTo (b : Buffer) (dest_size : Nat) : Nat × Bytes × Buffer :=
  let eof := (1 <<< 32) % 2 ^ 64
  match b.const_buffer_instance_ with
  | none => (eof, [], b)
  | some data =>
    if b.bytes_to_skip_ ≥ data.length then (eof, [], b)
    else
      let data_size := data.length
      let bytes_to_copy := min dest_size (data_size - b.bytes_to_skip_)
      let copied := (data.drop b.bytes_to_skip_).take bytes_to_copy
      let b := { b with bytes_to_skip_ := (b.bytes_to_skip_ + dest_size) % 2 ^ 64 }
      let eof := ((if bytes_to_copy ≤ dest_size then 1 else 0) <<< 32) % 2 ^ 64
      (bytes_to_copy ||| eof, copied, b)

/-- The method `Buffer::copyFrom`.  `drain(n)` removes the first `n` bytes of the proxy's
buffer and `prepend` puts the data in front of what is left.  The class binds
`buffer_instance_` and `const_buffer_instance_` to the same buffer (`set`), so a bound
read-only view shows the new content. -/
def Buffer.copyFrom (b : Buffer) (_start : Nat) (data : Bytes) (length : Nat) :
    WasmResult × Buffer :=
  match b.buffer_instance_ with
  | some content =>
    let content := if length ≠ 0 then content.drop content.length else content
    let content := data ++ content
    (.Ok, { b with buffer_instance_ := some content,
                   const_buffer_instance_ := b.const_buffer_instance_.map (fun _ => content) })
  | none => (.Ok, b)

/-- A sequence of `copyTo` calls with the capacities `sizes`, one after the other: the buffer
after the last call. -/
def copyToAll (b : Buffer) : List Nat → Buffer
  | [] => b
  | dest_size :: sizes => copyToAll (b.copyTo dest_size).2.2 sizes

/-- A buffer bound to the ten bytes 0 .. 9, cursor 0. -/
def exampleBuffer : Buffer := Buffer.set {} (some [0, 1, 2, 3, 4, 5, 6, 7, 8, 9])

/-- The enumeration `WasmHeaderMapType`; `Other` stands for every value that is none of the
four enumerators. -/
inductive WasmHeaderMapType where
  | RequestHeaders : WasmHeaderMapType
  | RequestTrailers : WasmHeaderMapType
  | ResponseHeaders : WasmHeaderMapType
  | ResponseTrailers : WasmHeaderMapType
  | Other : WasmHeaderMapType
  deriving DecidableEq, Repr

/-- The operations of the proxy's `Http::HeaderMap` and the constructor of
`Http::LowerCaseString` that the context calls; their code is not in the source tree, they
are parameters. -/
structure HeaderMapImpl where
  LowerCaseString : String → String
  addCopy : HeaderMap → String → String → HeaderMap
  get : HeaderMap → String → List String
  remove : HeaderMap → String → HeaderMap
  setCopy : HeaderMap → String → String → HeaderMap
  byteSize : HeaderMap → Nat

/-- The method `Context::addAfterVmCallAction`. -/
def addAfterVmCallAction {W A V : Type} (c : Context W A V) (f : A) : Context W A V :=
  { c with after_vm_call_actions_ := c.after_vm_call_actions_ ++ [f] }

/-- The method `Context::sendLocalResponse`; `sendLocalReply response_code` is the closure
that calls `decoder_callbacks_->sendLocalReply` with that code. -/
def sendLocalResponse {W A V : Type} (sendLocalReply : Nat → A) (c : Context W A V)
    (response_code : Nat) : Context W A V :=
  if c.decoder_callbacks_ then addAfterVmCallAction c (sendLocalReply response_code)
  else c

/-- The method `Context::getMap`: the map that the returned pointer refers to (`none` for
the null pointer) and the context after the call.  `addDecodedTrailers` and
`addEncodedTrailers` create the trailer map of the stream, empty. -/
def getMap {W A V : Type} (c : Context W A V) (type : WasmHeaderMapType) :
    Option HeaderMap × Context W A V :=
  match type with
  | .RequestHeaders => (c.request_headers_, c)
  | .RequestTrailers =>
    let c := if c.request_trailers_.isNone && c.request_body_buffer_.isSome
        && c.end_of_stream_ && c.decoder_callbacks_
      then { c with request_trailers_ := some [] } else c
    (c.request_trailers_, c)
  | .ResponseHeaders => (c.response_headers_, c)
  | .ResponseTrailers =>
    let c := if c.response_trailers_.isNone && c.response_body_buffer_.isSome
        && c.end_of_stream_ && c.encoder_callbacks_
      then { c with response_trailers_ := some [] } else c
    (c.response_trailers_, c)
  | .Other => (none, c)

/-- The method `Context::getConstMap`. -/
def getConstMap {W A V : Type} (c : Context W A V) (type : WasmHeaderMapType) :
    Option HeaderMap :=
  match type with
  | .RequestHeaders => c.request_headers_
  | .RequestTrailers => c.request_trailers_
  | .ResponseHeaders => c.response_headers_
  | .ResponseTrailers => c.response_trailers_
  | .Other => none

/-- A write through the pointer that `getMap` returned for `type`: the map it refers to
becomes `m`. -/
def Context.writeMap {W A V : Type} (c : Context W A V) (type : WasmHeaderMapType)
    (m : HeaderMap) : Context W A V :=
  match type with
  | .RequestHeaders => { c with request_headers_ := some m }
  | .RequestTrailers => { c with request_trailers_ := some m }
  | .ResponseHeaders => { c with response_headers_ := some m }
  | .ResponseTrailers => { c with response_trailers_ := some m }
  | .Other => c

/-- The call `decoder_callbacks_->downstreamCallbacks()->clearRouteCache()`, guarded as in
the three mutating accessors. -/
def clearRouteCacheIfRequestHeaders {W A V : Type} (c : Context W A V)
    (type : WasmHeaderMapType) : Context W A V :=
  if type = .RequestHeaders ∧ c.decoder_callbacks_ = true then
    { c with clearRouteCacheCalls := c.clearRouteCacheCalls + 1 }
  else c

/-- The method `Context::addHeaderMapValue`. -/
def addHeaderMapValue {W A V : Type} (L : HeaderMapImpl) (c : Context W A V)
    (type : WasmHeaderMapType) (key value : String) : WasmResult × Context W A V :=
  match getMap c type with
  | (none, c) => (.BadArgument, c)
  | (some map, c) =>
    let lower_key := L.LowerCaseString key
    let c := c.writeMap type (L.addCopy map lower_key value)
    (.Ok, clearRouteCacheIfRequestHeaders c type)

/-- The method `Context::getHeaderMapValue`: the result and the vector `name_values`
afterwards. -/
def getHeaderMapValue {W A V : Type} (L : HeaderMapImpl) (c : Context W A V)
    (type : WasmHeaderMapType) (key : String) (name_values : List String) :
    WasmResult × List String :=
  match getConstMap c type with
  | none => (.BadArgument, name_values)
  | some map =>
    let lower_key := L.LowerCaseString key
    let entries := L.get map lower_key
    if entries.isEmpty then (.NotFound, name_values)
    else (.Ok, entries)

/-- The method `Context::getHeaderNames`: the result and the vector `names` afterwards. -/
def getHeaderNames {W A V : Type} (c : Context W A V) (type : WasmHeaderMapType)
    (names : List String) : WasmResult × List String :=
  match getConstMap c type with
  | none => (.BadArgument, names)
  | some map => (.Ok, map.map Prod.fst)

/-- The method `Context::removeHeaderMapValue`. -/
def removeHeaderMapValue {W A V : Type} (L : HeaderMapImpl) (c : Context W A V)
    (type : WasmHeaderMapType) (key : String) : WasmResult × Context W A V :=
  match getMap c type with
  | (none, c) => (.BadArgument, c)
  | (some map, c) =>
    let lower_key := L.LowerCaseString key
    let c := c.writeMap type (L.remove map lower_key)
    (.Ok, clearRouteCacheIfRequestHeaders c type)

/-- The method `Context::replaceHeaderMapValue`. -/
def replaceHeaderMapValue {W A V : Type} (L : HeaderMapImpl) (c : Context W A V)
    (type : WasmHeaderMapType) (key value : String) : WasmResult × Context W A V :=
  match getMap c type with
  | (none, c) => (.BadArgument, c)
  | (some map, c) =>
    let lower_key := L.LowerCaseString key
    let c := c.writeMap type (L.setCopy map lower_key value)
    (.Ok, clearRouteCacheIfRequestHeaders c type)

/-- The method `Context::getHeaderMapSize`: the result, the value at `result` afterwards and
the context after the call. -/
def getHeaderMapSize {W A V : Type} (L : HeaderMapImpl) (c : Context W A V)
    (type : WasmHeaderMapType) (result : Nat) : WasmResult × Nat × Context W A V :=
  match getMap c type with
  | (none, c) => (.BadArgument, result, c)
  | (some map, c) => (.Ok, L.byteSize map % 2 ^ 32, c)

/-- A mutating call of the header map interface. -/
inductive HeaderMapCall where
  | add (key value : String) : HeaderMapCall
  | remove (key : String) : HeaderMapCall
  | replace (key value : String) : HeaderMapCall
  deriving DecidableEq, Repr

/-- The context after one mutating call on the map `type`. -/
def HeaderMapCall.run {W A V : Type} (L : HeaderMapImpl) (c : Context W A V)
    (type : WasmHeaderMapType) : HeaderMapCall → Context W A V
  | .add key value => (addHeaderMapValue L c type key value).2
  | .remove key => (removeHeaderMapValue L c type key).2
  | .replace key value => (replaceHeaderMapValue L c type key value).2

/-- The context after the mutating calls `calls` on the map `type`, made one after the
other. -/
def runHeaderMapCalls {W A V : Type} (L : HeaderMapImpl) (type : WasmHeaderMapType) :
    Context W A V → List HeaderMapCall → Context W A V
  | c, [] => c
  | c, call :: calls => runHeaderMapCalls L type (call.run L c type) calls

/-- The trailer map recorded for `type`, for the two trailer kinds. -/
def Context.trailers {W A V : Type} (c : Context W A V) : WasmHeaderMapType → Option HeaderMap
  | .RequestTrailers => c.request_trailers_
  | .ResponseTrailers => c.response_trailers_
  | _ => none

/-- The body buffer of the direction is set, the end of the stream has been seen and the
callback handle of the direction is set. -/
def Context.trailersAvailable {W A V : Type} (c : Context W A V) : WasmHeaderMapType → Bool
  | .RequestTrailers => c.request_body_buffer_.isSome && c.end_of_stream_ && c.decoder_callbacks_
  | .ResponseTrailers =>
    c.response_body_buffer_.isSome && c.end_of_stream_ && c.encoder_callbacks_
  | _ => false

/-- A header map implementation on entry lists: keys are kept as given, `addCopy` appends,
`remove` drops the entries of the key, `setCopy` drops them and appends, the byte size is
the total length of keys and values. -/
def exampleHeaderMapImpl : HeaderMapImpl :=
  { LowerCaseString := fun key => key,
    addCopy := fun m key value => m ++ [(key, value)],
    get := fun m key => (m.filter (fun e => e.1 == key)).map Prod.snd,
    remove := fun m key => m.filter (fun e => e.1 != key),
    setCopy := fun m key value => m.filter (fun e => e.1 != key) ++ [(key, value)],
    byteSize := fun m => (m.map (fun e => e.1.length + e.2.length)).sum }

/-- A stream context without engine, fail-closed, with the decoder callbacks set. -/
def closedContext : Context Bool Nat (List Nat) :=
  { failedContext with decoder_callbacks_ := true }

/-- A live context past `decodeHeaders` with request headers, no callbacks set. -/
def headersContext : Context Bool Nat (List Nat) :=
  { liveContext with request_headers_ := some [("host", "a")] }

/-- A live context at the end of the request body, with the decoder callbacks set. -/
def bodyEndContext : Context Bool Nat (List Nat) :=
  { liveContext with request_headers_ := some [("host", "a")], request_body_buffer_ := some [],
                     end_of_stream_ := true, decoder_callbacks_ := true }

/-- The enumeration `envoy::config::core::v3::TrafficDirection`. -/
inductive TrafficDirection where
  | UNSPECIFIED : TrafficDirection
  | INBOUND : TrafficDirection
  | OUTBOUND : TrafficDirection
  deriving DecidableEq, Repr

/-- The message `VmConfig`, as far as the constructor of `Plugin` reads it. -/
structure VmConfig where
  vm_id : String := ""
  runtime : String := ""
  deriving DecidableEq, Repr

/-- The message `PluginConfig`, as far as the constructor of `Plugin` reads it; `C` is the
type of its field `configuration` (a protobuf `Any`). -/
structure PluginConfig (C : Type) where
  name : String := ""
  root_id : String := ""
  vm_config : VmConfig := {}
  configuration : C
  fail_open : Bool := false

/-- The functions of the protobuf library that the constructor of `Plugin` calls; their code
is not in the source tree, they are parameters.  `M` is the type of the listener metadata;
`hash` yields a `std::size_t`. -/
structure Protobuf (C M : Type) where
  anyToBytes : C → String
  hash : M → Nat
  TrafficDirection_Name : TrafficDirection → String

/-- The method `Plugin::createPluginKey`; `std::to_string` writes the hash in decimal. -/
def createPluginKey {C M : Type} (U : Protobuf C M) (config : PluginConfig C)
    (direction : TrafficDirection) (listener_metadata : Option M) : String :=
  config.name ++ "||" ++ U.TrafficDirection_Name direction ++
    (match listener_metadata with
     | some m => "||" ++ toString (U.hash m)
     | none => "")

/-- The constructor `Plugin::Plugin`, as far as the fields of the embedding go: the members
are initialized in the order of their declaration, `key_` from `root_id_` and
`plugin_configuration_`. -/
def Plugin.ctor {C M : Type} (U : Protobuf C M) (config : PluginConfig C)
    (direction : TrafficDirection) (listener_metadata : Option M) : Plugin :=
  let name_ := config.name
  let root_id_ := config.root_id
  let vm_id_ := config.vm_config.vm_id
  let engine_ := config.vm_config.runtime
  let plugin_configuration_ := U.anyToBytes config.configuration
  let fail_open_ := config.fail_open
  let key_ := root_id_ ++ "||" ++ plugin_configuration_ ++ "||" ++
    createPluginKey U config direction listener_metadata
  { name_ := name_, root_id_ := root_id_, vm_id_ := vm_id_, engine_ := engine_,
    plugin_configuration_ := plugin_configuration_, fail_open_ := fail_open_, key_ := key_ }

/-- A protobuf library whose configurations are their serialized bytes and whose metadata
are their hash; the direction names are those of the enumerators. -/
def exampleProtobuf : Protobuf String Nat :=
  { anyToBytes := fun c => c,
    hash := fun m => m,
    TrafficDirection_Name := fun d =>
      match d with
      | .UNSPECIFIED => "UNSPECIFIED"
      | .INBOUND => "INBOUND"
      | .OUTBOUND => "OUTBOUND" }

/-- A plugin configuration. -/
def examplePluginConfig : PluginConfig String :=
  { name := "auth", root_id := "r1", vm_config := { vm_id := "vm", runtime := "v8" },
    configuration := "cfg", fail_open := false }

/-- The members of the class `Context` that tie a context to the others.  A pointer to a
context is its address (`none` is the null pointer). -/
structure ContextLinks where
  id_ : Nat := 0
  parent_context_id_ : Nat := 0
  parent_context_ : Option Nat := none
  deriving DecidableEq, Repr

/-- The class `Wasm` (`vm.h`, not in the source tree) as the constructors of `Context` use
it: the table `contexts_`, from context ids to pointers. -/
structure Wasm where
  contexts_ : List (Nat × Option Nat) := []
  deriving DecidableEq, Repr

/-- The assignment `contexts_[key] = p` of `std::unordered_map`. -/
def Wasm.assign (wasm : Wasm) (key : Nat) (p : Option Nat) : Wasm :=
  { wasm with contexts_ := (key, p) :: wasm.contexts_.filter (fun e => e.1 != key) }

/-- The read `contexts_[key]` of `std::unordered_map`: a key that is absent is inserted with
the null pointer. -/
def Wasm.index (wasm : Wasm) (key : Nat) : Option Nat × Wasm :=
  match wasm.contexts_.lookup key with
  | some p => (p, wasm)
  | none => (none, { wasm with contexts_ := (key, none) :: wasm.contexts_ })

/-- The constructor `Context::Context(Wasm*)` of the VM context.  `heap` holds the contexts
in memory, the new object is placed behind them: `this` is `heap.length`. -/
def Context.vmContext (heap : List ContextLinks) (wasm : Wasm) : List ContextLinks × Wasm :=
  let this := heap.length
  let self : ContextLinks := { parent_context_ := some this }
  (heap ++ [self], wasm.assign self.id_ (some this))

/-- The constructor `Context::Context(Wasm*, const PluginSharedPtr&)` of a root context;
`allocated` is the value that `wasm->allocContextId()` returns. -/
def Context.rootContext (heap : List ContextLinks) (wasm : Wasm) (allocated : Nat) :
    List ContextLinks × Wasm :=
  let this := heap.length
  let self : ContextLinks := { id_ := allocated % 2 ^ 32, parent_context_ := some this }
  (heap ++ [self], wasm.assign self.id_ (some this))

/-- The constructor `Context::Context(Wasm*, uint32_t, PluginHandleSharedPtr)` of a stream
context; `wasm` is `none` for the null pointer, `allocated` is the value that
`wasm->allocContextId()` returns.  The initializer `parent_context_id_(parent_context_id_)`
reads the member that it initializes: the member keeps what its storage held before,
`indeterminate`.  The parameter `root_context_id` is not read. -/
def Context.streamContext (heap : List ContextLinks) (wasm : Option Wasm) (allocated : Nat)
    (_root_context_id : Nat) (indeterminate : Nat) : List ContextLinks × Option Wasm :=
  let this := heap.length
  let id_ := match wasm with
    | some _ => allocated % 2 ^ 32
    | none => 0
  let parent_context_id_ := indeterminate % 2 ^ 32
  match wasm with
  | some w =>
    let w := w.assign id_ (some this)
    let (parent_context_, w) := w.index parent_context_id_
    (heap ++ [{ id_ := id_, parent_context_id_ := parent_context_id_,
                parent_context_ := parent_context_ }], some w)
  | none =>
    (heap ++ [{ id_ := id_, parent_context_id_ := parent_context_id_ }], none)

/-- The loop of `Context::root_context`; following a null pointer is a fault. -/
def root_contextLoop (heap : List ContextLinks) :
    Nat → Option Nat → Option Nat → Outcome (Option Nat)
  | 0, previous, parent => if parent ≠ previous then .outOfFuel else .ok parent
  | fuel + 1, previous, parent =>
    if parent ≠ previous then
      match parent with
      | none => .fault
      | some address =>
        match heap[address]? with
        | none => .fault
        | some next => root_contextLoop heap fuel parent next.parent_context_
    else .ok parent

/-- The method `Context::root_context` of the context at the address `this`. -/
def root_context (heap : List ContextLinks) (fuel : Nat) (this : Nat) : Outcome (Option Nat) :=
  match heap[this]? with
  | none => .fault
  | some self => root_contextLoop heap fuel (some this) self.parent_context_

/-- An engine with its VM context (id 0, address 0) and one root context (id 1,
address 1). -/
def exampleEngine : List ContextLinks × Wasm :=
  let s := Context.vmContext [] {}
  Context.rootContext s.1 s.2 1

/-- A module made of a custom section of declared length 0 followed by a custom section
named `"precompiled_"`.  The first section has no room for a name; its name field is read
from the bytes of the second. -/
def overrunModule : Bytes := exampleHeader ++ ([0, 0] ++ ([0, 13, 12] ++ precompiledTag))

/-- The method `Buffer::set(const ::Envoy::Buffer::Instance*)`. -/
def Buffer.setConst (b : Buffer) (buffer_instance : Option Bytes) : Buffer :=
  { b.clear with const_buffer_instance_ := buffer_instance }

/-- A live context whose buffer view is bound to a first body chunk of ten bytes, which the
guest has read with one `copyTo` of capacity 10. -/
def secondChunkContext : Context Bool Nat (List Nat) :=
  { liveContext with request_body_buffer_ := some [0, 1, 2, 3, 4, 5, 6, 7, 8, 9],
                     buffer_ := (exampleBuffer.copyTo 10).2.2 }

/-- The character `|`, of which the separator `"||"` of the plugin key is made. -/
def keyBar : Char := Char.ofNat 124

/-- A plugin configuration whose root id holds the separator. -/
def barredRootConfig : PluginConfig String :=
  { name := "n", root_id := "a||b", configuration := "c" }

/-- A plugin configuration whose serialized configuration holds the separator. -/
def barredBytesConfig : PluginConfig String :=
  { name := "n", root_id := "a", configuration := "b||c" }

/-- The part of `decodeHeaders`, at the end of the stream, that lies in the scope of the
guard `DeferAfterCallActions`: the status that `onRequestHeaders` returns and the context
when it has returned, which is when the guard is destroyed. -/
def decodeHeadersCall {W A V : Type} (h : Host W A V) (E : StatusCodes) (c : Context W A V)
    (headers : HeaderMap) : Nat × Context W A V :=
  let c := { c with in_vm_context_created_ := true, request_headers_ := some headers }
  let c := { c with end_of_stream_ := true }
  onRequestHeaders h E c (headerSize (some headers)) true

/-- The part of `decodeData` that lies in the scope of the guard `DeferAfterCallActions`. -/
def decodeDataCall {W A V : Type} (h : Host W A V) (E : StatusCodes) (c : Context W A V)
    (data : Bytes) (end_stream : Bool) : Nat × Context W A V :=
  let c := { c with request_body_buffer_ := some data, end_of_stream_ := end_stream }
  let (buffer, c) := getBuffer c .HttpRequestBody
  let buffer_size := match buffer with
    | none => 0
    | some b => b.size
  let c := { c with buffering_request_body_ := true }
  onRequestBody h E c (buffer_size % 2 ^ 32) end_stream

/-- The part of `encodeHeaders`, at the end of the stream, that lies in the scope of the
guard `DeferAfterCallActions`. -/
def encodeHeadersCall {W A V : Type} (h : Host W A V) (E : StatusCodes) (c : Context W A V)
    (headers : HeaderMap) : Nat × Context W A V :=
  let c := { c with response_headers_ := some headers }
  let c := { c with end_of_stream_ := true }
  onResponseHeaders h E c (headerSize (some headers)) true

/-- The part of `encodeData` that lies in the scope of the guard `DeferAfterCallActions`. -/
def encodeDataCall {W A V : Type} (h : Host W A V) (E : StatusCodes) (c : Context W A V)
    (data : Bytes) (end_stream : Bool) : Nat × Context W A V :=
  let c := { c with response_body_buffer_ := some data, end_of_stream_ := end_stream }
  let (buffer, c) := getBuffer c .HttpResponseBody
  let buffer_size := match buffer with
    | none => 0
    | some b => b.size
  onResponseBody h E c (buffer_size % 2 ^ 32) end_stream

/-- The engine of `healthyHost` with a guest that registers the closure 901 during
`handle_response`. -/
def respondingHost : Host Bool Nat (List Nat) :=
  { healthyHost with handle_response_ := fun _ w _ _ => (1, w, [901]) }

/-! ## Theorems -/

/-! ### Bit operations on bytes -/

theorem land_7f (x : Nat) : x &&& 0x7f = x % 128 := by
  have h := Nat.and_pow_two_sub_one_eq_mod x 7
  simpa using h

set_option maxRecDepth 100000 in
theorem land_80_small : ∀ x < 256, (x &&& 0x80 = 0 ↔ x < 128) := by decide

theorem land_80 (b : UInt8) : b.toNat &&& 0x80 = 0 ↔ b.toNat < 128 :=
  land_80_small b.toNat (UInt8.toNat_lt b)

/-- One iteration of the loop of `parseVarint`, reading the byte `b` at `pre.length`. -/
theorem parseVarintLoop_step (pre tl : Bytes) (b : UInt8) (end_ fuel shift total : Nat)
    (hend : pre.length < end_) :
    parseVarintLoop (pre ++ b :: tl) end_ (fuel + 1) pre.length shift total =
      if shift = 28 ∧ 3 < b.toNat % 128 then .fail
      else if b.toNat < 128 then
        .ok ((total + (b.toNat % 128 * 2 ^ shift) % 2 ^ 32) % 2 ^ 32, pre.length + 1)
      else if 28 < shift + 7 then .fail
      else parseVarintLoop (pre ++ b :: tl) end_ fuel (pre.length + 1) (shift + 7)
        ((total + (b.toNat % 128 * 2 ^ shift) % 2 ^ 32) % 2 ^ 32) := by
  have hnot : ¬ (pre.length + 1 > end_) := by omega
  have hget : (pre ++ b :: tl)[pre.length]? = some b := by
    rw [List.getElem?_append_right (le_refl _)]; simp
  rw [parseVarintLoop]
  simp only [hend, hnot, if_true, if_false, hget, land_7f, land_80, Nat.shiftLeft_eq, gt_iff_lt]

/-! ### The varint decoder on a framed encoding -/

theorem parseVarintLoop_framed :
    ∀ (bs pre rest : Bytes) (end_ fuel k total : Nat),
      lebFramed bs = true → pre.length + bs.length ≤ end_ → bs.length ≤ fuel →
      k + bs.length ≤ 5 → total < 2 ^ (7 * k) → total + lebValue bs * 2 ^ (7 * k) < 2 ^ 30 →
      parseVarintLoop (pre ++ (bs ++ rest)) end_ fuel pre.length (7 * k) total
        = .ok (total + lebValue bs * 2 ^ (7 * k), pre.length + bs.length) := by
  intro bs
  induction bs with
  | nil => intro pre rest end_ fuel k total h; simp [lebFramed] at h
  | cons b bs ih =>
    intro pre rest end_ fuel k total hfr hend hfuel hk htot hval
    cases fuel with
    | zero => simp at hfuel
    | succ fuel =>
      simp only [List.length_cons] at hend hfuel hk
      rw [List.cons_append, parseVarintLoop_step _ _ _ _ _ _ _ (by omega)]
      have hv : b.toNat % 128 < 128 := Nat.mod_lt _ (by norm_num)
      cases bs with
      | nil =>
        simp only [lebFramed, decide_eq_true_eq] at hfr
        simp only [lebValue, List.length_nil, Nat.mul_zero, Nat.add_zero,
          List.length_cons, Nat.zero_add] at hval hk ⊢
        have hk4 : k ≤ 4 := by omega
        interval_cases k <;> simp only [Nat.reducePow, Nat.reduceMul] at htot hval ⊢ <;>
          rw [if_neg (by omega), if_pos hfr] <;> congr 2 <;> omega
      | cons c bs =>
        simp only [lebFramed, Bool.and_eq_true, decide_eq_true_eq] at hfr
        simp only [List.length_cons] at hk hend hfuel
        have hk3 : k ≤ 3 := by omega
        have e1 : pre ++ b :: (c :: bs ++ rest) = (pre ++ [b]) ++ ((c :: bs) ++ rest) := by simp
        have e2 : pre.length + 1 = (pre ++ [b]).length := by simp
        have e3 : 7 * k + 7 = 7 * (k + 1) := by ring
        have hP : 2 ^ (7 * (k + 1)) = 128 * 2 ^ (7 * k) := by
          rw [Nat.mul_add, Nat.pow_add]; ring
        have hL : lebValue (b :: c :: bs) = b.toNat % 128 + 128 * lebValue (c :: bs) := rfl
        rw [hL] at hval
        have hpos : 0 < 2 ^ (7 * k) := Nat.two_pow_pos _
        have hsplit : (b.toNat % 128 + 128 * lebValue (c :: bs)) * 2 ^ (7 * k)
            = b.toNat % 128 * 2 ^ (7 * k) + lebValue (c :: bs) * (128 * 2 ^ (7 * k)) := by ring
        have hle : b.toNat % 128 * 2 ^ (7 * k) ≤ 127 * 2 ^ (7 * k) :=
          Nat.mul_le_mul_right _ (by omega)
        have hmod : (total + (b.toNat % 128 * 2 ^ (7 * k)) % 2 ^ 32) % 2 ^ 32
            = total + b.toNat % 128 * 2 ^ (7 * k) := by
          rw [hsplit] at hval
          rw [Nat.mod_eq_of_lt (a := b.toNat % 128 * 2 ^ (7 * k)) (by omega),
            Nat.mod_eq_of_lt (by omega)]
        rw [if_neg (by omega), if_neg (by omega), if_neg (by omega), hmod, e1, e2, e3,
          ih (pre ++ [b]) rest end_ fuel (k + 1) _ hfr.2
            (by simp only [List.length_append, List.length_cons, List.length_nil]; omega)
            (by simp only [List.length_cons]; omega)
            (by simp only [List.length_cons]; omega) (by rw [hP]; omega)
            (by rw [hP]; rw [hsplit] at hval; omega)]
        rw [hP, hL, hsplit]
        simp only [List.length_append, List.length_cons, List.length_nil]
        congr 2 <;> omega

/-- On a framed encoding of `n` laid out at `pre.length`, `parseVarint` succeeds with `n` and
stops right after the encoding, whatever follows it. -/
theorem parseVarint_framed (pre enc rest : Bytes) (n end_ : Nat) (henc : IsVarint enc n)
    (hend : pre.length + enc.length ≤ end_) :
    parseVarint (pre ++ (enc ++ rest)) pre.length end_ = .ok (n, pre.length + enc.length) := by
  obtain ⟨hfr, hlen, hval, hn⟩ := henc
  have h := parseVarintLoop_framed enc pre rest end_ (end_ - pre.length) 0 0 hfr hend
    (by omega) (by omega) (by norm_num) (by simpa [hval] using hn)
  simpa [parseVarint, hval] using h

/-! ### The minimal encoding -/

theorem lebFramed_cons (b : UInt8) (tl : Bytes) (hb : 128 ≤ b.toNat)
    (htl : lebFramed tl = true) : lebFramed (b :: tl) = true := by
  cases tl with
  | nil => simp [lebFramed] at htl
  | cons c tl => simp [lebFramed, hb, htl]

theorem leb128Fuel_framed : ∀ (f n : Nat), n ≤ f → lebFramed (leb128Fuel f n) = true := by
  intro f
  induction f with
  | zero =>
    intro n hn
    have h0 : n = 0 := by omega
    subst h0
    decide
  | succ f ih =>
    intro n hn
    rw [leb128Fuel]
    split
    · rename_i hlt
      simp only [lebFramed, decide_eq_true_eq]
      rw [UInt8.toNat_ofNat_of_lt (by simp only [UInt8.size]; omega)]
      exact hlt
    · rename_i hge
      refine lebFramed_cons _ _ ?_ (ih _ (by omega))
      rw [UInt8.toNat_ofNat_of_lt (by simp only [UInt8.size]; omega)]
      omega

theorem leb128Fuel_value : ∀ (f n : Nat), n ≤ f → lebValue (leb128Fuel f n) = n := by
  intro f
  induction f with
  | zero =>
    intro n hn
    have h0 : n = 0 := by omega
    subst h0
    decide
  | succ f ih =>
    intro n hn
    rw [leb128Fuel]
    split
    · rename_i hlt
      simp only [lebValue]
      rw [UInt8.toNat_ofNat_of_lt (by simp only [UInt8.size]; omega)]
      omega
    · rename_i hge
      simp only [lebValue]
      rw [UInt8.toNat_ofNat_of_lt (by simp only [UInt8.size]; omega), ih _ (by omega)]
      omega

theorem leb128Fuel_length : ∀ (f n m : Nat), n ≤ f → n < 128 ^ (m + 1) →
    (leb128Fuel f n).length ≤ m + 1 := by
  intro f
  induction f with
  | zero => intro n m _ _; simp [leb128Fuel]
  | succ f ih =>
    intro n m hn hlt
    rw [leb128Fuel]
    split
    · simp
    · rename_i hge
      cases m with
      | zero => simp at hlt; omega
      | succ m =>
        have hdiv : n / 128 < 128 ^ (m + 1) := by
          rw [Nat.div_lt_iff_lt_mul (by norm_num)]
          calc n < 128 ^ (m + 1 + 1) := hlt
            _ = 128 ^ (m + 1) * 128 := by rw [Nat.pow_succ]
        have := ih (n / 128) m (by omega) hdiv
        simp only [List.length_cons]
        omega

/-- The minimal encoding of a number below `2 ^ 30` is a varint in the sense of `IsVarint`. -/
theorem leb128_isVarint (n : Nat) (hn : n < 2 ^ 30) : IsVarint (leb128 n) n := by
  refine ⟨leb128Fuel_framed n n (le_refl _), ?_, leb128Fuel_value n n (le_refl _), hn⟩
  exact leb128Fuel_length n n 4 (le_refl _) (by norm_num at hn ⊢; omega)

/-- C7, amended: round trip of the varint decoder below `2 ^ 30`.  For every `n < 2 ^ 30` and
every trailing byte sequence `rest`, `parseVarint` applied to the unsigned LEB128 encoding of
`n` followed by `rest` (laid out after any bytes `pre`) succeeds, yields `n` and advances the
read position by exactly the length of the encoding. -/
theorem parseVarint_leb128 (n : Nat) (hn : n < 2 ^ 30) (pre rest : Bytes) :
    parseVarint (pre ++ (leb128 n ++ rest)) pre.length (pre ++ (leb128 n ++ rest)).length
      = .ok (n, pre.length + (leb128 n).length) :=
  parseVarint_framed pre (leb128 n) rest n _ (leb128_isVarint n hn) (by simp)

/-- C7 amended, for `n = 300` followed by the byte 7: the encoding is `AC 02`, the decoder
yields 300 and advances the position by 2. -/
theorem parseVarint_leb128_witness :
    300 < 2 ^ 30 ∧ leb128 300 = [0xAC, 0x02] ∧
    parseVarint ([] ++ (leb128 300 ++ [7])) 0 ([] ++ (leb128 300 ++ [7])).length
      = .ok (300, 0 + 2) :=
  ⟨by decide, by decide, parseVarint_leb128 300 (by decide) [] [7]⟩

/-! ### Failure cases of the varint decoder -/

theorem parseVarintLoop_outcome :
    ∀ (s pre rest : Bytes) (fuel m total : Nat), m ≤ 4 → s.length ≤ fuel →
      (((s.length ≤ m ∧ ∀ b ∈ s, 128 ≤ b.toNat) ∨
          (∃ b4, s[m]? = some b4 ∧ (∀ b ∈ s.take m, 128 ≤ b.toNat) ∧
            (3 < b4.toNat % 128 ∨ 128 ≤ b4.toNat))) →
        parseVarintLoop (pre ++ (s ++ rest)) (pre.length + s.length) fuel pre.length
          (28 - 7 * m) total = .fail) ∧
      (¬ ((s.length ≤ m ∧ ∀ b ∈ s, 128 ≤ b.toNat) ∨
          (∃ b4, s[m]? = some b4 ∧ (∀ b ∈ s.take m, 128 ≤ b.toNat) ∧
            (3 < b4.toNat % 128 ∨ 128 ≤ b4.toNat))) →
        ∃ n len, len ≤ s.length ∧
          parseVarintLoop (pre ++ (s ++ rest)) (pre.length + s.length) fuel pre.length
            (28 - 7 * m) total = .ok (n, pre.length + len)) := by
  intro s
  induction s with
  | nil =>
    intro pre rest fuel m total _ _
    constructor
    · intro _
      cases fuel <;> simp [parseVarintLoop]
    · intro h
      exact absurd (Or.inl ⟨by simp, by simp⟩) h
  | cons b s ih =>
    intro pre rest fuel m total hm hfuel
    cases fuel with
    | zero => simp at hfuel
    | succ fuel =>
      simp only [List.length_cons] at hfuel
      rw [List.cons_append, parseVarintLoop_step _ _ _ _ _ _ _ (by simp)]
      cases m with
      | zero =>
        simp only [Nat.mul_zero, Nat.sub_zero, true_and, List.length_cons, List.take_zero,
          List.getElem?_cons_zero, Option.some.injEq, exists_eq_left', List.not_mem_nil,
          false_implies, implies_true]
        by_cases hv : 3 < b.toNat % 128
        · simp [hv]
        · by_cases hb : b.toNat < 128
          · simp only [hv, hb, if_false, if_true, false_or]
            constructor
            · intro h; omega
            · intro _; exact ⟨_, 1, by omega, rfl⟩
          · simp only [hv, hb, if_false, false_or]
            constructor
            · intro _; simp
            · intro h; omega
      | succ m =>
        have h28 : ¬ (28 - 7 * (m + 1) = 28 ∧ 3 < b.toNat % 128) := by omega
        rw [if_neg h28]
        by_cases hb : b.toNat < 128
        · rw [if_pos hb]
          constructor
          · rintro (⟨_, hall⟩ | ⟨b4, _, hall, _⟩)
            · have := hall b (by simp); omega
            · have := hall b (by simp); omega
          · intro _; exact ⟨_, 1, by simp, rfl⟩
        · have e1 : pre ++ b :: (s ++ rest) = (pre ++ [b]) ++ (s ++ rest) := by simp
          have e2 : pre.length + 1 = (pre ++ [b]).length := by simp
          have e3 : 28 - 7 * (m + 1) + 7 = 28 - 7 * m := by omega
          have e4 : pre.length + (b :: s).length = (pre ++ [b]).length + s.length := by
            simp; omega
          rw [if_neg hb, if_neg (by omega), e1, e2, e3, e4]
          obtain ⟨ihf, iho⟩ := ih (pre ++ [b]) rest fuel m
            ((total + b.toNat % 128 * 2 ^ (28 - 7 * (m + 1)) % 2 ^ 32) % 2 ^ 32)
            (by omega) (by omega)
          have hiff : ((s.length ≤ m ∧ ∀ x ∈ s, 128 ≤ x.toNat) ∨
                (∃ b4, s[m]? = some b4 ∧ (∀ x ∈ s.take m, 128 ≤ x.toNat) ∧
                  (3 < b4.toNat % 128 ∨ 128 ≤ b4.toNat))) ↔
              (((b :: s).length ≤ m + 1 ∧ ∀ x ∈ b :: s, 128 ≤ x.toNat) ∨
                (∃ b4, (b :: s)[m + 1]? = some b4 ∧
                  (∀ x ∈ (b :: s).take (m + 1), 128 ≤ x.toNat) ∧
                  (3 < b4.toNat % 128 ∨ 128 ≤ b4.toNat))) := by
            have hb' : 128 ≤ b.toNat := by omega
            simp [hb']
          rw [← hiff]
          refine ⟨ihf, fun h => ?_⟩
          obtain ⟨n, len, hlen, hr⟩ := iho h
          refine ⟨n, len + 1, by simp; omega, ?_⟩
          rw [hr]
          simp only [List.length_append, List.length_cons, List.length_nil]
          congr 2
          omega

/-- C7, the claim fails: `2 ^ 30` lies in the 32-bit range and its unsigned LEB128 encoding
is `80 80 80 80 04`, yet `parseVarint` rejects it (the overflow guard on the fifth byte
refuses every value above 3, so no number from `2 ^ 30` on round-trips); the same happens
for `2 ^ 32 - 1`, encoded `FF FF FF FF 0F`. -/
theorem parseVarint_rejects_two_pow_30 :
    2 ^ 30 < 2 ^ 32 ∧ leb128 (2 ^ 30) = [0x80, 0x80, 0x80, 0x80, 0x04] ∧
    parseVarint (leb128 (2 ^ 30) ++ []) 0 (leb128 (2 ^ 30) ++ []).length = .fail ∧
    leb128 (2 ^ 32 - 1) = [0xFF, 0xFF, 0xFF, 0xFF, 0x0F] ∧
    parseVarint (leb128 (2 ^ 32 - 1) ++ []) 0 (leb128 (2 ^ 32 - 1) ++ []).length = .fail := by
  decide

/-- C8: `parseVarint` run on the input `s` (laid out between `pre` and `rest`) reports
failure exactly when `s` is truncated or overflows at its fifth byte, and succeeds, stopping
inside `s`, in every other case. -/
theorem parseVarint_fail_iff (pre s rest : Bytes) :
    (parseVarint (pre ++ (s ++ rest)) pre.length (pre.length + s.length) = .fail ↔
      varintTruncated s ∨ varintOverflow s) ∧
    (¬ (varintTruncated s ∨ varintOverflow s) →
      ∃ n len, len ≤ s.length ∧
        parseVarint (pre ++ (s ++ rest)) pre.length (pre.length + s.length)
          = .ok (n, pre.length + len)) := by
  have h := parseVarintLoop_outcome s pre rest (pre.length + s.length - pre.length) 4 0
    (le_refl _) (by omega)
  simp only [Nat.reduceMul, Nat.sub_self] at h
  obtain ⟨hf, ho⟩ := h
  refine ⟨⟨fun hfail => ?_, hf⟩, ho⟩
  by_contra hne
  obtain ⟨n, len, _, hok⟩ := ho hne
  simp only [parseVarint] at hfail
  rw [hok] at hfail
  cases hfail

/-- C9, as the code behaves: the five bytes `FF FF FF FF 1F` are not accepted by
`parseVarint`. -/
theorem parseVarint_ff_1f_not_ok :
    ¬ ∃ r, parseVarint [0xFF, 0xFF, 0xFF, 0xFF, 0x1F] 0 5 = .ok r := by
  intro h
  obtain ⟨r, hr⟩ := h
  have hfail : parseVarint [0xFF, 0xFF, 0xFF, 0xFF, 0x1F] 0 5 = .fail := by decide
  rw [hfail] at hr
  cases hr

/-- C9, amended: `parseVarint` reports failure on `FF FF FF FF 1F` (the low seven bits of
the fifth byte, 31, exceed 3), while `FF FF FF FF 03` is accepted with value `2 ^ 30 - 1`. -/
theorem parseVarint_ff_1f_overflow :
    parseVarint [0xFF, 0xFF, 0xFF, 0xFF, 0x1F] 0 5 = .fail ∧
    parseVarint [0xFF, 0xFF, 0xFF, 0xFF, 0x03] 0 5 = .ok (2 ^ 30 - 1, 5) := by
  decide

/-! ### Reading a buffer laid out as a concatenation -/

theorem getElem?_at {B P T : Bytes} {b : UInt8} {i : Nat} (hB : B = P ++ b :: T)
    (hpos : i = P.length) : B[i]? = some b := by
  subst hB hpos
  rw [List.getElem?_append_right (le_refl _)]; simp

theorem parseVarint_at {B P E R : Bytes} {i n e : Nat}
    (hB : B = P ++ (E ++ R)) (hpos : i = P.length) (henc : IsVarint E n)
    (hend : i + E.length ≤ e) :
    parseVarint B i e = .ok (n, i + E.length) := by
  subst hB hpos
  exact parseVarint_framed P E R n e henc hend

theorem readRange_at {B P M R : Bytes} {i l : Nat}
    (hB : B = P ++ (M ++ R)) (hpos : i = P.length) (hlen : l = M.length) :
    readRange B i l = some M := by
  subst hB hpos hlen
  simp [readRange]

theorem readRange_length {B r : Bytes} {pos len : Nat} (h : readRange B pos len = some r) :
    r.length = len := by
  unfold readRange at h
  split at h
  · rename_i hle
    cases h
    simp only [List.length_take, List.length_drop]
    omega
  · cases h

theorem checkWasmHeader_header (hdr rest : Bytes) (hhdr : IsHeader hdr) :
    checkWasmHeader (hdr ++ rest) = .ok () := by
  obtain ⟨hlen, hmagic⟩ := hhdr
  have h8 : ¬ (hdr ++ rest).length < 8 := by simp; omega
  have hr : readRange (hdr ++ rest) 0 4 = some wasm_magic_number := by
    simp only [readRange, List.length_append, List.drop_zero, Nat.zero_add]
    rw [if_pos (by omega), List.take_append_of_le_length (by omega), hmagic]
  simp only [checkWasmHeader, h8, if_false, hr, if_true]

/-! ### One iteration of the loop of `getCustomSection` -/

theorem getCustomSectionLoop_plain (B name ret : Bytes) (fuel pos L p1 : Nat) (t : UInt8)
    (hpos : pos < B.length) (hget : B[pos]? = some t) (ht : t ≠ 0)
    (hv1 : parseVarint B (pos + 1) B.length = .ok (L, p1)) (hL : p1 + L ≤ B.length) :
    getCustomSectionLoop B name ret (fuel + 1) pos
      = getCustomSectionLoop B name ret fuel (p1 + L) := by
  rw [getCustomSectionLoop]
  simp only [hpos, if_true, show ¬ (pos + 1 > B.length) by omega, if_false, hget, hv1,
    show ¬ (p1 + L > B.length) by omega, ht]

theorem getCustomSectionLoop_custom (B name ret sname : Bytes) (fuel pos L p1 nl p2 : Nat)
    (hpos : pos < B.length) (hget : B[pos]? = some 0)
    (hv1 : parseVarint B (pos + 1) B.length = .ok (L, p1)) (hL : p1 + L ≤ B.length)
    (hv2 : parseVarint B p1 (p1 + L) = .ok (nl, p2)) (hn : p2 + nl ≤ p1 + L)
    (hr : readRange B p2 nl = some sname) :
    getCustomSectionLoop B name ret (fuel + 1) pos =
      if sname = name then
        match readRange B (p2 + nl) (p1 + L - (p2 + nl)) with
        | none => .fault
        | some r => .ok r
      else getCustomSectionLoop B name ret fuel (p1 + L) := by
  rw [getCustomSectionLoop]
  simp only [hpos, if_true, show ¬ (pos + 1 > B.length) by omega, if_false, hget, hv1,
    show ¬ (p1 + L > B.length) by omega, hv2, show ¬ (p2 + nl > p1 + L) by omega]
  by_cases hlen : nl = name.length
  · simp only [hlen, if_true]
    rw [← hlen, hr]
  · have hne : sname ≠ name := by
      intro h
      apply hlen
      rw [← readRange_length hr, h]
    simp only [hlen, if_false, hne]

theorem getCustomSectionLoop_end (B name ret : Bytes) (fuel pos : Nat)
    (hpos : B.length ≤ pos) : getCustomSectionLoop B name ret fuel pos = .ok ret := by
  cases fuel <;> rw [getCustomSectionLoop] <;> simp [show ¬ pos < B.length by omega]

/-- The body of a custom section: the payload after the name. -/
theorem getCustomSectionLoop_section (B name ret pre rest : Bytes) (s : WasmSection)
    (fuel : Nat) (hB : B = pre ++ (s.bytes ++ rest)) (hs : s.Framed) :
    getCustomSectionLoop B name ret (fuel + 1) pre.length =
      match s with
      | .custom _ _ sname body =>
        if sname = name then .ok body
        else getCustomSectionLoop B name ret fuel (pre.length + s.bytes.length)
      | .plain _ _ _ => getCustomSectionLoop B name ret fuel (pre.length + s.bytes.length) := by
  cases s with
  | plain t lenEnc payload =>
    obtain ⟨ht, hlen⟩ := hs
    simp only [WasmSection.bytes] at hB ⊢
    have hBlen : B.length = pre.length + (1 + (lenEnc.length + (payload.length + rest.length))) := by
      rw [hB]; simp; omega
    rw [getCustomSectionLoop_plain B name ret fuel pre.length payload.length
      (pre.length + 1 + lenEnc.length) t (by omega)
      (getElem?_at (T := lenEnc ++ (payload ++ rest)) (by rw [hB]; simp) rfl) ht
      (parseVarint_at (P := pre ++ [t]) (R := payload ++ rest) (by rw [hB]; simp)
        (by simp) hlen (by omega)) (by omega)]
    congr 1
    simp only [List.length_cons, List.length_append]
    omega
  | custom lenEnc nameEnc sname body =>
    obtain ⟨hlen, hnlen⟩ := hs
    simp only [WasmSection.bytes] at hB ⊢
    have hBlen : B.length = pre.length + (1 + (lenEnc.length + (nameEnc.length +
        (sname.length + (body.length + rest.length))))) := by
      rw [hB]; simp; omega
    rw [getCustomSectionLoop_custom B name ret sname fuel pre.length
      (nameEnc.length + sname.length + body.length) (pre.length + 1 + lenEnc.length)
      sname.length (pre.length + 1 + lenEnc.length + nameEnc.length) (by omega)
      (getElem?_at (T := lenEnc ++ (nameEnc ++ (sname ++ (body ++ rest))))
        (by rw [hB]; simp) rfl)
      (parseVarint_at (P := pre ++ [0]) (R := nameEnc ++ (sname ++ (body ++ rest)))
        (by rw [hB]; simp) (by simp) hlen (by omega)) (by omega)
      (parseVarint_at (P := pre ++ 0 :: lenEnc) (R := sname ++ (body ++ rest))
        (by rw [hB]; simp) (by simp; omega) hnlen (by omega)) (by omega)
      (readRange_at (P := pre ++ 0 :: (lenEnc ++ nameEnc)) (R := body ++ rest)
        (by rw [hB]; simp) (by simp; omega) rfl)]
    rw [readRange_at (B := B) (P := pre ++ 0 :: (lenEnc ++ (nameEnc ++ sname))) (M := body)
      (R := rest) (by rw [hB]; simp) (by simp; omega) (by omega)]
    have hp : pre.length + 1 + lenEnc.length + (nameEnc.length + sname.length + body.length)
        = pre.length + (0 :: (lenEnc ++ (nameEnc ++ (sname ++ body)))).length := by
      simp only [List.length_cons, List.length_append]; omega
    rw [hp]

/-! ### Scanning a sequence of framed sections -/

theorem sectionsBytes_append (a b : List WasmSection) :
    sectionsBytes (a ++ b) = sectionsBytes a ++ sectionsBytes b := by
  induction a with
  | nil => rfl
  | cons s ss ih => simp [sectionsBytes, ih]

theorem WasmSection.bytes_length_pos (s : WasmSection) : 0 < s.bytes.length := by
  cases s <;> simp [WasmSection.bytes]

theorem length_le_sectionsBytes (secs : List WasmSection) :
    secs.length ≤ (sectionsBytes secs).length := by
  induction secs with
  | nil => simp
  | cons s ss ih =>
    have := s.bytes_length_pos
    simp only [sectionsBytes, List.length_cons, List.length_append]
    omega

theorem getCustomSectionLoop_skip (B name ret : Bytes) :
    ∀ (secs : List WasmSection) (pre rest : Bytes) (fuel : Nat),
      B = pre ++ (sectionsBytes secs ++ rest) → (∀ s ∈ secs, s.Framed) →
      (∀ s ∈ secs, s.isNamed name = false) →
      getCustomSectionLoop B name ret (fuel + secs.length) pre.length
        = getCustomSectionLoop B name ret fuel (pre.length + (sectionsBytes secs).length) := by
  intro secs
  induction secs with
  | nil => intro pre rest fuel _ _ _; simp [sectionsBytes]
  | cons s ss ih =>
    intro pre rest fuel hB hfr hnm
    have hB1 : B = pre ++ (s.bytes ++ (sectionsBytes ss ++ rest)) := by
      rw [hB]; simp [sectionsBytes]
    have hB2 : B = (pre ++ s.bytes) ++ (sectionsBytes ss ++ rest) := by
      rw [hB]; simp [sectionsBytes]
    have hstep := getCustomSectionLoop_section B name ret pre (sectionsBytes ss ++ rest) s
      (fuel + ss.length) hB1 (hfr s (by simp))
    have hnext : getCustomSectionLoop B name ret (fuel + ss.length + 1) pre.length
        = getCustomSectionLoop B name ret (fuel + ss.length) (pre.length + s.bytes.length) := by
      rw [hstep]
      have hs := hnm s (by simp)
      cases s with
      | plain t lenEnc payload => rfl
      | custom lenEnc nameEnc sname body =>
        simp only [WasmSection.isNamed, decide_eq_false_iff_not] at hs
        simp only [hs, if_false]
    have hrec := ih (pre ++ s.bytes) rest fuel hB2 (fun x hx => hfr x (by simp [hx]))
      (fun x hx => hnm x (by simp [hx]))
    simp only [List.length_append] at hrec
    show getCustomSectionLoop B name ret (fuel + ss.length + 1) pre.length = _
    rw [hnext, hrec]
    simp only [sectionsBytes, List.length_append, Nat.add_assoc]

/-- The first custom section named `name` is found and its payload after the name is
returned, whatever follows that section. -/
theorem getCustomSection_finds (hdr name ret lenEnc nameEnc body : Bytes)
    (before after : List WasmSection) (hhdr : IsHeader hdr)
    (hbefore : ∀ s ∈ before, s.Framed)
    (hsec : (WasmSection.custom lenEnc nameEnc name body).Framed)
    (hfirst : ∀ s ∈ before, s.isNamed name = false) :
    getCustomSection
      (hdr ++ sectionsBytes (before ++ [WasmSection.custom lenEnc nameEnc name body] ++ after))
      name ret = .ok body := by
  obtain ⟨B, hB⟩ : ∃ B, B = hdr ++ sectionsBytes
      (before ++ [WasmSection.custom lenEnc nameEnc name body] ++ after) := ⟨_, rfl⟩
  rw [← hB]
  have hchk : checkWasmHeader B = .ok () := by rw [hB]; exact checkWasmHeader_header _ _ hhdr
  have hB1 : B = hdr ++ (sectionsBytes before ++
      ((WasmSection.custom lenEnc nameEnc name body).bytes ++ sectionsBytes after)) := by
    rw [hB]; simp [sectionsBytes_append, sectionsBytes]
  have hB2 : B = (hdr ++ sectionsBytes before) ++
      ((WasmSection.custom lenEnc nameEnc name body).bytes ++ sectionsBytes after) := by
    rw [hB1]; simp
  have hlen : before.length + 1 ≤ B.length := by
    have h1 := length_le_sectionsBytes before
    have h2 := (WasmSection.custom lenEnc nameEnc name body).bytes_length_pos
    rw [hB1]; simp only [List.length_append]; omega
  have hfuel : B.length = (B.length - before.length - 1 + 1) + before.length := by omega
  have h8 : 8 = hdr.length := hhdr.1.symm
  simp only [getCustomSection, hchk]
  rw [hfuel, h8, getCustomSectionLoop_skip B name ret before hdr _ _ hB1 hbefore hfirst,
    ← List.length_append,
    getCustomSectionLoop_section B name ret _ _ _ _ hB2 hsec]
  simp

/-- Without a custom section named `name` the scan reaches the end of the module and the
caller's `ret` is returned untouched. -/
theorem getCustomSection_none (hdr name ret : Bytes) (secs : List WasmSection)
    (hhdr : IsHeader hdr) (hsecs : ∀ s ∈ secs, s.Framed)
    (habsent : ∀ s ∈ secs, s.isNamed name = false) :
    getCustomSection (hdr ++ sectionsBytes secs) name ret = .ok ret := by
  obtain ⟨B, hB⟩ : ∃ B, B = hdr ++ sectionsBytes secs := ⟨_, rfl⟩
  rw [← hB]
  have hchk : checkWasmHeader B = .ok () := by rw [hB]; exact checkWasmHeader_header _ _ hhdr
  have hB1 : B = hdr ++ (sectionsBytes secs ++ []) := by rw [hB]; simp
  have hlen : secs.length ≤ B.length := by
    have h1 := length_le_sectionsBytes secs
    rw [hB]; simp only [List.length_append]; omega
  have hfuel : B.length = (B.length - secs.length) + secs.length := by omega
  have h8 : 8 = hdr.length := hhdr.1.symm
  simp only [getCustomSection, hchk]
  rw [hfuel, h8, getCustomSectionLoop_skip B name ret secs hdr _ _ hB1 hsecs habsent]
  exact getCustomSectionLoop_end _ _ _ _ _ (by rw [hB]; simp)

/-- C1: in a well-formed module (a header with the magic followed by framed sections), the
first custom section named `name` in file order is found, and `getCustomSection` returns
exactly its payload after the name, whatever sections follow it. -/
theorem getCustomSection_first_match (hdr name ret lenEnc nameEnc body : Bytes)
    (before after : List WasmSection) (hhdr : IsHeader hdr)
    (hbefore : ∀ s ∈ before, s.Framed)
    (hsec : (WasmSection.custom lenEnc nameEnc name body).Framed)
    (hfirst : ∀ s ∈ before, s.isNamed name = false) :
    getCustomSection
      (hdr ++ sectionsBytes (before ++ [WasmSection.custom lenEnc nameEnc name body] ++ after))
      name ret = .ok body := by
  obtain ⟨B, hB⟩ : ∃ B, B = hdr ++ sectionsBytes
      (before ++ [WasmSection.custom lenEnc nameEnc name body] ++ after) := ⟨_, rfl⟩
  rw [← hB]
  have hchk : checkWasmHeader B = .ok () := by rw [hB]; exact checkWasmHeader_header _ _ hhdr
  have hB1 : B = hdr ++ (sectionsBytes before ++
      ((WasmSection.custom lenEnc nameEnc name body).bytes ++ sectionsBytes after)) := by
    rw [hB]; simp [sectionsBytes_append, sectionsBytes]
  have hB2 : B = (hdr ++ sectionsBytes before) ++
      ((WasmSection.custom lenEnc nameEnc name body).bytes ++ sectionsBytes after) := by
    rw [hB1]; simp
  have hlen : before.length + 1 ≤ B.length := by
    have h1 := length_le_sectionsBytes before
    have h2 := (WasmSection.custom lenEnc nameEnc name body).bytes_length_pos
    rw [hB1]; simp only [List.length_append]; omega
  have hfuel : B.length = (B.length - before.length - 1 + 1) + before.length := by omega
  have h8 : 8 = hdr.length := hhdr.1.symm
  simp only [getCustomSection, hchk]
  rw [hfuel, h8, getCustomSectionLoop_skip B name ret before hdr _ _ hB1 hbefore hfirst,
    ← List.length_append,
    getCustomSectionLoop_section B name ret _ _ _ _ hB2 hsec]
  simp

/-- C2: in a well-formed module without any custom section named exactly `name`,
`getCustomSection` reports success and leaves the caller's `ret` as it was (empty when the
caller passed it empty). -/
theorem getCustomSection_absent (hdr name ret : Bytes) (secs : List WasmSection)
    (hhdr : IsHeader hdr) (hsecs : ∀ s ∈ secs, s.Framed)
    (habsent : ∀ s ∈ secs, s.isNamed name = false) :
    getCustomSection (hdr ++ sectionsBytes secs) name ret = .ok ret := by
  obtain ⟨B, hB⟩ : ∃ B, B = hdr ++ sectionsBytes secs := ⟨_, rfl⟩
  rw [← hB]
  have hchk : checkWasmHeader B = .ok () := by rw [hB]; exact checkWasmHeader_header _ _ hhdr
  have hB1 : B = hdr ++ (sectionsBytes secs ++ []) := by rw [hB]; simp
  have hlen : secs.length ≤ B.length := by
    have h1 := length_le_sectionsBytes secs
    rw [hB]; simp only [List.length_append]; omega
  have hfuel : B.length = (B.length - secs.length) + secs.length := by omega
  have h8 : 8 = hdr.length := hhdr.1.symm
  simp only [getCustomSection, hchk]
  rw [hfuel, h8, getCustomSectionLoop_skip B name ret secs hdr _ _ hB1 hsecs habsent]
  exact getCustomSectionLoop_end _ _ _ _ _ (by rw [hB]; simp)

/-- C1 on a module with a type-1 section, a custom section `"name"` with payload `"X"` and a
second custom section `"name"` with payload `"Y"`: the first payload is returned. -/
theorem getCustomSection_first_match_witness :
    getCustomSection
      (exampleHeader ++ sectionsBytes ([WasmSection.plain 1 [1] [7]] ++
        [WasmSection.custom [6] [4] nameSectionName [0x58]] ++
        [WasmSection.custom [6] [4] nameSectionName [0x59]]))
      nameSectionName [] = .ok [0x58] :=
  getCustomSection_first_match exampleHeader nameSectionName [] [6] [4] [0x58]
    [WasmSection.plain 1 [1] [7]] [WasmSection.custom [6] [4] nameSectionName [0x59]]
    (by decide) (by decide) (by decide) (by decide)

/-- C2 on a module whose only custom section is `"name"`, searched for `"missing"`. -/
theorem getCustomSection_absent_witness :
    getCustomSection
      (exampleHeader ++ sectionsBytes [WasmSection.custom [6] [4] nameSectionName [0x58]])
      [0x6d, 0x69, 0x73, 0x73, 0x69, 0x6e, 0x67] [] = .ok [] :=
  getCustomSection_absent exampleHeader [0x6d, 0x69, 0x73, 0x73, 0x69, 0x6e, 0x67] []
    [WasmSection.custom [6] [4] nameSectionName [0x58]] (by decide) (by decide) (by decide)

/-! ### A section whose declared length overruns the buffer -/

theorem lebFramed_overflow (enc tail : Bytes) (hfr : lebFramed enc = true)
    (hlen : enc.length ≤ 5) (hbig : 2 ^ 30 ≤ lebValue enc) : varintOverflow (enc ++ tail) := by
  rcases enc with _ | ⟨b0, _ | ⟨b1, _ | ⟨b2, _ | ⟨b3, _ | ⟨b4, _ | ⟨b5, tl⟩⟩⟩⟩⟩⟩
  · simp [lebFramed] at hfr
  · simp only [lebValue] at hbig; omega
  · simp only [lebValue] at hbig; omega
  · simp only [lebValue] at hbig; omega
  · simp only [lebValue] at hbig; omega
  · simp only [lebFramed, Bool.and_eq_true, decide_eq_true_eq] at hfr
    simp only [lebValue] at hbig
    refine ⟨b4, by simp, ?_, Or.inl (by omega)⟩
    intro b hb
    simp only [List.cons_append, List.take_succ_cons, List.take_zero, List.mem_cons,
      List.mem_nil_iff, or_false] at hb
    rcases hb with h | h | h | h <;> subst h <;> omega
  · simp only [List.length_cons] at hlen; omega

theorem parseVarint_overlong_at {B pre enc tail : Bytes} {pos : Nat}
    (hB : B = pre ++ (enc ++ tail)) (hpos : pos = pre.length) (hfr : lebFramed enc = true)
    (hlen : enc.length ≤ 5) (hover : tail.length < lebValue enc) :
    parseVarint B pos B.length = .fail ∨
      ∃ L p1, parseVarint B pos B.length = .ok (L, p1) ∧ p1 + L > B.length := by
  by_cases hbig : lebValue enc < 2 ^ 30
  · right
    refine ⟨lebValue enc, pos + enc.length, parseVarint_at hB hpos ⟨hfr, hlen, rfl, hbig⟩ ?_, ?_⟩
    · rw [hB, hpos]; simp
    · rw [hB, hpos]; simp only [List.length_append]; omega
  · left
    have h := (parseVarint_fail_iff pre (enc ++ tail) []).1.2
      (Or.inr (lebFramed_overflow enc tail hfr hlen (by omega)))
    have e1 : pre ++ (enc ++ tail ++ []) = B := by rw [hB]; simp
    have e2 : pre.length + (enc ++ tail).length = B.length := by rw [hB]; simp
    rw [e1, e2, ← hpos] at h
    exact h

theorem getCustomSectionLoop_overlong (B name ret : Bytes) (fuel pos : Nat) (t : UInt8)
    (hpos : pos < B.length) (hget : B[pos]? = some t)
    (hv1 : parseVarint B (pos + 1) B.length = .fail ∨
      ∃ L p1, parseVarint B (pos + 1) B.length = .ok (L, p1) ∧ p1 + L > B.length) :
    getCustomSectionLoop B name ret (fuel + 1) pos = .fail := by
  rw [getCustomSectionLoop]
  rcases hv1 with hv1 | ⟨L, p1, hv1, hL⟩
  · simp only [hpos, if_true, show ¬ (pos + 1 > B.length) by omega, if_false, hget, hv1]
  · simp only [hpos, if_true, show ¬ (pos + 1 > B.length) by omega, if_false, hget, hv1, hL]

/-- C3, as the code behaves: the module below has a valid header, a custom section named
`"a"` with payload `"X"`, and then a section of type 1 declaring 5 payload bytes where a
single byte remains; searched for `"a"`, `getCustomSection` returns the payload `"X"` and
does not report failure. -/
theorem getCustomSection_overlong_after_match :
    IsHeader exampleHeader ∧ lebValue [5] = 5 ∧ ([0] : Bytes).length < 5 ∧
    getCustomSection
      (exampleHeader ++ (sectionsBytes [WasmSection.custom [3] [1] [0x61] [0x58]] ++
        (1 :: ([5] ++ [0])))) [0x61] [] = .ok [0x58] := by
  decide

/-- C3, amended: when framed sections are followed by a section whose declared length
(`lebValue lenEnc`, a framed length field of at most five bytes) exceeds the bytes that
remain, `getCustomSection` reports failure for every target name that none of the custom
sections before the malformed one bears. -/
theorem getCustomSection_overlong (hdr name ret lenEnc tail : Bytes) (t : UInt8)
    (secs : List WasmSection) (hhdr : IsHeader hdr) (hsecs : ∀ s ∈ secs, s.Framed)
    (hfr : lebFramed lenEnc = true) (hlen5 : lenEnc.length ≤ 5)
    (hover : tail.length < lebValue lenEnc)
    (habsent : ∀ s ∈ secs, s.isNamed name = false) :
    getCustomSection (hdr ++ (sectionsBytes secs ++ (t :: (lenEnc ++ tail)))) name ret
      = .fail := by
  obtain ⟨B, hB⟩ : ∃ B, B = hdr ++ (sectionsBytes secs ++ (t :: (lenEnc ++ tail))) :=
    ⟨_, rfl⟩
  rw [← hB]
  have hchk : checkWasmHeader B = .ok () := by rw [hB]; exact checkWasmHeader_header _ _ hhdr
  have hB2 : B = (hdr ++ sectionsBytes secs ++ [t]) ++ (lenEnc ++ tail) := by rw [hB]; simp
  have hB3 : B = (hdr ++ sectionsBytes secs) ++ t :: (lenEnc ++ tail) := by rw [hB]; simp
  have hlen : secs.length + 1 ≤ B.length := by
    have h1 := length_le_sectionsBytes secs
    rw [hB]; simp only [List.length_append, List.length_cons]; omega
  have hfuel : B.length = (B.length - secs.length - 1 + 1) + secs.length := by omega
  have h8 : 8 = hdr.length := hhdr.1.symm
  simp only [getCustomSection, hchk]
  rw [hfuel, h8, getCustomSectionLoop_skip B name ret secs hdr _ _ hB hsecs habsent,
    ← List.length_append]
  exact getCustomSectionLoop_overlong B name ret _ _ t
    (by rw [hB]; simp only [List.length_append, List.length_cons]; omega)
    (getElem?_at hB3 rfl)
    (parseVarint_overlong_at hB2 (by simp; omega) hfr hlen5 hover)

/-- C3, amended, on a module with a custom section `"a"` followed by a section of type 1
declaring 5 payload bytes where one remains, searched for `"b"`. -/
theorem getCustomSection_overlong_witness :
    getCustomSection
      (exampleHeader ++ (sectionsBytes [WasmSection.custom [3] [1] [0x61] [0x58]] ++
        (1 :: ([5] ++ [0])))) [0x62] [] = .fail :=
  getCustomSection_overlong exampleHeader [0x62] [] [5] [0] 1
    [WasmSection.custom [3] [1] [0x61] [0x58]] (by decide) (by decide) (by decide)
    (by decide) (by decide) (by decide)

/-! ### One iteration of the loop of `getStrippedSource` -/

theorem getStrippedSourceLoop_plain (B ret : Bytes) (fuel pos L p1 : Nat) (t : UInt8)
    (hpos : pos < B.length) (hget : B[pos]? = some t) (ht : t ≠ 0)
    (hv1 : parseVarint B (pos + 1) B.length = .ok (L, p1)) (hL : p1 + L ≤ B.length) :
    getStrippedSourceLoop B (fuel + 1) pos ret =
      if ret ≠ [] then
        match readRange B pos (p1 + L - pos) with
        | none => .fault
        | some s => getStrippedSourceLoop B fuel (p1 + L) (ret ++ s)
      else getStrippedSourceLoop B fuel (p1 + L) ret := by
  rw [getStrippedSourceLoop]
  simp only [hpos, if_true, show ¬ (pos + 1 > B.length) by omega, if_false, hget, hv1,
    show ¬ (p1 + L > B.length) by omega, ht]

theorem getStrippedSourceLoop_custom (B ret sname : Bytes) (fuel pos L p1 nl p2 : Nat)
    (hpos : pos < B.length) (hget : B[pos]? = some 0)
    (hv1 : parseVarint B (pos + 1) B.length = .ok (L, p1)) (hL : p1 + L ≤ B.length)
    (hv2 : parseVarint B p1 B.length = .ok (nl, p2)) (hn : p2 + nl ≤ B.length)
    (hr : readRange B p2 nl = some sname) :
    getStrippedSourceLoop B (fuel + 1) pos ret =
      if isPrecompiled sname = true ∧ ret = [] then
        match readRange B 0 pos with
        | none => .fault
        | some pre => getStrippedSourceLoop B fuel (p1 + L) (ret ++ pre)
      else getStrippedSourceLoop B fuel (p1 + L) ret := by
  rw [getStrippedSourceLoop]
  simp only [hpos, if_true, show ¬ (pos + 1 > B.length) by omega, if_false, hget, hv1,
    show ¬ (p1 + L > B.length) by omega, hv2, show ¬ (p2 + nl > B.length) by omega, hr]

theorem getStrippedSourceLoop_end (B ret : Bytes) (fuel pos : Nat) (hpos : B.length ≤ pos) :
    getStrippedSourceLoop B fuel pos ret = if ret = [] then .ok B else .ok ret := by
  cases fuel <;> rw [getStrippedSourceLoop] <;> simp [show ¬ pos < B.length by omega]

/-- One framed section at `pre.length`: a reserved custom section met with an empty output
saves everything before it; a non-custom section is appended once the output is non-empty;
anything else leaves the output as it is. -/
theorem getStrippedSourceLoop_section (B ret pre rest : Bytes) (s : WasmSection)
    (fuel : Nat) (hB : B = pre ++ (s.bytes ++ rest)) (hs : s.Framed) :
    getStrippedSourceLoop B (fuel + 1) pre.length ret =
      getStrippedSourceLoop B fuel (pre.length + s.bytes.length)
        (match s with
          | .custom _ _ sname _ =>
            if isPrecompiled sname = true ∧ ret = [] then ret ++ pre else ret
          | .plain _ _ _ => if ret ≠ [] then ret ++ s.bytes else ret) := by
  cases s with
  | plain t lenEnc payload =>
    obtain ⟨ht, hlen⟩ := hs
    simp only [WasmSection.bytes] at hB ⊢
    have hBlen : B.length = pre.length + (1 + (lenEnc.length + (payload.length + rest.length))) := by
      rw [hB]; simp; omega
    rw [getStrippedSourceLoop_plain B ret fuel pre.length payload.length
      (pre.length + 1 + lenEnc.length) t (by omega)
      (getElem?_at (T := lenEnc ++ (payload ++ rest)) (by rw [hB]; simp) rfl) ht
      (parseVarint_at (P := pre ++ [t]) (R := payload ++ rest) (by rw [hB]; simp)
        (by simp) hlen (by omega)) (by omega)]
    rw [readRange_at (B := B) (P := pre) (M := t :: (lenEnc ++ payload)) (R := rest)
      hB rfl (by simp only [List.length_cons, List.length_append]; omega)]
    have hp : pre.length + 1 + lenEnc.length + payload.length
        = pre.length + (t :: (lenEnc ++ payload)).length := by
      simp only [List.length_cons, List.length_append]; omega
    rw [hp]
    by_cases hret : ret = [] <;> simp [hret]
  | custom lenEnc nameEnc sname body =>
    obtain ⟨hlen, hnlen⟩ := hs
    simp only [WasmSection.bytes] at hB ⊢
    have hBlen : B.length = pre.length + (1 + (lenEnc.length + (nameEnc.length +
        (sname.length + (body.length + rest.length))))) := by
      rw [hB]; simp; omega
    rw [getStrippedSourceLoop_custom B ret sname fuel pre.length
      (nameEnc.length + sname.length + body.length) (pre.length + 1 + lenEnc.length)
      sname.length (pre.length + 1 + lenEnc.length + nameEnc.length) (by omega)
      (getElem?_at (T := lenEnc ++ (nameEnc ++ (sname ++ (body ++ rest))))
        (by rw [hB]; simp) rfl)
      (parseVarint_at (P := pre ++ [0]) (R := nameEnc ++ (sname ++ (body ++ rest)))
        (by rw [hB]; simp) (by simp) hlen (by omega)) (by omega)
      (parseVarint_at (P := pre ++ 0 :: lenEnc) (R := sname ++ (body ++ rest))
        (by rw [hB]; simp) (by simp; omega) hnlen (by omega)) (by omega)
      (readRange_at (P := pre ++ 0 :: (lenEnc ++ nameEnc)) (R := body ++ rest)
        (by rw [hB]; simp) (by simp; omega) rfl)]
    rw [readRange_at (B := B) (P := []) (M := pre) (i := 0) (l := pre.length)
      (R := 0 :: (lenEnc ++ (nameEnc ++ (sname ++ body))) ++ rest) (by rw [hB]; simp) rfl rfl]
    have hp : pre.length + 1 + lenEnc.length + (nameEnc.length + sname.length + body.length)
        = pre.length + (0 :: (lenEnc ++ (nameEnc ++ (sname ++ body)))).length := by
      simp only [List.length_cons, List.length_append]; omega
    rw [hp]
    by_cases hc : isPrecompiled sname = true ∧ ret = []
    · rw [if_pos hc, if_pos hc]
    · rw [if_neg hc, if_neg hc]

/-! ### `getStrippedSource` on a sequence of framed sections -/

theorem getStrippedSourceLoop_after (B : Bytes) :
    ∀ (secs : List WasmSection) (pre : Bytes) (fuel : Nat) (ret : Bytes),
      B = pre ++ sectionsBytes secs → (∀ s ∈ secs, s.Framed) → ret ≠ [] →
      secs.length ≤ fuel →
      getStrippedSourceLoop B fuel pre.length ret
        = .ok (ret ++ sectionsBytes (secs.filter (fun x => !x.isCustom))) := by
  intro secs
  induction secs with
  | nil =>
    intro pre fuel ret hB _ hret _
    rw [getStrippedSourceLoop_end B ret fuel pre.length (by rw [hB]; simp [sectionsBytes])]
    simp [hret, sectionsBytes]
  | cons s ss ih =>
    intro pre fuel ret hB hfr hret hfuel
    cases fuel with
    | zero => simp at hfuel
    | succ fuel =>
      have hB1 : B = pre ++ (s.bytes ++ sectionsBytes ss) := by rw [hB]; simp [sectionsBytes]
      have hB2 : B = (pre ++ s.bytes) ++ sectionsBytes ss := by rw [hB]; simp [sectionsBytes]
      rw [getStrippedSourceLoop_section B ret pre (sectionsBytes ss) s fuel hB1
        (hfr s (by simp)), ← List.length_append]
      have hfr' : ∀ x ∈ ss, x.Framed := fun x hx => hfr x (by simp [hx])
      have hfuel' : ss.length ≤ fuel := by simp only [List.length_cons] at hfuel; omega
      cases s with
      | plain t lenEnc payload =>
        simp only [hret, ne_eq, not_false_eq_true, if_true]
        rw [ih _ fuel _ hB2 hfr' (by simp [hret]) hfuel']
        simp [WasmSection.isCustom, sectionsBytes]
      | custom lenEnc nameEnc sname body =>
        simp only [hret, and_false, if_false]
        rw [ih _ fuel _ hB2 hfr' hret hfuel']
        simp [WasmSection.isCustom]

theorem getStrippedSourceLoop_wellFormed (B : Bytes) :
    ∀ (secs : List WasmSection) (pre : Bytes) (fuel : Nat),
      B = pre ++ sectionsBytes secs → (∀ s ∈ secs, s.Framed) → pre ≠ [] →
      secs.length ≤ fuel →
      getStrippedSourceLoop B fuel pre.length []
        = .ok (pre ++ sectionsBytes (strippedSections secs)) := by
  intro secs
  induction secs with
  | nil =>
    intro pre fuel hB _ _ _
    rw [getStrippedSourceLoop_end B [] fuel pre.length (by rw [hB]; simp [sectionsBytes])]
    simp [hB, sectionsBytes, strippedSections]
  | cons s ss ih =>
    intro pre fuel hB hfr hpre hfuel
    cases fuel with
    | zero => simp at hfuel
    | succ fuel =>
      have hB1 : B = pre ++ (s.bytes ++ sectionsBytes ss) := by rw [hB]; simp [sectionsBytes]
      have hB2 : B = (pre ++ s.bytes) ++ sectionsBytes ss := by rw [hB]; simp [sectionsBytes]
      rw [getStrippedSourceLoop_section B [] pre (sectionsBytes ss) s fuel hB1
        (hfr s (by simp)), ← List.length_append]
      have hfr' : ∀ x ∈ ss, x.Framed := fun x hx => hfr x (by simp [hx])
      have hfuel' : ss.length ≤ fuel := by simp only [List.length_cons] at hfuel; omega
      have hpre' : pre ++ s.bytes ≠ [] := by simp [hpre]
      cases s with
      | plain t lenEnc payload =>
        simp only [ne_eq, not_true_eq_false, if_false]
        rw [ih _ fuel hB2 hfr' hpre' hfuel']
        simp [strippedSections, WasmSection.isReserved, sectionsBytes]
      | custom lenEnc nameEnc sname body =>
        by_cases hres : isPrecompiled sname = true
        · dsimp only
          rw [if_pos ⟨hres, rfl⟩, List.nil_append]
          rw [getStrippedSourceLoop_after B ss _ fuel pre hB2 hfr' hpre hfuel']
          have hr : (WasmSection.custom lenEnc nameEnc sname body).isReserved = true := hres
          simp [strippedSections, hr]
        · dsimp only
          rw [if_neg (fun h => hres h.1)]
          rw [ih _ fuel hB2 hfr' hpre' hfuel']
          have hr : (WasmSection.custom lenEnc nameEnc sname body).isReserved = false := by
            simpa [isPrecompiled, WasmSection.isReserved] using hres
          simp [strippedSections, hr, sectionsBytes]

/-- On every well-formed module `getStrippedSource`, called with an empty output, succeeds
and returns the header followed by the sections of `strippedSections`. -/
theorem getStrippedSource_sections (hdr : Bytes) (secs : List WasmSection)
    (hhdr : IsHeader hdr) (hsecs : ∀ s ∈ secs, s.Framed) :
    getStrippedSource (hdr ++ sectionsBytes secs) []
      = .ok (hdr ++ sectionsBytes (strippedSections secs)) := by
  have hchk := checkWasmHeader_header hdr (sectionsBytes secs) hhdr
  have hne : hdr ≠ [] := by
    intro h; have := hhdr.1; rw [h] at this; simp at this
  have hlen : secs.length ≤ (hdr ++ sectionsBytes secs).length := by
    have := length_le_sectionsBytes secs
    simp only [List.length_append]; omega
  simp only [getStrippedSource, hchk]
  rw [show (8 : Nat) = hdr.length from hhdr.1.symm]
  exact getStrippedSourceLoop_wellFormed _ secs hdr _ rfl hsecs hne hlen

theorem strippedSections_sandwich (P F : List WasmSection) (R : WasmSection)
    (hP : ∀ s ∈ P, s.isReserved = false) (hR : R.isReserved = true) :
    strippedSections (P ++ R :: F) = P ++ F.filter (fun x => !x.isCustom) := by
  induction P with
  | nil => simp [strippedSections, hR]
  | cons s ss ih =>
    have hs : s.isReserved = false := hP s (by simp)
    simp [strippedSections, hs, ih (fun x hx => hP x (by simp [hx]))]

/-- C5, as the code behaves: in the well-formed module made of a reserved custom section
`"precompiled_"` followed by a custom section `"x"`, the non-reserved section `"x"` is not in
the output, which is the bare header. -/
theorem getStrippedSource_drops_custom_after_reserved :
    (∀ s ∈ [WasmSection.custom [13] [12] precompiledTag [],
        WasmSection.custom [2] [1] [0x78] []], s.Framed) ∧
    getStrippedSource
      (exampleHeader ++ sectionsBytes [WasmSection.custom [13] [12] precompiledTag [],
        WasmSection.custom [2] [1] [0x78] []]) [] = .ok exampleHeader ∧
    getStrippedSource
      (exampleHeader ++ sectionsBytes [WasmSection.custom [13] [12] precompiledTag [],
        WasmSection.custom [2] [1] [0x78] []]) [] ≠
      .ok (exampleHeader ++ sectionsBytes
        ([WasmSection.custom [13] [12] precompiledTag [],
          WasmSection.custom [2] [1] [0x78] []].filter (fun s => !s.isReserved))) := by
  decide

/-- C5, amended: on every well-formed module `getStrippedSource`, called with an empty
output, succeeds, and its output is the header followed, in file order, by every section
located before the first reserved section and every non-custom section located after it
(every section when none is reserved). -/
theorem getStrippedSource_wellFormed (hdr : Bytes) (secs : List WasmSection)
    (hhdr : IsHeader hdr) (hsecs : ∀ s ∈ secs, s.Framed) :
    getStrippedSource (hdr ++ sectionsBytes secs) []
      = .ok (hdr ++ sectionsBytes (strippedSections secs)) := by
  have hchk := checkWasmHeader_header hdr (sectionsBytes secs) hhdr
  have hne : hdr ≠ [] := by
    intro h; have := hhdr.1; rw [h] at this; simp at this
  have hlen : secs.length ≤ (hdr ++ sectionsBytes secs).length := by
    have := length_le_sectionsBytes secs
    simp only [List.length_append]; omega
  simp only [getStrippedSource, hchk]
  rw [show (8 : Nat) = hdr.length from hhdr.1.symm]
  exact getStrippedSourceLoop_wellFormed _ secs hdr _ rfl hsecs hne hlen

/-- C5, amended, on a module with a type-1 section, a reserved custom section, a custom
section `"x"` and a type-2 section: the type-1 and type-2 sections are kept. -/
theorem getStrippedSource_wellFormed_witness :
    getStrippedSource
      (exampleHeader ++ sectionsBytes [WasmSection.plain 1 [1] [7],
        WasmSection.custom [13] [12] precompiledTag [],
        WasmSection.custom [2] [1] [0x78] [], WasmSection.plain 2 [1] [9]]) []
      = .ok (exampleHeader ++ sectionsBytes (strippedSections [WasmSection.plain 1 [1] [7],
        WasmSection.custom [13] [12] precompiledTag [],
        WasmSection.custom [2] [1] [0x78] [], WasmSection.plain 2 [1] [9]])) :=
  getStrippedSource_wellFormed exampleHeader _ (by decide) (by decide)

/-- C6: on a well-formed module `hdr ++ P ++ R ++ F`, where no section of `P` is reserved,
`R` is a custom section whose name contains `"precompiled_"` and no section of `F` is a
custom section, `getStrippedSource` succeeds with output `hdr ++ P ++ F`. -/
theorem getStrippedSource_sandwich (hdr lenEnc nameEnc name body : Bytes)
    (P F : List WasmSection) (hhdr : IsHeader hdr)
    (hP : ∀ s ∈ P, s.Framed) (hPres : ∀ s ∈ P, s.isReserved = false)
    (hR : (WasmSection.custom lenEnc nameEnc name body).Framed)
    (hRres : precompiledTag <:+: name)
    (hF : ∀ s ∈ F, s.Framed) (hFplain : ∀ s ∈ F, s.isCustom = false) :
    getStrippedSource
      (hdr ++ sectionsBytes (P ++ [WasmSection.custom lenEnc nameEnc name body] ++ F)) []
      = .ok (hdr ++ sectionsBytes P ++ sectionsBytes F) := by
  have hfr : ∀ s ∈ P ++ [WasmSection.custom lenEnc nameEnc name body] ++ F, s.Framed := by
    intro s hs
    simp only [List.mem_append, List.mem_singleton] at hs
    rcases hs with (h | h) | h
    · exact hP s h
    · rw [h]; exact hR
    · exact hF s h
  have hres : (WasmSection.custom lenEnc nameEnc name body).isReserved = true := by
    simp [WasmSection.isReserved, hRres]
  have hfilter : F.filter (fun x => !x.isCustom) = F := by
    rw [List.filter_eq_self]
    intro s hs
    simp [hFplain s hs]
  rw [getStrippedSource_sections hdr _ hhdr hfr, List.append_assoc, List.singleton_append,
    strippedSections_sandwich P F _ hPres hres, hfilter, sectionsBytes_append,
    List.append_assoc]

/-- C6 on a module with a type-1 section and a custom section `"x"`, then a reserved custom
section, then a type-2 section. -/
theorem getStrippedSource_sandwich_witness :
    getStrippedSource
      (exampleHeader ++ sectionsBytes ([WasmSection.plain 1 [1] [7],
        WasmSection.custom [2] [1] [0x78] []] ++
        [WasmSection.custom [13] [12] precompiledTag []] ++ [WasmSection.plain 2 [1] [9]])) []
      = .ok (exampleHeader ++ sectionsBytes [WasmSection.plain 1 [1] [7],
          WasmSection.custom [2] [1] [0x78] []] ++ sectionsBytes [WasmSection.plain 2 [1] [9]]) :=
  getStrippedSource_sandwich exampleHeader [13] [12] precompiledTag []
    [WasmSection.plain 1 [1] [7], WasmSection.custom [2] [1] [0x78] []]
    [WasmSection.plain 2 [1] [9]] (by decide) (by decide) (by decide) (by decide)
    (by decide) (by decide) (by decide)

/-! ### Soundness of the varint decoder -/

theorem readRange_one {B : Bytes} {pos : Nat} {b : UInt8} (h : B[pos]? = some b) :
    readRange B pos 1 = some [b] := by
  obtain ⟨hlt, hb⟩ := List.getElem?_eq_some.1 h
  simp only [readRange, show pos + 1 ≤ B.length by omega, if_true]
  rw [List.drop_eq_getElem_cons hlt, hb]
  simp

theorem readRange_append {B x y : Bytes} {p a b : Nat} (hx : readRange B p a = some x)
    (hy : readRange B (p + a) b = some y) : readRange B p (a + b) = some (x ++ y) := by
  unfold readRange at *
  split at hx
  · split at hy
    · rename_i h1 h2
      cases hx; cases hy
      rw [if_pos (by omega), List.take_add, List.drop_drop]
    · cases hy
  · cases hx

theorem readRange_cons {B r : Bytes} {pos len : Nat} {b : UInt8} (h : B[pos]? = some b)
    (hr : readRange B (pos + 1) len = some r) : readRange B pos (1 + len) = some (b :: r) :=
  readRange_append (readRange_one h) hr

theorem parseVarintLoop_sound (B : Bytes) (e : Nat) :
    ∀ (fuel pos k total n p : Nat), k ≤ 4 → total < 2 ^ (7 * k) →
      parseVarintLoop B e fuel pos (7 * k) total = .ok (n, p) →
      ∃ enc, lebFramed enc = true ∧ readRange B pos enc.length = some enc ∧
        p = pos + enc.length ∧ k + enc.length ≤ 5 ∧
        n = total + lebValue enc * 2 ^ (7 * k) ∧ n < 2 ^ 30 ∧ p ≤ e := by
  intro fuel
  induction fuel with
  | zero =>
    intro pos k total n p _ _ h
    rw [parseVarintLoop] at h
    split at h <;> cases h
  | succ fuel ih =>
    intro pos k total n p hk htot h
    rw [parseVarintLoop] at h
    by_cases hpos : pos < e
    · simp only [hpos, if_true, show ¬ (pos + 1 > e) by omega, if_false] at h
      cases hget : B[pos]? with
      | none => rw [hget] at h; cases h
      | some b =>
        rw [hget] at h
        simp only [land_7f, land_80, Nat.shiftLeft_eq, gt_iff_lt] at h
        have hv : b.toNat % 128 < 128 := Nat.mod_lt _ (by norm_num)
        by_cases hov : 7 * k = 28 ∧ 3 < b.toNat % 128
        · rw [if_pos hov] at h; cases h
        · rw [if_neg hov] at h
          by_cases hb : b.toNat < 128
          · rw [if_pos hb] at h
            simp only [Outcome.ok.injEq, Prod.mk.injEq] at h
            obtain ⟨hn, hp⟩ := h
            subst hp
            have hv3 : k < 4 ∨ b.toNat % 128 ≤ 3 := by
              by_cases h4 : k < 4
              · exact Or.inl h4
              · right
                by_contra hc
                exact hov ⟨by omega, by omega⟩
            refine ⟨[b], by simp [lebFramed, hb], readRange_one hget, by simp, by simp; omega,
              ?_, ?_, by omega⟩
            · simp only [lebValue, Nat.mul_zero, Nat.add_zero]
              subst hn
              interval_cases k <;> simp only [Nat.reducePow, Nat.reduceMul] at htot ⊢ <;> omega
            · subst hn
              interval_cases k <;> simp only [Nat.reducePow, Nat.reduceMul] at htot ⊢ <;> omega
          · rw [if_neg hb] at h
            by_cases hs : 28 < 7 * k + 7
            · rw [if_pos hs] at h; cases h
            · rw [if_neg hs] at h
              have hk3 : k ≤ 3 := by omega
              have htot' : (total + b.toNat % 128 * 2 ^ (7 * k) % 2 ^ 32) % 2 ^ 32
                  < 2 ^ (7 * (k + 1)) := by
                interval_cases k <;> simp only [Nat.reducePow, Nat.reduceMul] at htot ⊢ <;> omega
              obtain ⟨enc, hfr, hrd, hp, hlen, hn, hn30, hpe⟩ :=
                ih (pos + 1) (k + 1) _ n p (by omega) htot' h
              refine ⟨b :: enc, lebFramed_cons b enc (by omega) hfr, ?_, ?_, ?_, ?_, hn30, hpe⟩
              · have := readRange_cons hget hrd
                simpa [Nat.add_comm] using this
              · simp only [List.length_cons]; omega
              · simp only [List.length_cons]; omega
              · rw [hn]
                simp only [lebValue]
                interval_cases k <;> simp only [Nat.reducePow, Nat.reduceMul] at htot ⊢ <;> omega
    · simp only [hpos, if_false] at h
      cases h


theorem parseVarint_sound {B : Bytes} {pos e n p : Nat}
    (h : parseVarint B pos e = .ok (n, p)) :
    ∃ enc, IsVarint enc n ∧ readRange B pos enc.length = some enc ∧
      p = pos + enc.length ∧ p ≤ e := by
  obtain ⟨enc, hfr, hrd, hp, hlen, hn, hn30, hpe⟩ :=
    parseVarintLoop_sound B e (e - pos) pos 0 0 n p (by omega) (by norm_num) h
  refine ⟨enc, ⟨hfr, by omega, ?_, hn30⟩, hrd, hp, hpe⟩
  simpa using hn.symm

/-! ### `getStrippedSource` on an arbitrary byte sequence -/

theorem sectionAt_of_scan {B : Bytes} {pos L p1 : Nat} {t : UInt8} (hget : B[pos]? = some t)
    (hv1 : parseVarint B (pos + 1) B.length = .ok (L, p1)) (hL : p1 + L ≤ B.length) :
    SectionAt B pos t p1 L := by
  obtain ⟨enc, henc, hrd, hp, _⟩ := parseVarint_sound hv1
  exact ⟨enc, henc, readRange_cons hget hrd, hp, hL⟩

theorem getStrippedSourceLoop_identity (B : Bytes) (hno : ¬ ScansReservedName B) :
    ∀ (fuel pos : Nat) (out : Bytes), SectionStart B pos →
      getStrippedSourceLoop B fuel pos [] = .ok out → out = B := by
  intro fuel
  induction fuel with
  | zero =>
    intro pos out _ h
    rw [getStrippedSourceLoop] at h
    split at h
    · cases h
    · simp only [if_true, Outcome.ok.injEq] at h
      exact h.symm
  | succ fuel ih =>
    intro pos out hstart h
    by_cases hpos : pos < B.length
    · rw [getStrippedSourceLoop] at h
      simp only [hpos, if_true, show ¬ (pos + 1 > B.length) by omega, if_false] at h
      cases hget : B[pos]? with
      | none => rw [hget] at h; cases h
      | some t =>
        rw [hget] at h
        cases hv1 : parseVarint B (pos + 1) B.length with
        | fail => rw [hv1] at h; cases h
        | fault => rw [hv1] at h; cases h
        | outOfFuel => rw [hv1] at h; cases h
        | ok r =>
          obtain ⟨L, p1⟩ := r
          rw [hv1] at h
          by_cases hL : p1 + L > B.length
          · simp only [hL, if_true] at h; cases h
          · simp only [hL, if_false] at h
            have hsec : SectionAt B pos t p1 L := sectionAt_of_scan hget hv1 (by omega)
            have hnext : SectionStart B (p1 + L) := SectionStart.next pos p1 L t hstart hsec
            by_cases ht : t = 0
            · subst ht
              simp only [if_true] at h
              cases hv2 : parseVarint B p1 B.length with
              | fail => rw [hv2] at h; cases h
              | fault => rw [hv2] at h; cases h
              | outOfFuel => rw [hv2] at h; cases h
              | ok r2 =>
                obtain ⟨nl, p2⟩ := r2
                rw [hv2] at h
                by_cases hn : p2 + nl > B.length
                · simp only [hn, if_true] at h; cases h
                · simp only [hn, if_false] at h
                  cases hr : readRange B p2 nl with
                  | none => rw [hr] at h; cases h
                  | some sname =>
                    rw [hr] at h
                    by_cases hres : isPrecompiled sname = true
                    · exfalso
                      apply hno
                      obtain ⟨nameEnc, hne, hrd, hp2, _⟩ := parseVarint_sound hv2
                      have hsl := readRange_length hr
                      refine ⟨pos, p1, L, nameEnc, sname, hstart, hsec, by rw [hsl]; exact hne,
                        ?_, by simpa [isPrecompiled] using hres⟩
                      rw [hsl]
                      exact readRange_append hrd (by rw [← hp2]; exact hr)
                    · simp only [hres, false_and, if_false] at h
                      exact ih _ out hnext h
            · simp only [ht, if_false, ne_eq, not_true_eq_false] at h
              exact ih _ out hnext h
    · rw [getStrippedSourceLoop_end B [] _ pos (by omega)] at h
      simp only [if_true, Outcome.ok.injEq] at h
      exact h.symm


theorem sectionStart_ge {B : Bytes} {p : Nat} (h : SectionStart B p) : 8 ≤ p := by
  induction h with
  | first => exact le_refl _
  | next p q len t _ hsec ih =>
    obtain ⟨enc, _, _, hq, _⟩ := hsec
    omega

theorem getStrippedSource_short (B : Bytes) (h : B.length < 8) :
    getStrippedSource B [] = .ok B := by
  have hchk : checkWasmHeader B = .ok () := by simp [checkWasmHeader, h]
  simp only [getStrippedSource, hchk]
  rw [getStrippedSourceLoop_end B [] _ 8 (by omega)]
  simp

theorem not_scansReservedName_of_short (B : Bytes) (h : B.length ≤ 8) :
    ¬ ScansReservedName B := by
  rintro ⟨p, q, len, nameEnc, name, hstart, ⟨enc, _, hrd, _, _⟩, _⟩
  have h8 := sectionStart_ge hstart
  unfold readRange at hrd
  split at hrd
  · omega
  · cases hrd

/-- Whenever `getStrippedSource`, called with an empty output, succeeds on a byte sequence in
which its scan reads no reserved name, the output is the input, byte for byte.  Every input
shorter than 8 bytes meets both hypotheses (`getStrippedSource_short`,
`not_scansReservedName_of_short`). -/
theorem getStrippedSource_identity_of_scan (B out : Bytes)
    (hok : getStrippedSource B [] = .ok out) (hno : ¬ ScansReservedName B) : out = B := by
  unfold getStrippedSource at hok
  cases hchk : checkWasmHeader B with
  | fail => rw [hchk] at hok; cases hok
  | fault => rw [hchk] at hok; cases hok
  | outOfFuel => rw [hchk] at hok; cases hok
  | ok u =>
    rw [hchk] at hok
    exact getStrippedSourceLoop_identity B hno _ 8 out SectionStart.first hok


/-! ### The function-name table -/

theorem isVarint_length_pos {enc : Bytes} {n : Nat} (h : IsVarint enc n) : 0 < enc.length := by
  obtain ⟨hfr, _⟩ := h
  cases enc with
  | nil => simp [lebFramed] at hfr
  | cons b bs => simp

theorem length_le_entriesBytes (es : List NameEntry) (hfr : ∀ e ∈ es, e.Framed) :
    es.length ≤ (entriesBytes es).length := by
  induction es with
  | nil => simp
  | cons e es ih =>
    have h1 := isVarint_length_pos (hfr e (by simp)).1
    have h2 := ih (fun x hx => hfr x (by simp [hx]))
    simp only [entriesBytes, NameEntry.bytes, List.length_cons, List.length_append]
    omega

theorem functionNamesLoop_entries (d : Bytes → Option Bytes) (sec : Bytes) :
    ∀ (es : List NameEntry) (pre rest : Bytes) (ret : NameTable),
      sec = pre ++ (entriesBytes es ++ rest) → (∀ e ∈ es, e.Framed) →
      functionNamesLoop d sec es.length pre.length ret
        = .ok (pre.length + (entriesBytes es).length, insertEntries d ret es) := by
  intro es
  induction es with
  | nil => intro pre rest ret _ _; simp [functionNamesLoop, entriesBytes, insertEntries]
  | cons e es ih =>
    intro pre rest ret hsec hfr
    obtain ⟨hidx, hnl⟩ := hfr e (by simp)
    have hlen : sec.length = pre.length + (e.indexEnc.length + (e.nameLenEnc.length +
        (e.name.length + ((entriesBytes es).length + rest.length)))) := by
      rw [hsec]; simp [entriesBytes, NameEntry.bytes]
    have hv1 : parseVarint sec pre.length sec.length
        = .ok (e.index, pre.length + e.indexEnc.length) :=
      parseVarint_at (P := pre) (R := e.nameLenEnc ++ (e.name ++ (entriesBytes es ++ rest)))
        (by rw [hsec]; simp [entriesBytes, NameEntry.bytes]) rfl hidx (by omega)
    have hv2 : parseVarint sec (pre.length + e.indexEnc.length) sec.length
        = .ok (e.name.length, pre.length + e.indexEnc.length + e.nameLenEnc.length) :=
      parseVarint_at (P := pre ++ e.indexEnc) (R := e.name ++ (entriesBytes es ++ rest))
        (by rw [hsec]; simp [entriesBytes, NameEntry.bytes]) (by simp) hnl (by omega)
    have hr : readRange sec (pre.length + e.indexEnc.length + e.nameLenEnc.length) e.name.length
        = some e.name :=
      readRange_at (P := pre ++ (e.indexEnc ++ e.nameLenEnc)) (R := entriesBytes es ++ rest)
        (by rw [hsec]; simp [entriesBytes, NameEntry.bytes]) (by simp; omega) rfl
    have hrec := ih (pre ++ e.bytes) rest
      (ret.insert e.index (demangleName d e.name))
      (by rw [hsec]; simp [entriesBytes]) (fun x hx => hfr x (by simp [hx]))
    simp only [List.length_cons]
    rw [functionNamesLoop]
    simp only [hv1, hv2, hr,
      show ¬ (pre.length + e.indexEnc.length + e.nameLenEnc.length + e.name.length > sec.length)
        by omega, if_false]
    have hp : pre.length + e.indexEnc.length + e.nameLenEnc.length + e.name.length
        = (pre ++ e.bytes).length := by
      simp only [NameEntry.bytes, List.length_append]; omega
    rw [hp, hrec]
    simp only [entriesBytes, insertEntries, List.length_append, Nat.add_assoc]

theorem subsectionsBytes_append (a b : List Subsection) :
    subsectionsBytes (a ++ b) = subsectionsBytes a ++ subsectionsBytes b := by
  induction a with
  | nil => rfl
  | cons s ss ih => simp [subsectionsBytes, ih]

theorem subsectionsLoop_subsections (d : Bytes → Option Bytes) (sec : Bytes) :
    ∀ (subs : List Subsection) (pre : Bytes) (fuel : Nat) (ret : NameTable),
      sec = pre ++ subsectionsBytes subs → (∀ s ∈ subs, s.Framed) → subs.length ≤ fuel →
      subsectionsLoop d sec fuel pre.length ret = .ok (tableOf d subs ret) := by
  intro subs
  induction subs with
  | nil =>
    intro pre fuel ret hsec _ _
    have hlen : ¬ pre.length < sec.length := by rw [hsec]; simp [subsectionsBytes]
    cases fuel <;> rw [subsectionsLoop] <;> simp [hlen, tableOf]
  | cons s ss ih =>
    intro pre fuel ret hsec hfr hfuel
    cases fuel with
    | zero => simp at hfuel
    | succ fuel =>
      have hfr' : ∀ x ∈ ss, x.Framed := fun x hx => hfr x (by simp [hx])
      have hfuel' : ss.length ≤ fuel := by simp only [List.length_cons] at hfuel; omega
      have hsec2 : sec = (pre ++ s.bytes) ++ subsectionsBytes ss := by
        rw [hsec]; simp [subsectionsBytes]
      have hrec := ih (pre ++ s.bytes) fuel
      have hs : s.Framed := hfr s (by simp)
      cases s with
      | other id sizeEnc payload =>
        obtain ⟨hid, hsize⟩ := hs
        simp only [Subsection.bytes] at hsec2 hrec
        have hlen : sec.length = pre.length + (1 + (sizeEnc.length + (payload.length +
            (subsectionsBytes ss).length))) := by
          rw [hsec2]; simp; omega
        have hget : sec[pre.length]? = some id :=
          getElem?_at (T := sizeEnc ++ (payload ++ subsectionsBytes ss))
            (by rw [hsec2]; simp) rfl
        have hv1 : parseVarint sec (pre.length + 1) sec.length
            = .ok (payload.length, pre.length + 1 + sizeEnc.length) :=
          parseVarint_at (P := pre ++ [id]) (R := payload ++ subsectionsBytes ss)
            (by rw [hsec2]; simp) (by simp) hsize (by omega)
        have hp : pre.length + 1 + sizeEnc.length + payload.length
            = (pre ++ id :: (sizeEnc ++ payload)).length := by
          simp only [List.length_cons, List.length_append]; omega
        rw [subsectionsLoop]
        simp only [show pre.length < sec.length by omega, if_true, hget, hv1,
          show ¬ (pre.length + 1 + sizeEnc.length + payload.length > sec.length) by omega,
          if_false, hid, ne_eq, not_false_eq_true]
        rw [hp, hrec ret hsec2 hfr' hfuel']
        simp only [tableOf]
      | functionNames sizeEnc countEnc es =>
        obtain ⟨hsize, hcount, hes⟩ := hs
        simp only [Subsection.bytes] at hsec2 hrec
        have hle := length_le_entriesBytes es hes
        have hlen : sec.length = pre.length + (1 + (sizeEnc.length + (countEnc.length +
            ((entriesBytes es).length + (subsectionsBytes ss).length)))) := by
          rw [hsec2]; simp; omega
        have hget : sec[pre.length]? = some 1 :=
          getElem?_at (T := sizeEnc ++ (countEnc ++ (entriesBytes es ++ subsectionsBytes ss)))
            (by rw [hsec2]; simp) rfl
        have hv1 : parseVarint sec (pre.length + 1) sec.length
            = .ok (countEnc.length + (entriesBytes es).length,
                pre.length + 1 + sizeEnc.length) :=
          parseVarint_at (P := pre ++ [1])
            (R := countEnc ++ (entriesBytes es ++ subsectionsBytes ss))
            (by rw [hsec2]; simp) (by simp) hsize (by omega)
        have hv2 : parseVarint sec (pre.length + 1 + sizeEnc.length) sec.length
            = .ok (es.length, pre.length + 1 + sizeEnc.length + countEnc.length) :=
          parseVarint_at (P := pre ++ 1 :: sizeEnc)
            (R := entriesBytes es ++ subsectionsBytes ss)
            (by rw [hsec2]; simp) (by simp; omega) hcount (by omega)
        have hloop : functionNamesLoop d sec es.length
            (pre.length + 1 + sizeEnc.length + countEnc.length) ret
            = .ok (pre.length + 1 + sizeEnc.length + countEnc.length + (entriesBytes es).length,
                insertEntries d ret es) := by
          have h := functionNamesLoop_entries d sec es (pre ++ 1 :: (sizeEnc ++ countEnc))
            (subsectionsBytes ss) ret (by rw [hsec2]; simp) hes
          have hp : (pre ++ 1 :: (sizeEnc ++ countEnc)).length
              = pre.length + 1 + sizeEnc.length + countEnc.length := by
            simp only [List.length_cons, List.length_append]; omega
          rw [hp] at h
          exact h
        have hp : pre.length + 1 + sizeEnc.length + countEnc.length + (entriesBytes es).length
            = (pre ++ 1 :: (sizeEnc ++ (countEnc ++ entriesBytes es))).length := by
          simp only [List.length_cons, List.length_append]; omega
        rw [subsectionsLoop]
        simp only [show pre.length < sec.length by omega, if_true, hget, hv1,
          show ¬ (pre.length + 1 + sizeEnc.length + (countEnc.length + (entriesBytes es).length)
            > sec.length) by omega, if_false, ne_eq, not_true_eq_false, hv2,
          show ¬ (pre.length + 1 + sizeEnc.length + countEnc.length + es.length > sec.length)
            by omega, hloop,
          show pre.length + 1 + sizeEnc.length + (countEnc.length + (entriesBytes es).length)
            = pre.length + 1 + sizeEnc.length + countEnc.length + (entriesBytes es).length
            by omega]
        rw [hp, hrec _ hsec2 hfr' hfuel', if_neg (by rw [← hp]; omega)]
        try rfl


theorem NameTable.insert_absent (t : NameTable) (k : Nat) (v : Bytes)
    (h : ∀ x ∈ t, x.1 ≠ k) : t.insert k v = t ++ [(k, v)] := by
  unfold NameTable.insert
  rw [if_neg]
  simp only [List.any_eq_true, decide_eq_true_eq, not_exists, not_and]
  exact fun x hx => h x hx

theorem insertEntries_distinct (d : Bytes → Option Bytes) :
    ∀ (es : List NameEntry) (t : NameTable), (es.map (fun e => e.index)).Nodup →
      (∀ e ∈ es, ∀ x ∈ t, x.1 ≠ e.index) →
      insertEntries d t es = t ++ es.map (fun e => (e.index, demangleName d e.name)) := by
  intro es
  induction es with
  | nil => intro t _ _; simp [insertEntries]
  | cons e es ih =>
    intro t hnd hdis
    simp only [List.map_cons, List.nodup_cons, List.mem_map, not_exists, not_and] at hnd
    rw [insertEntries, NameTable.insert_absent t _ _ (hdis e (by simp)),
      ih _ hnd.2 ?_]
    · simp
    · intro e' he' x hx
      simp only [List.mem_append, List.mem_singleton] at hx
      rcases hx with hx | hx
      · exact hdis e' (by simp [he']) x hx
      · rw [hx]
        exact fun heq => hnd.1 e' he' heq.symm

theorem tableOf_skip (d : Bytes → Option Bytes) (A rest : List Subsection) (t : NameTable)
    (hA : ∀ s ∈ A, s.isFunctionNames = false) : tableOf d (A ++ rest) t = tableOf d rest t := by
  induction A with
  | nil => rfl
  | cons s ss ih =>
    have hs := hA s (by simp)
    cases s with
    | functionNames _ _ _ => simp [Subsection.isFunctionNames] at hs
    | other id sizeEnc payload =>
      simp only [List.cons_append, tableOf]
      exact ih (fun x hx => hA x (by simp [hx]))

theorem length_le_subsectionsBytes (subs : List Subsection) :
    subs.length ≤ (subsectionsBytes subs).length := by
  induction subs with
  | nil => simp
  | cons s ss ih =>
    have hpos : 0 < s.bytes.length := by cases s <;> simp [Subsection.bytes]
    simp only [subsectionsBytes, List.length_cons, List.length_append]
    omega

/-- C10: in a well-formed module whose first custom section named `"name"` is a sequence of
framed subsections, exactly one of which has id 1 and holds a count followed by that many
entries with pairwise distinct function indices, `getFunctionNameIndex` (called with an empty
table) succeeds and returns exactly the entries of that subsection, each name passed through
the demangling step (`demangleName`: the result of the external demangler on the name as a C
string, the raw name when it fails); the other subsections add nothing. -/
theorem getFunctionNameIndex_table (cxa_demangle : Bytes → Option Bytes)
    (hdr lenEnc nameEnc sizeEnc countEnc : Bytes) (before after : List WasmSection)
    (A C : List Subsection) (entries : List NameEntry) (hhdr : IsHeader hdr)
    (hbefore : ∀ s ∈ before, s.Framed)
    (hfirst : ∀ s ∈ before, s.isNamed nameSectionName = false)
    (hsec : (WasmSection.custom lenEnc nameEnc nameSectionName
      (subsectionsBytes (A ++ [Subsection.functionNames sizeEnc countEnc entries] ++ C))).Framed)
    (hsubs : ∀ s ∈ A ++ [Subsection.functionNames sizeEnc countEnc entries] ++ C, s.Framed)
    (hA : ∀ s ∈ A, s.isFunctionNames = false) (hC : ∀ s ∈ C, s.isFunctionNames = false)
    (hdistinct : (entries.map (fun e => e.index)).Nodup) :
    getFunctionNameIndex cxa_demangle
      (hdr ++ sectionsBytes (before ++ [WasmSection.custom lenEnc nameEnc nameSectionName
        (subsectionsBytes (A ++ [Subsection.functionNames sizeEnc countEnc entries] ++ C))]
        ++ after)) []
      = .ok (entries.map (fun e => (e.index, demangleName cxa_demangle e.name))) := by
  obtain ⟨subs, hsubsdef⟩ : ∃ subs, subs =
      A ++ [Subsection.functionNames sizeEnc countEnc entries] ++ C := ⟨_, rfl⟩
  rw [← hsubsdef] at hsec hsubs ⊢
  have hfind := getCustomSection_finds hdr nameSectionName [] lenEnc nameEnc
    (subsectionsBytes subs) before after hhdr hbefore hsec hfirst
  have hne : subsectionsBytes subs ≠ [] := by
    rw [hsubsdef]
    simp [subsectionsBytes_append, subsectionsBytes, Subsection.bytes]
  have hfuel := length_le_subsectionsBytes subs
  have hloop := subsectionsLoop_subsections cxa_demangle (subsectionsBytes subs) subs []
    (subsectionsBytes subs).length [] (by simp) hsubs hfuel
  simp only [List.length_nil] at hloop
  simp only [getFunctionNameIndex, hfind, hne, ne_eq, not_false_eq_true, if_true, hloop]
  rw [hsubsdef, List.append_assoc, tableOf_skip _ _ _ _ hA]
  have hfn : tableOf cxa_demangle ([Subsection.functionNames sizeEnc countEnc entries] ++ C) []
      = tableOf cxa_demangle C (insertEntries cxa_demangle [] entries) := rfl
  have hC' := tableOf_skip cxa_demangle C [] (entries.map
    (fun e => (e.index, demangleName cxa_demangle e.name))) hC
  rw [List.append_nil] at hC'
  rw [hfn, insertEntries_distinct _ _ _ hdistinct (by simp), List.nil_append, hC']
  rfl


/-- C10 on a module with a type-1 section followed by a `"name"` section holding a module-name
subsection (id 0), the function-names subsection with the entries `0 -> "f"` and
`1 -> "_Z1gv"`, and a subsection of id 2; the demangler turns `_Z1gv` into `g()`. -/
theorem getFunctionNameIndex_table_witness :
    getFunctionNameIndex exampleDemangle
      (exampleHeader ++ sectionsBytes ([WasmSection.plain 1 [1] [7]] ++
        [WasmSection.custom [25] [4] nameSectionName
          (subsectionsBytes ([Subsection.other 0 [2] [1, 0x6d]] ++
            [Subsection.functionNames [11] [2]
              [⟨[0], 0, [1], [0x66]⟩, ⟨[1], 1, [5], [0x5f, 0x5a, 0x31, 0x67, 0x76]⟩]] ++
            [Subsection.other 2 [1] [0]]))] ++ [])) []
      = .ok [(0, [0x66]), (1, [0x67, 0x28, 0x29])] :=
  getFunctionNameIndex_table exampleDemangle exampleHeader [25] [4] [11] [2]
    [WasmSection.plain 1 [1] [7]] [] [Subsection.other 0 [2] [1, 0x6d]]
    [Subsection.other 2 [1] [0]]
    [⟨[0], 0, [1], [0x66]⟩, ⟨[1], 1, [5], [0x5f, 0x5a, 0x31, 0x67, 0x76]⟩]
    (by decide) (by decide) (by decide) (by decide) (by decide) (by decide) (by decide)
    (by decide)

/-! ### Section starts of a well-formed module -/

theorem readRange_split {B mid : Bytes} {p n : Nat} (h : readRange B p n = some mid) :
    ∃ pre rest, B = pre ++ (mid ++ rest) ∧ pre.length = p ∧ mid.length = n := by
  have hlen := readRange_length h
  unfold readRange at h
  split at h
  · rename_i hle
    cases h
    refine ⟨B.take p, B.drop (p + n), ?_, by simp; omega, hlen⟩
    rw [← List.drop_drop, List.take_append_drop, List.take_append_drop]
  · cases h

theorem sectionAt_scan {B : Bytes} {p q len : Nat} {t : UInt8} (h : SectionAt B p t q len) :
    B[p]? = some t ∧ parseVarint B (p + 1) B.length = .ok (len, q) := by
  obtain ⟨enc, henc, hrd, hq, hle⟩ := h
  obtain ⟨pre, rest, hB, hpre, hmid⟩ := readRange_split hrd
  have hBlen : B.length = p + (1 + enc.length + rest.length) := by
    rw [hB]; simp; omega
  refine ⟨getElem?_at (T := enc ++ rest) (by rw [hB]; simp) hpre.symm, ?_⟩
  rw [hq]
  exact parseVarint_at (P := pre ++ [t]) (R := rest) (by rw [hB]; simp)
    (by simp; omega) henc (by omega)

/-- The framing of a section seen through its three fields. -/
theorem WasmSection.scan_facts (s : WasmSection) (hs : s.Framed) :
    ∃ (t : UInt8) (lenEnc payload : Bytes), s.bytes = t :: (lenEnc ++ payload) ∧
      IsVarint lenEnc payload.length ∧ (t = 0 ↔ s.isCustom = true) := by
  cases s with
  | plain t lenEnc payload =>
    exact ⟨t, lenEnc, payload, rfl, hs.2, by simp [WasmSection.isCustom, hs.1]⟩
  | custom lenEnc nameEnc sname body =>
    refine ⟨0, lenEnc, nameEnc ++ (sname ++ body), rfl, ?_, by simp [WasmSection.isCustom]⟩
    have := hs.1
    simpa [Nat.add_assoc] using this

theorem sectionStart_wellFormed (hdr : Bytes) (secs : List WasmSection) (hhdr : IsHeader hdr)
    (hsecs : ∀ s ∈ secs, s.Framed) {p : Nat}
    (h : SectionStart (hdr ++ sectionsBytes secs) p) :
    ∃ done todo, secs = done ++ todo ∧ p = hdr.length + (sectionsBytes done).length := by
  induction h with
  | first => exact ⟨[], secs, rfl, by simp [sectionsBytes, hhdr.1]⟩
  | next p q len t _ hsec ih =>
    obtain ⟨done, todo, hsplit, hp⟩ := ih
    obtain ⟨hget, hv⟩ := sectionAt_scan hsec
    cases todo with
    | nil =>
      exfalso
      obtain ⟨hlt, _⟩ := List.getElem?_eq_some.1 hget
      rw [hsplit] at hlt
      simp only [List.append_nil, List.length_append] at hlt
      omega
    | cons s todo =>
      obtain ⟨t', lenEnc, payload, hbytes, hlen, _⟩ := s.scan_facts (hsecs s (by simp [hsplit]))
      have hB : hdr ++ sectionsBytes secs
          = (hdr ++ sectionsBytes done ++ [t']) ++ (lenEnc ++ (payload ++ sectionsBytes todo)) := by
        rw [hsplit]; simp [sectionsBytes_append, sectionsBytes, hbytes]
      have hv' := parseVarint_at (e := (hdr ++ sectionsBytes secs).length) hB
        (i := p + 1) (by simp; omega) hlen (by rw [hB]; simp; omega)
      rw [hv] at hv'
      simp only [Outcome.ok.injEq, Prod.mk.injEq] at hv'
      refine ⟨done ++ [s], todo, by simp [hsplit], ?_⟩
      simp only [sectionsBytes_append, sectionsBytes, hbytes, List.append_nil,
        List.length_append, List.length_cons]
      omega

/-- In a well-formed module without reserved sections the scan reads no reserved name. -/
theorem not_scansReservedName_wellFormed (hdr : Bytes) (secs : List WasmSection)
    (hhdr : IsHeader hdr) (hsecs : ∀ s ∈ secs, s.Framed)
    (hnone : ∀ s ∈ secs, s.isReserved = false) :
    ¬ ScansReservedName (hdr ++ sectionsBytes secs) := by
  rintro ⟨p, q, len, nameEnc', name', hstart, hsec, hne', hrd', htag⟩
  obtain ⟨done, todo, hsplit, hp⟩ := sectionStart_wellFormed hdr secs hhdr hsecs hstart
  obtain ⟨hget, hv⟩ := sectionAt_scan hsec
  cases todo with
  | nil =>
    obtain ⟨hlt, _⟩ := List.getElem?_eq_some.1 hget
    rw [hsplit] at hlt
    simp only [List.append_nil, List.length_append] at hlt
    omega
  | cons s todo =>
    have hs := hsecs s (by simp [hsplit])
    have hres := hnone s (by simp [hsplit])
    cases s with
    | plain t lenEnc payload =>
      have hB : hdr ++ sectionsBytes secs = (hdr ++ sectionsBytes done)
          ++ t :: (lenEnc ++ (payload ++ sectionsBytes todo)) := by
        rw [hsplit]; simp [sectionsBytes_append, sectionsBytes, WasmSection.bytes]
      have hget' := getElem?_at hB (i := p) (by simp; omega)
      rw [hget] at hget'
      simp only [Option.some.injEq] at hget'
      exact hs.1 hget'.symm
    | custom lenEnc nameEnc sname body =>
      obtain ⟨hlen, hnlen⟩ := hs
      have hB1 : hdr ++ sectionsBytes secs = (hdr ++ sectionsBytes done ++ [0])
          ++ (lenEnc ++ (nameEnc ++ (sname ++ (body ++ sectionsBytes todo)))) := by
        rw [hsplit]; simp [sectionsBytes_append, sectionsBytes, WasmSection.bytes]
      have hv' := parseVarint_at (e := (hdr ++ sectionsBytes secs).length) hB1
        (i := p + 1) (by simp; omega) hlen (by rw [hB1]; simp; omega)
      rw [hv] at hv'
      simp only [Outcome.ok.injEq, Prod.mk.injEq] at hv'
      obtain ⟨_, hq⟩ := hv'
      have hB2 : hdr ++ sectionsBytes secs = (hdr ++ sectionsBytes done ++ 0 :: lenEnc)
          ++ (nameEnc ++ (sname ++ (body ++ sectionsBytes todo))) := by
        rw [hB1]; simp
      have hn1 := parseVarint_at (e := (hdr ++ sectionsBytes secs).length) hB2
        (i := q) (by simp; omega) hnlen (by rw [hB2]; simp; omega)
      obtain ⟨pre, rest, hB3, hpre, hmid⟩ := readRange_split hrd'
      have hn2 := parseVarint_at (B := hdr ++ sectionsBytes secs)
        (e := (hdr ++ sectionsBytes secs).length) (P := pre) (E := nameEnc') (R := name' ++ rest) (i := q)
        (by rw [hB3]; simp) hpre.symm hne' (by rw [hB3]; simp; omega)
      rw [hn1] at hn2
      simp only [Outcome.ok.injEq, Prod.mk.injEq] at hn2
      obtain ⟨hl1, hl2⟩ := hn2
      have hr1 : readRange (hdr ++ sectionsBytes secs) (q + nameEnc.length) sname.length
          = some sname :=
        readRange_at (P := hdr ++ sectionsBytes done ++ 0 :: (lenEnc ++ nameEnc))
          (R := body ++ sectionsBytes todo) (by rw [hB1]; simp) (by simp; omega) rfl
      have hr2 : readRange (hdr ++ sectionsBytes secs) (q + nameEnc.length) sname.length
          = some name' :=
        readRange_at (B := hdr ++ sectionsBytes secs) (P := pre ++ nameEnc') (R := rest)
          (by rw [hB3]; simp)
          (by simp; omega) hl1
      rw [hr1] at hr2
      simp only [Option.some.injEq] at hr2
      rw [← hr2] at htag
      simp [WasmSection.isReserved, htag] at hres


/-- A module with a type-1 section, a custom section `"x"` and a type-2 section: the scan
succeeds, it reads no reserved name, and the output is the input. -/
theorem getStrippedSource_identity_of_scan_example :
    getStrippedSource (exampleHeader ++ sectionsBytes [WasmSection.plain 1 [1] [7],
        WasmSection.custom [2] [1] [0x78] [], WasmSection.plain 2 [1] [9]]) []
      = .ok (exampleHeader ++ sectionsBytes [WasmSection.plain 1 [1] [7],
        WasmSection.custom [2] [1] [0x78] [], WasmSection.plain 2 [1] [9]]) ∧
    ¬ ScansReservedName (exampleHeader ++ sectionsBytes [WasmSection.plain 1 [1] [7],
        WasmSection.custom [2] [1] [0x78] [], WasmSection.plain 2 [1] [9]]) ∧
    exampleHeader ++ sectionsBytes [WasmSection.plain 1 [1] [7],
        WasmSection.custom [2] [1] [0x78] [], WasmSection.plain 2 [1] [9]]
      = exampleHeader ++ sectionsBytes [WasmSection.plain 1 [1] [7],
        WasmSection.custom [2] [1] [0x78] [], WasmSection.plain 2 [1] [9]] :=
  ⟨by decide,
    not_scansReservedName_wellFormed exampleHeader _ (by decide) (by decide) (by decide),
    getStrippedSource_identity_of_scan _ _ (by decide)
      (not_scansReservedName_wellFormed exampleHeader _ (by decide) (by decide) (by decide))⟩

/-! ### Absence of the name section, header check -/

theorem checkWasmHeader_short (B : Bytes) (h : B.length < 8) : checkWasmHeader B = .ok () := by
  simp [checkWasmHeader, h]

theorem getCustomSection_short (B name ret : Bytes) (h : B.length < 8) :
    getCustomSection B name ret = .ok ret := by
  simp only [getCustomSection, checkWasmHeader_short B h]
  exact getCustomSectionLoop_end B name ret _ 8 (by omega)

/-- C11: whenever `getCustomSection` finds no custom section named `"name"` (it reports
success and leaves the empty view untouched), `getFunctionNameIndex` reports success and
returns the caller's table without any new entry.  Inputs shorter than 8 bytes and
well-formed modules without a `"name"` section are such modules
(`getFunctionNameIndex_short`, `getFunctionNameIndex_no_section`). -/
theorem getFunctionNameIndex_absent (cxa_demangle : Bytes → Option Bytes) (bytecode : Bytes)
    (ret : NameTable) (h : getCustomSection bytecode nameSectionName [] = .ok []) :
    getFunctionNameIndex cxa_demangle bytecode ret = .ok ret := by
  simp [getFunctionNameIndex, h]

theorem getFunctionNameIndex_short (cxa_demangle : Bytes → Option Bytes) (bytecode : Bytes)
    (ret : NameTable) (h : bytecode.length < 8) :
    getFunctionNameIndex cxa_demangle bytecode ret = .ok ret := by
  simp [getFunctionNameIndex, getCustomSection_short bytecode nameSectionName [] h]

theorem getFunctionNameIndex_no_section (cxa_demangle : Bytes → Option Bytes)
    (hdr : Bytes) (secs : List WasmSection) (ret : NameTable) (hhdr : IsHeader hdr)
    (hsecs : ∀ s ∈ secs, s.Framed) (habsent : ∀ s ∈ secs, s.isNamed nameSectionName = false) :
    getFunctionNameIndex cxa_demangle (hdr ++ sectionsBytes secs) ret = .ok ret := by
  simp [getFunctionNameIndex, getCustomSection_none hdr nameSectionName [] secs hhdr hsecs habsent]

/-- C11 on a module with a type-1 section and a custom section `"x"`, called with a table
that already holds one entry. -/
theorem getFunctionNameIndex_absent_witness :
    getCustomSection (exampleHeader ++ sectionsBytes [WasmSection.plain 1 [1] [7],
        WasmSection.custom [2] [1] [0x78] []]) nameSectionName [] = .ok [] ∧
    getFunctionNameIndex exampleDemangle (exampleHeader ++ sectionsBytes
      [WasmSection.plain 1 [1] [7], WasmSection.custom [2] [1] [0x78] []]) [(7, [0x66])]
      = .ok [(7, [0x66])] :=
  ⟨by decide, getFunctionNameIndex_absent exampleDemangle _ _ (by decide)⟩

/-- C14: `checkWasmHeader` returns true exactly when the input is shorter than 8 bytes or
its first 4 bytes are `00 61 73 6D`, and false otherwise; changing the 4 version bytes
never changes the result. -/
theorem checkWasmHeader_iff (bytecode : Bytes) :
    (checkWasmHeader bytecode = .ok () ↔
      bytecode.length < 8 ∨ bytecode.take 4 = wasm_magic_number) ∧
    (checkWasmHeader bytecode ≠ .ok () → checkWasmHeader bytecode = .fail) ∧
    (∀ (b0 b1 b2 b3 v0 v1 v2 v3 w0 w1 w2 w3 : UInt8) (rest : Bytes),
      checkWasmHeader ([b0, b1, b2, b3, v0, v1, v2, v3] ++ rest)
        = checkWasmHeader ([b0, b1, b2, b3, w0, w1, w2, w3] ++ rest)) := by
  refine ⟨?_, ?_, ?_⟩
  · by_cases h : bytecode.length < 8
    · simp [checkWasmHeader, h]
    · have hr : readRange bytecode 0 4 = some (bytecode.take 4) := by
        simp [readRange]; omega
      simp only [checkWasmHeader, h, if_false, hr, false_or]
      split <;> simp_all
  · by_cases h : bytecode.length < 8
    · simp [checkWasmHeader, h]
    · have hr : readRange bytecode 0 4 = some (bytecode.take 4) := by
        simp [readRange]; omega
      simp only [checkWasmHeader, h, if_false, hr]
      split <;> simp
  · intro b0 b1 b2 b3 v0 v1 v2 v3 w0 w1 w2 w3 rest
    simp [checkWasmHeader, readRange]


/-! ### Subsections whose declared size is wrong -/

/-- One iteration of the subsection loop on a framed subsection at `pre.length`, whatever
follows it. -/
theorem subsectionsLoop_step (d : Bytes → Option Bytes) (sec pre rest : Bytes)
    (s : Subsection) (fuel : Nat) (ret : NameTable)
    (hsec : sec = pre ++ (s.bytes ++ rest)) (hs : s.Framed) :
    subsectionsLoop d sec (fuel + 1) pre.length ret
      = subsectionsLoop d sec fuel (pre.length + s.bytes.length) (tableOf d [s] ret) := by
  cases s with
  | other id sizeEnc payload =>
    obtain ⟨hid, hsize⟩ := hs
    simp only [Subsection.bytes] at hsec ⊢
    have hlen : sec.length = pre.length + (1 + (sizeEnc.length + (payload.length +
        rest.length))) := by
      rw [hsec]; simp; omega
    have hget : sec[pre.length]? = some id :=
      getElem?_at (T := sizeEnc ++ (payload ++ rest)) (by rw [hsec]; simp) rfl
    have hv1 : parseVarint sec (pre.length + 1) sec.length
        = .ok (payload.length, pre.length + 1 + sizeEnc.length) :=
      parseVarint_at (P := pre ++ [id]) (R := payload ++ rest)
        (by rw [hsec]; simp) (by simp) hsize (by omega)
    have hp : pre.length + 1 + sizeEnc.length + payload.length
        = pre.length + (id :: (sizeEnc ++ payload)).length := by
      simp only [List.length_cons, List.length_append]; omega
    rw [subsectionsLoop]
    simp only [show pre.length < sec.length by omega, if_true, hget, hv1,
      show ¬ (pre.length + 1 + sizeEnc.length + payload.length > sec.length) by omega,
      if_false, hid, ne_eq, not_false_eq_true]
    rw [hp]
    rfl
  | functionNames sizeEnc countEnc es =>
    obtain ⟨hsize, hcount, hes⟩ := hs
    simp only [Subsection.bytes] at hsec ⊢
    have hle := length_le_entriesBytes es hes
    have hlen : sec.length = pre.length + (1 + (sizeEnc.length + (countEnc.length +
        ((entriesBytes es).length + rest.length)))) := by
      rw [hsec]; simp; omega
    have hget : sec[pre.length]? = some 1 :=
      getElem?_at (T := sizeEnc ++ (countEnc ++ (entriesBytes es ++ rest)))
        (by rw [hsec]; simp) rfl
    have hv1 : parseVarint sec (pre.length + 1) sec.length
        = .ok (countEnc.length + (entriesBytes es).length,
            pre.length + 1 + sizeEnc.length) :=
      parseVarint_at (P := pre ++ [1]) (R := countEnc ++ (entriesBytes es ++ rest))
        (by rw [hsec]; simp) (by simp) hsize (by omega)
    have hv2 : parseVarint sec (pre.length + 1 + sizeEnc.length) sec.length
        = .ok (es.length, pre.length + 1 + sizeEnc.length + countEnc.length) :=
      parseVarint_at (P := pre ++ 1 :: sizeEnc) (R := entriesBytes es ++ rest)
        (by rw [hsec]; simp) (by simp; omega) hcount (by omega)
    have hloop : functionNamesLoop d sec es.length
        (pre.length + 1 + sizeEnc.length + countEnc.length) ret
        = .ok (pre.length + 1 + sizeEnc.length + countEnc.length + (entriesBytes es).length,
            insertEntries d ret es) := by
      have h := functionNamesLoop_entries d sec es (pre ++ 1 :: (sizeEnc ++ countEnc))
        rest ret (by rw [hsec]; simp) hes
      have hp : (pre ++ 1 :: (sizeEnc ++ countEnc)).length
          = pre.length + 1 + sizeEnc.length + countEnc.length := by
        simp only [List.length_cons, List.length_append]; omega
      rw [hp] at h
      exact h
    have hp : pre.length + 1 + sizeEnc.length + countEnc.length + (entriesBytes es).length
        = pre.length + (1 :: (sizeEnc ++ (countEnc ++ entriesBytes es))).length := by
      simp only [List.length_cons, List.length_append]; omega
    rw [subsectionsLoop]
    simp only [show pre.length < sec.length by omega, if_true, hget, hv1,
      show ¬ (pre.length + 1 + sizeEnc.length + (countEnc.length + (entriesBytes es).length)
        > sec.length) by omega, if_false, ne_eq, not_true_eq_false, hv2,
      show ¬ (pre.length + 1 + sizeEnc.length + countEnc.length + es.length > sec.length)
        by omega, hloop]
    rw [hp, if_neg (not_not.mpr (by simp only [List.length_cons, List.length_append]; omega))]
    rfl

theorem tableOf_append (d : Bytes → Option Bytes) (a b : List Subsection) (t : NameTable) :
    tableOf d (a ++ b) t = tableOf d b (tableOf d a t) := by
  induction a generalizing t with
  | nil => rfl
  | cons s ss ih => cases s <;> simp [tableOf, ih]

theorem subsectionsLoop_skip (d : Bytes → Option Bytes) (sec : Bytes) :
    ∀ (subs : List Subsection) (pre rest : Bytes) (fuel : Nat) (ret : NameTable),
      sec = pre ++ (subsectionsBytes subs ++ rest) → (∀ s ∈ subs, s.Framed) →
      subsectionsLoop d sec (fuel + subs.length) pre.length ret
        = subsectionsLoop d sec fuel (pre.length + (subsectionsBytes subs).length)
            (tableOf d subs ret) := by
  intro subs
  induction subs with
  | nil => intro pre rest fuel ret _ _; simp [subsectionsBytes, tableOf]
  | cons s ss ih =>
    intro pre rest fuel ret hsec hfr
    have hstep := subsectionsLoop_step d sec pre (subsectionsBytes ss ++ rest) s
      (fuel + ss.length) ret (by rw [hsec]; simp [subsectionsBytes]) (hfr s (by simp))
    have hrec := ih (pre ++ s.bytes) rest fuel (tableOf d [s] ret)
      (by rw [hsec]; simp [subsectionsBytes]) (fun x hx => hfr x (by simp [hx]))
    simp only [List.length_append] at hrec
    show subsectionsLoop d sec (fuel + ss.length + 1) pre.length ret = _
    rw [hstep, hrec]
    have ht : tableOf d ss (tableOf d [s] ret) = tableOf d (s :: ss) ret := by
      cases s <;> rfl
    simp only [subsectionsBytes, List.length_append, Nat.add_assoc, ht]

theorem subsectionsLoop_mismatch (d : Bytes → Option Bytes)
    (sec pre sizeEnc countEnc rest : Bytes) (es : List NameEntry) (size fuel : Nat)
    (ret : NameTable)
    (hsec : sec = pre ++ (1 :: (sizeEnc ++ (countEnc ++ (entriesBytes es ++ rest)))))
    (hsize : IsVarint sizeEnc size) (hcount : IsVarint countEnc es.length)
    (hes : ∀ e ∈ es, e.Framed)
    (hmis : size ≠ countEnc.length + (entriesBytes es).length) :
    subsectionsLoop d sec (fuel + 1) pre.length ret = .fail := by
  have hle := length_le_entriesBytes es hes
  have hlen : sec.length = pre.length + (1 + (sizeEnc.length + (countEnc.length +
      ((entriesBytes es).length + rest.length)))) := by
    rw [hsec]; simp; omega
  have hget : sec[pre.length]? = some 1 :=
    getElem?_at (T := sizeEnc ++ (countEnc ++ (entriesBytes es ++ rest)))
      (by rw [hsec]) rfl
  have hv1 : parseVarint sec (pre.length + 1) sec.length
      = .ok (size, pre.length + 1 + sizeEnc.length) :=
    parseVarint_at (P := pre ++ [1]) (R := countEnc ++ (entriesBytes es ++ rest))
      (by rw [hsec]; simp) (by simp) hsize (by omega)
  have hv2 : parseVarint sec (pre.length + 1 + sizeEnc.length) sec.length
      = .ok (es.length, pre.length + 1 + sizeEnc.length + countEnc.length) :=
    parseVarint_at (P := pre ++ 1 :: sizeEnc) (R := entriesBytes es ++ rest)
      (by rw [hsec]; simp) (by simp; omega) hcount (by omega)
  have hloop : functionNamesLoop d sec es.length
      (pre.length + 1 + sizeEnc.length + countEnc.length) ret
      = .ok (pre.length + 1 + sizeEnc.length + countEnc.length + (entriesBytes es).length,
          insertEntries d ret es) := by
    have h := functionNamesLoop_entries d sec es (pre ++ 1 :: (sizeEnc ++ countEnc))
      rest ret (by rw [hsec]; simp) hes
    have hp : (pre ++ 1 :: (sizeEnc ++ countEnc)).length
        = pre.length + 1 + sizeEnc.length + countEnc.length := by
      simp only [List.length_cons, List.length_append]; omega
    rw [hp] at h
    exact h
  rw [subsectionsLoop]
  simp only [show pre.length < sec.length by omega, if_true, hget, hv1]
  by_cases hbig : pre.length + 1 + sizeEnc.length + size > sec.length
  · rw [if_pos hbig]
  · rw [if_neg hbig]
    simp only [ne_eq, not_true_eq_false, if_false, hv2,
      show ¬ (pre.length + 1 + sizeEnc.length + countEnc.length + es.length > sec.length)
        by omega, hloop]
    rw [if_pos (by omega)]

/-- C12: when the `"name"` section is made of framed subsections followed by a subsection of
id 1 whose count and entries parse but do not end at the subsection's start plus its
declared size `size` (they are shorter or longer than declared), `getFunctionNameIndex`
reports failure, whatever follows. -/
theorem getFunctionNameIndex_size_mismatch (cxa_demangle : Bytes → Option Bytes)
    (bytecode sizeEnc countEnc rest : Bytes) (before : List Subsection)
    (entries : List NameEntry) (size : Nat) (ret : NameTable)
    (hsec : getCustomSection bytecode nameSectionName [] = .ok
      (subsectionsBytes before ++
        (1 :: (sizeEnc ++ (countEnc ++ (entriesBytes entries ++ rest))))))
    (hbefore : ∀ s ∈ before, s.Framed)
    (hsize : IsVarint sizeEnc size) (hcount : IsVarint countEnc entries.length)
    (hentries : ∀ e ∈ entries, e.Framed)
    (hmis : size ≠ countEnc.length + (entriesBytes entries).length) :
    getFunctionNameIndex cxa_demangle bytecode ret = .fail := by
  obtain ⟨sec, hsecdef⟩ : ∃ sec, sec = subsectionsBytes before ++
      (1 :: (sizeEnc ++ (countEnc ++ (entriesBytes entries ++ rest)))) := ⟨_, rfl⟩
  rw [← hsecdef] at hsec
  have hne : sec ≠ [] := by rw [hsecdef]; simp
  have hlen : before.length + 1 ≤ sec.length := by
    have := length_le_subsectionsBytes before
    rw [hsecdef]; simp only [List.length_append, List.length_cons]; omega
  have hfuel : sec.length = (sec.length - before.length - 1 + 1) + before.length := by omega
  have hskip := subsectionsLoop_skip cxa_demangle sec before []
    (1 :: (sizeEnc ++ (countEnc ++ (entriesBytes entries ++ rest))))
    (sec.length - before.length - 1 + 1) ret (by rw [hsecdef]; simp) hbefore
  simp only [List.length_nil, Nat.zero_add] at hskip
  simp only [getFunctionNameIndex, hsec, hne, ne_eq, not_false_eq_true, if_true]
  rw [hfuel, hskip]
  exact subsectionsLoop_mismatch cxa_demangle sec (subsectionsBytes before) sizeEnc countEnc
    rest entries size _ _ hsecdef hsize hcount hentries hmis


/-- C12 on a `"name"` section whose function-names subsection declares 5 bytes while its
count and single entry take 4. -/
theorem getFunctionNameIndex_size_mismatch_witness :
    getFunctionNameIndex exampleDemangle
      (exampleHeader ++ sectionsBytes [WasmSection.custom [12] [4] nameSectionName
        [1, 5, 1, 0, 1, 0x66, 0]]) [] = .fail :=
  getFunctionNameIndex_size_mismatch exampleDemangle _ [5] [1] [0] [] [⟨[0], 0, [1], [0x66]⟩]
    5 [] (by decide) (by decide) (by decide) (by decide) (by decide) (by decide)

/-! ### Every run returns a Boolean and reads inside the buffer -/

theorem parseVarintLoop_returns (bytes : Bytes) (end_ : Nat) (hend : end_ ≤ bytes.length) :
    ∀ (fuel pos shift total : Nat), end_ - pos ≤ fuel →
      (parseVarintLoop bytes end_ fuel pos shift total).returns = true := by
  intro fuel
  induction fuel with
  | zero =>
    intro pos shift total hfuel
    rw [parseVarintLoop, if_neg (by omega)]
    rfl
  | succ fuel ih =>
    intro pos shift total hfuel
    rw [parseVarintLoop]
    by_cases hpos : pos < end_
    · simp only [hpos, if_true, show ¬ (pos + 1 > end_) by omega, if_false]
      obtain ⟨b, hb⟩ : ∃ b, bytes[pos]? = some b :=
        ⟨bytes[pos], List.getElem?_eq_getElem (by omega)⟩
      simp only [hb]
      split
      · rfl
      · split
        · rfl
        · split
          · rfl
          · exact ih _ _ _ (by omega)
    · simp only [hpos, if_false]
      rfl

theorem parseVarint_returns (bytes : Bytes) (pos end_ : Nat) (hend : end_ ≤ bytes.length) :
    parseVarint bytes pos end_ = .fail ∨
      ∃ n p, parseVarint bytes pos end_ = .ok (n, p) ∧ pos < p ∧ p ≤ end_ := by
  have h := parseVarintLoop_returns bytes end_ hend (end_ - pos) pos 0 0 (le_refl _)
  cases hv : parseVarint bytes pos end_ with
  | fail => exact Or.inl rfl
  | fault => unfold parseVarint at hv; rw [hv] at h; cases h
  | outOfFuel => unfold parseVarint at hv; rw [hv] at h; cases h
  | ok r =>
    obtain ⟨n, p⟩ := r
    obtain ⟨enc, henc, _, hp, hpe⟩ := parseVarint_sound hv
    have := isVarint_length_pos henc
    exact Or.inr ⟨n, p, rfl, by omega, hpe⟩

theorem readRange_some (B : Bytes) (pos len : Nat) (h : pos + len ≤ B.length) :
    ∃ r, readRange B pos len = some r := by
  simp [readRange, h]

theorem getCustomSectionLoop_returns (B name ret : Bytes) :
    ∀ (fuel pos : Nat), B.length ≤ pos + fuel →
      (getCustomSectionLoop B name ret fuel pos).returns = true := by
  intro fuel
  induction fuel with
  | zero =>
    intro pos hfuel
    rw [getCustomSectionLoop, if_neg (by omega)]
    rfl
  | succ fuel ih =>
    intro pos hfuel
    rw [getCustomSectionLoop]
    by_cases hpos : pos < B.length
    · simp only [hpos, if_true, show ¬ (pos + 1 > B.length) by omega, if_false]
      obtain ⟨t, ht⟩ : ∃ t, B[pos]? = some t := ⟨B[pos], List.getElem?_eq_getElem hpos⟩
      simp only [ht]
      rcases parseVarint_returns B (pos + 1) B.length (le_refl _) with hv1 | ⟨L, p1, hv1, hlt1, _⟩
      · rw [hv1]; rfl
      · simp only [hv1]
        by_cases hL : p1 + L > B.length
        · rw [if_pos hL]; rfl
        · rw [if_neg hL]
          by_cases ht0 : t = 0
          · rw [if_pos ht0]
            rcases parseVarint_returns B p1 (p1 + L) (by omega) with hv2 | ⟨nl, p2, hv2, _, _⟩
            · simp only [hv2]; rfl
            · simp only [hv2]
              by_cases hn : p2 + nl > p1 + L
              · rw [if_pos hn]; rfl
              · rw [if_neg hn]
                by_cases hlen : nl = name.length
                · rw [if_pos hlen]
                  obtain ⟨sname, hr⟩ := readRange_some B p2 nl (by omega)
                  simp only [hr]
                  by_cases heq : sname = name
                  · rw [if_pos heq]
                    obtain ⟨r, hr2⟩ := readRange_some B (p2 + nl) (p1 + L - (p2 + nl))
                      (by omega)
                    simp only [hr2]
                    rfl
                  · rw [if_neg heq]
                    exact ih _ (by omega)
                · rw [if_neg hlen]
                  exact ih _ (by omega)
          · rw [if_neg ht0]
            exact ih _ (by omega)
    · simp only [hpos, if_false]
      rfl

theorem getStrippedSourceLoop_returns (B : Bytes) :
    ∀ (fuel pos : Nat) (ret : Bytes), B.length ≤ pos + fuel →
      (getStrippedSourceLoop B fuel pos ret).returns = true := by
  intro fuel
  induction fuel with
  | zero =>
    intro pos ret hfuel
    rw [getStrippedSourceLoop, if_neg (by omega)]
    split <;> rfl
  | succ fuel ih =>
    intro pos ret hfuel
    rw [getStrippedSourceLoop]
    by_cases hpos : pos < B.length
    · simp only [hpos, if_true, show ¬ (pos + 1 > B.length) by omega, if_false]
      obtain ⟨t, ht⟩ : ∃ t, B[pos]? = some t := ⟨B[pos], List.getElem?_eq_getElem hpos⟩
      simp only [ht]
      rcases parseVarint_returns B (pos + 1) B.length (le_refl _) with hv1 | ⟨L, p1, hv1, hlt1, _⟩
      · rw [hv1]; rfl
      · simp only [hv1]
        by_cases hL : p1 + L > B.length
        · rw [if_pos hL]; rfl
        · rw [if_neg hL]
          by_cases ht0 : t = 0
          · rw [if_pos ht0]
            rcases parseVarint_returns B p1 B.length (le_refl _) with hv2 | ⟨nl, p2, hv2, _, _⟩
            · simp only [hv2]; rfl
            · simp only [hv2]
              by_cases hn : p2 + nl > B.length
              · rw [if_pos hn]; rfl
              · rw [if_neg hn]
                obtain ⟨sname, hr⟩ := readRange_some B p2 nl (by omega)
                simp only [hr]
                by_cases hres : isPrecompiled sname = true ∧ ret = []
                · rw [if_pos hres]
                  obtain ⟨pre, hr2⟩ := readRange_some B 0 pos (by omega)
                  simp only [hr2]
                  exact ih _ _ (by omega)
                · rw [if_neg hres]
                  exact ih _ _ (by omega)
          · rw [if_neg ht0]
            by_cases hret : ret ≠ []
            · rw [if_pos hret]
              obtain ⟨s, hr⟩ := readRange_some B pos (p1 + L - pos) (by omega)
              simp only [hr]
              exact ih _ _ (by omega)
            · rw [if_neg hret]
              exact ih _ _ (by omega)
    · simp only [hpos, if_false]
      split <;> rfl

theorem functionNamesLoop_returns (d : Bytes → Option Bytes) (sec : Bytes) :
    ∀ (n pos : Nat) (ret : NameTable),
      functionNamesLoop d sec n pos ret = .fail ∨
        ∃ p r, functionNamesLoop d sec n pos ret = .ok (p, r) := by
  intro n
  induction n with
  | zero => intro pos ret; exact Or.inr ⟨pos, ret, rfl⟩
  | succ n ih =>
    intro pos ret
    rw [functionNamesLoop]
    rcases parseVarint_returns sec pos sec.length (le_refl _) with hv1 | ⟨idx, p1, hv1, _, _⟩
    · rw [hv1]; exact Or.inl rfl
    · simp only [hv1]
      rcases parseVarint_returns sec p1 sec.length (le_refl _) with hv2 | ⟨sz, p2, hv2, _, _⟩
      · rw [hv2]; exact Or.inl rfl
      · simp only [hv2]
        by_cases hsz : p2 + sz > sec.length
        · rw [if_pos hsz]; exact Or.inl rfl
        · rw [if_neg hsz]
          obtain ⟨nm, hr⟩ := readRange_some sec p2 sz (by omega)
          simp only [hr]
          exact ih _ _

theorem subsectionsLoop_returns (d : Bytes → Option Bytes) (sec : Bytes) :
    ∀ (fuel pos : Nat) (ret : NameTable), sec.length ≤ pos + fuel →
      (subsectionsLoop d sec fuel pos ret).returns = true := by
  intro fuel
  induction fuel with
  | zero =>
    intro pos ret hfuel
    rw [subsectionsLoop, if_neg (by omega)]
    rfl
  | succ fuel ih =>
    intro pos ret hfuel
    rw [subsectionsLoop]
    by_cases hpos : pos < sec.length
    · simp only [hpos, if_true]
      obtain ⟨t, ht⟩ : ∃ t, sec[pos]? = some t := ⟨sec[pos], List.getElem?_eq_getElem hpos⟩
      simp only [ht]
      rcases parseVarint_returns sec (pos + 1) sec.length (le_refl _) with
        hv1 | ⟨size, p1, hv1, hlt1, _⟩
      · rw [hv1]; rfl
      · simp only [hv1]
        by_cases hL : p1 + size > sec.length
        · rw [if_pos hL]; rfl
        · rw [if_neg hL]
          by_cases hid : t ≠ 1
          · rw [if_pos hid]
            exact ih _ _ (by omega)
          · rw [if_neg hid]
            rcases parseVarint_returns sec p1 sec.length (le_refl _) with
              hv2 | ⟨cnt, p2, hv2, _, _⟩
            · simp only [hv2]; rfl
            · simp only [hv2]
              by_cases hc : p2 + cnt > sec.length
              · rw [if_pos hc]; rfl
              · rw [if_neg hc]
                rcases functionNamesLoop_returns d sec cnt p2 ret with hf | ⟨p3, r3, hf⟩
                · simp only [hf]; rfl
                · simp only [hf]
                  by_cases hm : p1 + size ≠ p3
                  · rw [if_pos hm]; rfl
                  · rw [if_neg hm]
                    exact ih _ _ (by omega)
    · simp only [hpos, if_false]
      rfl


/-- C13: on every byte sequence, every target name and every initial output, the five
functions end with a Boolean result (`ok` or `fail`): no read or copy leaves the buffer
(`fault`) and the loops end within their fuel (`outOfFuel`).  `parseVarint` is given a range
`[pos, end_)` whose end lies in the buffer, as at each of its call sites. -/
theorem bytecodeUtil_returns (cxa_demangle : Bytes → Option Bytes)
    (bytecode name ret out : Bytes) (table : NameTable) (pos end_ : Nat) :
    (checkWasmHeader bytecode).returns = true ∧
    (end_ ≤ bytecode.length → (parseVarint bytecode pos end_).returns = true) ∧
    (getCustomSection bytecode name ret).returns = true ∧
    (getFunctionNameIndex cxa_demangle bytecode table).returns = true ∧
    (getStrippedSource bytecode out).returns = true := by
  have hchk : checkWasmHeader bytecode = .ok () ∨ checkWasmHeader bytecode = .fail := by
    by_cases h : checkWasmHeader bytecode = .ok ()
    · exact Or.inl h
    · exact Or.inr ((checkWasmHeader_iff bytecode).2.1 h)
  have hcustom : ∀ n r, (getCustomSection bytecode n r).returns = true := by
    intro n r
    unfold getCustomSection
    rcases hchk with h | h
    · rw [h]; exact getCustomSectionLoop_returns bytecode n r _ 8 (by omega)
    · rw [h]; rfl
  refine ⟨?_, ?_, hcustom name ret, ?_, ?_⟩
  · rcases hchk with h | h <;> rw [h] <;> rfl
  · intro hend
    exact parseVarintLoop_returns bytecode end_ hend _ pos 0 0 (le_refl _)
  · unfold getFunctionNameIndex
    have h := hcustom nameSectionName []
    cases hc : getCustomSection bytecode nameSectionName [] with
    | fail => rfl
    | fault => rw [hc] at h; cases h
    | outOfFuel => rw [hc] at h; cases h
    | ok sec =>
      simp only
      split
      · exact subsectionsLoop_returns cxa_demangle sec _ 0 table (by omega)
      · rfl
  · unfold getStrippedSource
    rcases hchk with h | h
    · rw [h]; exact getStrippedSourceLoop_returns bytecode _ 8 out (by omega)
    · rw [h]; rfl

/-- C13 on the five bytes `00 61 73 6D 80`, a truncated header, with `parseVarint` run on the
last byte, a lone continuation byte. -/
theorem bytecodeUtil_returns_witness :
    (5 ≤ ([0x00, 0x61, 0x73, 0x6d, 0x80] : Bytes).length) ∧
    (parseVarint [0x00, 0x61, 0x73, 0x6d, 0x80] 4 5).returns = true :=
  ⟨by decide, (bytecodeUtil_returns exampleDemangle [0x00, 0x61, 0x73, 0x6d, 0x80] [] [] []
    [] 4 5).2.1 (by decide)⟩

/-! ### The failure guard of the lifecycle entry points -/

theorem CHECK_FAIL_failed {W A V : Type} (h : Host W A V) (c : Context W A V)
    (o cl : Nat) (hf : c.isFailed h = true) :
    CHECK_FAIL h c o cl = some (if c.plugin_.fail_open_ then o else cl) := by
  unfold CHECK_FAIL
  rw [if_pos hf]
  split <;> rfl

theorem CHECK_FAIL_live {W A V : Type} (h : Host W A V) (c : Context W A V)
    (o cl : Nat) (hf : c.isFailed h = false) : CHECK_FAIL h c o cl = none := by
  unfold CHECK_FAIL
  rw [if_neg (by simp [hf])]

/-- C15: when the context is failed at entry (no engine, or the engine's failed flag set),
each of the eight lifecycle entry points returns at once, with the context untouched (so the
record of guest calls gains nothing: the guest is invoked zero times), and the status is the
open action when `fail_open_` is set and the closed action otherwise: `Continue` /
`StopAllIterationAndWatermark` for headers, `Continue` / `StopIterationNoBuffer` for the
body, `Continue` / `StopIteration` for trailers, `Continue` either way for metadata. -/
theorem failed_guard {W A V : Type} (h : Host W A V) (E : StatusCodes) (c : Context W A V)
    (n : Nat) (eos : Bool) (hf : c.isFailed h = true) :
    onRequestHeaders h E c n eos
      = (if c.plugin_.fail_open_ then E.headersContinue
          else E.headersStopAllIterationAndWatermark, c) ∧
    onRequestBody h E c n eos
      = (if c.plugin_.fail_open_ then E.dataContinue else E.dataStopIterationNoBuffer, c) ∧
    onRequestTrailers h E c n
      = (if c.plugin_.fail_open_ then E.trailersContinue else E.trailersStopIteration, c) ∧
    onRequestMetadata h E c n
      = (if c.plugin_.fail_open_ then E.metadataContinue else E.metadataContinue, c) ∧
    onResponseHeaders h E c n eos
      = (if c.plugin_.fail_open_ then E.headersContinue
          else E.headersStopAllIterationAndWatermark, c) ∧
    onResponseBody h E c n eos
      = (if c.plugin_.fail_open_ then E.dataContinue else E.dataStopIterationNoBuffer, c) ∧
    onResponseTrailers h E c n
      = (if c.plugin_.fail_open_ then E.trailersContinue else E.trailersStopIteration, c) ∧
    onResponseMetadata h E c n
      = (if c.plugin_.fail_open_ then E.metadataContinue else E.metadataContinue, c) := by
  refine ⟨?_, ?_, ?_, ?_, ?_, ?_, ?_, ?_⟩
  · simp only [onRequestHeaders, CHECK_FAIL_failed h c _ _ hf]
  · simp only [onRequestBody, CHECK_FAIL_failed h c _ _ hf]
  · simp only [onRequestTrailers, CHECK_FAIL_failed h c _ _ hf]
  · simp only [onRequestMetadata, CHECK_FAIL_failed h c _ _ hf]
  · simp only [onResponseHeaders, CHECK_FAIL_failed h c _ _ hf]
  · simp only [onResponseBody, CHECK_FAIL_failed h c _ _ hf]
  · simp only [onResponseTrailers, CHECK_FAIL_failed h c _ _ hf]
  · simp only [onResponseMetadata, CHECK_FAIL_failed h c _ _ hf]

/-- C15 on a fail-closed context without engine: `onRequestHeaders` returns
`StopAllIterationAndWatermark` and no guest call is recorded. -/
theorem failed_guard_witness :
    failedContext.isFailed trappingHost = true ∧
    onRequestHeaders trappingHost exampleCodes failedContext 0 true
      = (exampleCodes.headersStopAllIterationAndWatermark, failedContext) ∧
    (onRequestHeaders trappingHost exampleCodes failedContext 0 true).2.guestCalls = [] :=
  ⟨rfl, (failed_guard trappingHost exampleCodes failedContext 0 true rfl).1, rfl⟩

theorem callHandleRequest_live {W A V : Type} (h : Host W A V) (c : Context W A V) (w w' : W)
    (r : Nat) (acts : List A) (hw : c.wasm_ = some w)
    (hcall : h.handle_request_ c w = (r, w', acts)) :
    callHandleRequest h c = (r, c.afterGuestCall w' acts GuestCall.handle_request) := by
  simp only [callHandleRequest, hw, hcall]

theorem callHandleResponse_live {W A V : Type} (h : Host W A V) (c : Context W A V) (w : W)
    (hw : c.wasm_ = some w) :
    callHandleResponse h c = ((h.handle_response_ c w c.request_context_ 0).1,
      c.afterGuestCall (h.handle_response_ c w c.request_context_ 0).2.1
        (h.handle_response_ c w c.request_context_ 0).2.2
        (GuestCall.handle_response c.request_context_ 0)) := by
  simp only [callHandleResponse, hw]

theorem isFailed_of_wasm {W A V : Type} (h : Host W A V) (c : Context W A V) (w : W)
    (hw : c.wasm_ = some w) : c.isFailed h = h.isFailed w := by
  simp only [Context.isFailed, hw]

/-- The request entry points when the engine is live before the call. -/
theorem onRequestHeaders_live {W A V : Type} (h : Host W A V) (E : StatusCodes)
    (c : Context W A V) (w w' : W) (r n : Nat) (acts : List A) (eos : Bool)
    (hw : c.wasm_ = some w) (hlive : h.isFailed w = false)
    (hcall : h.handle_request_ c w = (r, w', acts)) :
    onRequestHeaders h E c n eos =
      if h.isFailed w' = true then
        (if c.plugin_.fail_open_ then E.headersContinue
          else E.headersStopAllIterationAndWatermark,
          c.afterGuestCall w' acts GuestCall.handle_request)
      else
        (convertVmCallResultToFilterHeadersStatus E (r % 2 ^ 32),
          { c.afterGuestCall w' acts GuestCall.handle_request with
            request_context_ := (r / 2 ^ 32) % 2 ^ 32 }) := by
  have h1 : c.isFailed h = false := by rw [isFailed_of_wasm h c w hw, hlive]
  simp only [onRequestHeaders, CHECK_FAIL_live h c _ _ h1,
    callHandleRequest_live h c w w' r acts hw hcall]
  by_cases h2 : h.isFailed w' = true
  · rw [if_pos h2, CHECK_FAIL_failed _ _ _ _
      (by simp [Context.isFailed, Context.afterGuestCall, h2])]
    rfl
  · rw [if_neg h2, CHECK_FAIL_live _ _ _ _
      (by simpa [Context.isFailed, Context.afterGuestCall] using h2)]

theorem onRequestBody_live {W A V : Type} (h : Host W A V) (E : StatusCodes)
    (c : Context W A V) (w w' : W) (r n : Nat) (acts : List A) (eos : Bool)
    (hw : c.wasm_ = some w) (hlive : h.isFailed w = false)
    (hcall : h.handle_request_ c w = (r, w', acts)) :
    onRequestBody h E c n eos =
      if h.isFailed w' = true then
        (if c.plugin_.fail_open_ then E.dataContinue else E.dataStopIterationNoBuffer,
          c.afterGuestCall w' acts GuestCall.handle_request)
      else
        (convertVmCallResultToFilterDataStatus (r % 2 ^ 32),
          { c.afterGuestCall w' acts GuestCall.handle_request with
            request_context_ := (r / 2 ^ 32) % 2 ^ 32 }) := by
  have h1 : c.isFailed h = false := by rw [isFailed_of_wasm h c w hw, hlive]
  simp only [onRequestBody, CHECK_FAIL_live h c _ _ h1,
    callHandleRequest_live h c w w' r acts hw hcall]
  by_cases h2 : h.isFailed w' = true
  · rw [if_pos h2, CHECK_FAIL_failed _ _ _ _
      (by simp [Context.isFailed, Context.afterGuestCall, h2])]
    rfl
  · rw [if_neg h2, CHECK_FAIL_live _ _ _ _
      (by simpa [Context.isFailed, Context.afterGuestCall] using h2)]

/-- The response entry points when the engine is live before the call. -/
theorem onResponseHeaders_live {W A V : Type} (h : Host W A V) (E : StatusCodes)
    (c : Context W A V) (n : Nat) (eos : Bool) (hlive : c.isFailed h = false) :
    onResponseHeaders h E c n eos = (E.headersContinue, (callHandleResponse h c).2) := by
  simp only [onResponseHeaders, CHECK_FAIL_live h c _ _ hlive]

theorem onResponseBody_live {W A V : Type} (h : Host W A V) (E : StatusCodes)
    (c : Context W A V) (n : Nat) (eos : Bool) (hlive : c.isFailed h = false) :
    onResponseBody h E c n eos = (E.dataContinue, (callHandleResponse h c).2) := by
  simp only [onResponseBody, CHECK_FAIL_live h c _ _ hlive]


/-! ### Guest results and the guard after the call -/

/-- After a guest call that leaves the engine failed, the request entry points return the
policy-selected action. -/
theorem onRequest_guard_after_call {W A V : Type} (h : Host W A V) (E : StatusCodes)
    (c : Context W A V) (w w' : W) (r n : Nat) (acts : List A) (eos : Bool)
    (hw : c.wasm_ = some w) (hlive : h.isFailed w = false)
    (hcall : h.handle_request_ c w = (r, w', acts)) (hfail : h.isFailed w' = true) :
    (onRequestHeaders h E c n eos).1
      = (if c.plugin_.fail_open_ then E.headersContinue
          else E.headersStopAllIterationAndWatermark) ∧
    (onRequestBody h E c n eos).1
      = (if c.plugin_.fail_open_ then E.dataContinue else E.dataStopIterationNoBuffer) := by
  rw [onRequestHeaders_live h E c w w' r n acts eos hw hlive hcall,
    onRequestBody_live h E c w w' r n acts eos hw hlive hcall, if_pos hfail, if_pos hfail]
  exact ⟨rfl, rfl⟩

/-- C16, at the failing input: a fail-closed context with a live engine whose guest traps
during `handle_response`.  The engine is failed once the call returns, yet
`onResponseHeaders` and `onResponseBody` return `Continue`, not the closed actions
`StopAllIterationAndWatermark` and `StopIterationNoBuffer`: they have no guard after the
guest call.  On the same engine `onRequestHeaders` and `onRequestBody`, which do have the
second guard, return the closed actions. -/
theorem onResponse_no_guard_after_call :
    liveContext.isFailed trappingHost = false ∧
    liveContext.plugin_.fail_open_ = false ∧
    (onResponseHeaders trappingHost exampleCodes liveContext 0 true).2.isFailed trappingHost
      = true ∧
    (onResponseHeaders trappingHost exampleCodes liveContext 0 true).1
      = exampleCodes.headersContinue ∧
    (onResponseHeaders trappingHost exampleCodes liveContext 0 true).1
      ≠ exampleCodes.headersStopAllIterationAndWatermark ∧
    (onResponseBody trappingHost exampleCodes liveContext 0 true).2.isFailed trappingHost
      = true ∧
    (onResponseBody trappingHost exampleCodes liveContext 0 true).1
      = exampleCodes.dataContinue ∧
    (onResponseBody trappingHost exampleCodes liveContext 0 true).1
      ≠ exampleCodes.dataStopIterationNoBuffer ∧
    (onRequestHeaders trappingHost exampleCodes liveContext 0 true).1
      = exampleCodes.headersStopAllIterationAndWatermark ∧
    (onRequestBody trappingHost exampleCodes liveContext 0 true).1
      = exampleCodes.dataStopIterationNoBuffer := by
  decide

/-- C17: when `handle_request` returns the 64-bit value `r` in a call of `onRequestHeaders`
or `onRequestBody` that is failed neither before nor after the guest call, the stored
continuation id `request_context_` becomes `r / 2 ^ 32`, the returned status is a function of
`r % 2 ^ 32` alone, and the next `onResponseHeaders` or `onResponseBody` call passes exactly
`r / 2 ^ 32` to `handle_response`. -/
theorem continuation_id {W A V : Type} (h : Host W A V) (E : StatusCodes)
    (c : Context W A V) (w w' : W) (r n m : Nat) (acts : List A) (eos eos' : Bool)
    (hw : c.wasm_ = some w) (hlive : h.isFailed w = false)
    (hcall : h.handle_request_ c w = (r, w', acts)) (hr : r < 2 ^ 64)
    (hlive' : h.isFailed w' = false) :
    ((onRequestHeaders h E c n eos).2.request_context_ = r / 2 ^ 32 ∧
      (onRequestHeaders h E c n eos).1
        = convertVmCallResultToFilterHeadersStatus E (r % 2 ^ 32) ∧
      (onResponseHeaders h E (onRequestHeaders h E c n eos).2 m eos').2.guestCalls
        = c.guestCalls ++ [GuestCall.handle_request, GuestCall.handle_response (r / 2 ^ 32) 0] ∧
      (onResponseBody h E (onRequestHeaders h E c n eos).2 m eos').2.guestCalls
        = c.guestCalls ++
          [GuestCall.handle_request, GuestCall.handle_response (r / 2 ^ 32) 0]) ∧
    ((onRequestBody h E c n eos).2.request_context_ = r / 2 ^ 32 ∧
      (onRequestBody h E c n eos).1 = convertVmCallResultToFilterDataStatus (r % 2 ^ 32) ∧
      (onResponseHeaders h E (onRequestBody h E c n eos).2 m eos').2.guestCalls
        = c.guestCalls ++ [GuestCall.handle_request, GuestCall.handle_response (r / 2 ^ 32) 0] ∧
      (onResponseBody h E (onRequestBody h E c n eos).2 m eos').2.guestCalls
        = c.guestCalls ++
          [GuestCall.handle_request, GuestCall.handle_response (r / 2 ^ 32) 0]) := by
  have hdiv : r / 2 ^ 32 % 2 ^ 32 = r / 2 ^ 32 :=
    Nat.mod_eq_of_lt (by rw [Nat.div_lt_iff_lt_mul (by norm_num)]; norm_num at hr ⊢; omega)
  have hnf : h.isFailed w' ≠ true := by simp [hlive']
  have hlive2 : ∀ (c2 : Context W A V), c2.wasm_ = some w' → c2.isFailed h = false := by
    intro c2 h2; rw [isFailed_of_wasm h c2 w' h2, hlive']
  rw [onRequestHeaders_live h E c w w' r n acts eos hw hlive hcall,
    onRequestBody_live h E c w w' r n acts eos hw hlive hcall, if_neg hnf, if_neg hnf]
  refine ⟨⟨hdiv, rfl, ?_, ?_⟩, ⟨hdiv, rfl, ?_, ?_⟩⟩
  · rw [onResponseHeaders_live h E _ m eos' (hlive2 _ rfl), callHandleResponse_live h _ w' rfl]
    simp only [Context.afterGuestCall, hdiv, List.append_assoc, List.cons_append,
      List.nil_append]
  · rw [onResponseBody_live h E _ m eos' (hlive2 _ rfl), callHandleResponse_live h _ w' rfl]
    simp only [Context.afterGuestCall, hdiv, List.append_assoc, List.cons_append,
      List.nil_append]
  · rw [onResponseHeaders_live h E _ m eos' (hlive2 _ rfl), callHandleResponse_live h _ w' rfl]
    simp only [Context.afterGuestCall, hdiv, List.append_assoc, List.cons_append,
      List.nil_append]
  · rw [onResponseBody_live h E _ m eos' (hlive2 _ rfl), callHandleResponse_live h _ w' rfl]
    simp only [Context.afterGuestCall, hdiv, List.append_assoc, List.cons_append,
      List.nil_append]

/-- C17 on a guest returning `7 * 2 ^ 32 + 1`: the continuation id 7 is stored and passed to
`handle_response`. -/
theorem continuation_id_witness :
    (onRequestHeaders healthyHost exampleCodes liveContext 0 true).2.request_context_ = 7 ∧
    (onResponseBody healthyHost exampleCodes
      (onRequestHeaders healthyHost exampleCodes liveContext 0 true).2 0 true).2.guestCalls
      = [GuestCall.handle_request, GuestCall.handle_response 7 0] := by
  have h := continuation_id healthyHost exampleCodes liveContext false false (7 * 2 ^ 32 + 1)
    0 0 [503] true true rfl rfl rfl (by decide) rfl
  exact ⟨h.1.1, h.1.2.2.2⟩

/-- C18: `onRequestHeaders` never returns `StopIteration`, whether the context is failed or
not; in a call failed neither before nor after the guest call, the next-action code
`StopIteration` is returned as `StopAllIterationAndWatermark` and every other code is
returned as the status with the same code. -/
theorem onRequestHeaders_never_stopIteration {W A V : Type} (h : Host W A V)
    (E : StatusCodes) (c : Context W A V) (n : Nat) (eos : Bool) (hd : E.Distinct) :
    (onRequestHeaders h E c n eos).1 ≠ E.headersStopIteration ∧
    (∀ (w w' : W) (r : Nat) (acts : List A), c.wasm_ = some w → h.isFailed w = false →
      h.handle_request_ c w = (r, w', acts) → h.isFailed w' = false →
      (r % 2 ^ 32 = E.headersStopIteration →
        (onRequestHeaders h E c n eos).1 = E.headersStopAllIterationAndWatermark) ∧
      (r % 2 ^ 32 ≠ E.headersStopIteration →
        (onRequestHeaders h E c n eos).1 = r % 2 ^ 32)) := by
  obtain ⟨hh, _, _⟩ := hd
  simp only [List.nodup_cons, List.mem_cons, List.mem_singleton, not_or, List.not_mem_nil,
    not_false_eq_true, List.nodup_nil, and_true] at hh
  obtain ⟨⟨h01, h02, h03⟩, ⟨h12, h13⟩, h23⟩ := hh
  have hconv : ∀ x, convertVmCallResultToFilterHeadersStatus E x ≠ E.headersStopIteration := by
    intro x
    unfold convertVmCallResultToFilterHeadersStatus
    split
    · exact fun heq => h13 heq.symm
    · assumption
  have hpol : (if c.plugin_.fail_open_ then E.headersContinue
      else E.headersStopAllIterationAndWatermark) ≠ E.headersStopIteration := by
    split
    · exact h01
    · exact fun heq => h13 heq.symm
  constructor
  · cases hw : c.wasm_ with
    | none =>
      have hf : c.isFailed h = true := by simp [Context.isFailed, hw]
      rw [(failed_guard h E c n eos hf).1]
      exact hpol
    | some w =>
      by_cases hlive : h.isFailed w = true
      · have hf : c.isFailed h = true := by rw [isFailed_of_wasm h c w hw, hlive]
        rw [(failed_guard h E c n eos hf).1]
        exact hpol
      · rw [onRequestHeaders_live h E c w (h.handle_request_ c w).2.1 (h.handle_request_ c w).1
          n (h.handle_request_ c w).2.2 eos hw (by simpa using hlive) rfl]
        split
        · exact hpol
        · exact hconv _
  · intro w w' r acts hw hlive hcall hlive'
    rw [onRequestHeaders_live h E c w w' r n acts eos hw hlive hcall,
      if_neg (by simp [hlive'])]
    constructor
    · intro heq
      show convertVmCallResultToFilterHeadersStatus E (r % 2 ^ 32) = _
      unfold convertVmCallResultToFilterHeadersStatus
      rw [if_pos heq]
    · intro hne
      show convertVmCallResultToFilterHeadersStatus E (r % 2 ^ 32) = _
      unfold convertVmCallResultToFilterHeadersStatus
      rw [if_neg hne]

/-- C18 on a guest whose next-action code is `StopIteration`: the status is
`StopAllIterationAndWatermark`. -/
theorem onRequestHeaders_never_stopIteration_witness :
    exampleCodes.Distinct ∧
    (onRequestHeaders healthyHost exampleCodes liveContext 0 true).1
      ≠ exampleCodes.headersStopIteration ∧
    (callHandleRequest healthyHost liveContext).1 % 2 ^ 32 = exampleCodes.headersStopIteration ∧
    (onRequestHeaders healthyHost exampleCodes liveContext 0 true).1
      = exampleCodes.headersStopAllIterationAndWatermark :=
  ⟨by decide,
    (onRequestHeaders_never_stopIteration healthyHost exampleCodes liveContext 0 true
      (by decide)).1, by decide, by decide⟩

/-- C19, as the code behaves: on a live context whose guest returns the code 1 from
`handle_response` (`StopIterationAndBuffer` for the body, `StopIteration` for headers),
`onResponseBody` and `onResponseHeaders` return `Continue`, which is not the translation of
that code. -/
theorem onResponse_ignores_guest_code :
    liveContext.isFailed healthyHost = false ∧
    (callHandleResponse healthyHost liveContext).1 = exampleCodes.dataStopIterationAndBuffer ∧
    (onResponseBody healthyHost exampleCodes liveContext 0 true).1
      ≠ convertVmCallResultToFilterDataStatus (callHandleResponse healthyHost liveContext).1 ∧
    convertFilterDataStatus exampleCodes
        (onResponseBody healthyHost exampleCodes liveContext 0 true).1
      ≠ Http.FilterDataStatus.StopIterationAndBuffer ∧
    (callHandleResponse healthyHost liveContext).1 = exampleCodes.headersStopIteration ∧
    (onResponseHeaders healthyHost exampleCodes liveContext 0 true).1
      ≠ convertVmCallResultToFilterHeadersStatus exampleCodes
          (callHandleResponse healthyHost liveContext).1 ∧
    convertFilterHeadersStatus exampleCodes
        (onResponseHeaders healthyHost exampleCodes liveContext 0 true).1
      = Http.FilterHeadersStatus.Continue := by
  decide

/-- C19, amended: in a non-failed state `onResponseHeaders` and `onResponseBody` call
`handle_response` exactly once, with the stored continuation id and 0, and return `Continue`
whatever the guest returns. -/
theorem onResponse_continue {W A V : Type} (h : Host W A V) (E : StatusCodes)
    (c : Context W A V) (n : Nat) (eos : Bool) (hlive : c.isFailed h = false) :
    (onResponseHeaders h E c n eos).1 = E.headersContinue ∧
    (onResponseHeaders h E c n eos).2.guestCalls
      = c.guestCalls ++ [GuestCall.handle_response c.request_context_ 0] ∧
    (onResponseBody h E c n eos).1 = E.dataContinue ∧
    (onResponseBody h E c n eos).2.guestCalls
      = c.guestCalls ++ [GuestCall.handle_response c.request_context_ 0] := by
  rw [onResponseHeaders_live h E c n eos hlive, onResponseBody_live h E c n eos hlive]
  cases hw : c.wasm_ with
  | none => simp [Context.isFailed, hw] at hlive
  | some w =>
    rw [callHandleResponse_live h c w hw]
    exact ⟨rfl, rfl, rfl, rfl⟩

/-- C19, amended, on a live context whose guest returns the code 1. -/
theorem onResponse_continue_witness :
    liveContext.isFailed healthyHost = false ∧
    (onResponseBody healthyHost exampleCodes liveContext 0 true).1
      = exampleCodes.dataContinue ∧
    (onResponseBody healthyHost exampleCodes liveContext 0 true).2.guestCalls
      = [GuestCall.handle_response 0 0] :=
  ⟨rfl, (onResponse_continue healthyHost exampleCodes liveContext 0 true rfl).2.2.1,
    (onResponse_continue healthyHost exampleCodes liveContext 0 true rfl).2.2.2⟩


/-! ### Deferred actions -/

theorem doAfterVmCallActionsLoop_empty {W A V : Type} (h : Host W A V) (fuel : Nat)
    (c : Context W A V) (hq : c.after_vm_call_actions_ = []) :
    doAfterVmCallActionsLoop h fuel c = some c := by
  cases fuel <;> simp [doAfterVmCallActionsLoop, hq]

theorem doAfterVmCallActionsLoop_generation {W A V : Type} (h : Host W A V) :
    ∀ (q p : List A) (fuel : Nat) (c : Context W A V), c.after_vm_call_actions_ = q ++ p →
      doAfterVmCallActionsLoop h (fuel + q.length) c
        = doAfterVmCallActionsLoop h fuel
            (c.afterActions (runGeneration h c.proxy q).1
              (p ++ (runGeneration h c.proxy q).2) q) := by
  intro q
  induction q with
  | nil =>
    intro p fuel c hq
    have hc : c.afterActions c.proxy (p ++ []) [] = c := by
      cases c
      simp only [List.nil_append] at hq
      simp [Context.afterActions, hq]
    simp only [runGeneration, List.length_nil, Nat.add_zero, hc]
  | cons f q ih =>
    intro p fuel c hq
    show doAfterVmCallActionsLoop h (fuel + q.length + 1) c = _
    rw [doAfterVmCallActionsLoop]
    simp only [hq, List.cons_append]
    rw [ih (p ++ (h.runAction f c.proxy).2) fuel _ (by simp)]
    simp only [Context.afterActions, runGeneration, List.append_assoc, List.singleton_append]

theorem doAfterVmCallActionsLoop_schedule {W A V : Type} (h : Host W A V) :
    ∀ (k : Nat) (c : Context W A V) (v : V) (t : List A),
      fifoSchedule h k c.proxy c.after_vm_call_actions_ = some (v, t) →
      ∀ fuel, t.length ≤ fuel →
        doAfterVmCallActionsLoop h fuel c = some (c.afterActions v [] t) := by
  intro k
  induction k with
  | zero =>
    intro c v t hs fuel _
    cases hq : c.after_vm_call_actions_ with
    | nil =>
      rw [hq] at hs
      simp only [fifoSchedule, Option.some.injEq, Prod.mk.injEq] at hs
      obtain ⟨hv, ht⟩ := hs
      rw [doAfterVmCallActionsLoop_empty h fuel c hq, ← hv, ← ht]
      cases c
      simp only at hq
      simp [Context.afterActions, hq]
    | cons f q =>
      rw [hq] at hs
      simp [fifoSchedule] at hs
  | succ k ih =>
    intro c v t hs fuel hfuel
    cases hq : c.after_vm_call_actions_ with
    | nil =>
      rw [hq] at hs
      simp only [fifoSchedule, Option.some.injEq, Prod.mk.injEq] at hs
      obtain ⟨hv, ht⟩ := hs
      rw [doAfterVmCallActionsLoop_empty h fuel c hq, ← hv, ← ht]
      cases c
      simp only at hq
      simp [Context.afterActions, hq]
    | cons f q =>
      rw [hq] at hs
      simp only [fifoSchedule, Option.map_eq_some', Prod.mk.injEq, Prod.exists] at hs
      obtain ⟨v', t', hs', hv, ht⟩ := hs
      subst hv
      have hlen : (f :: q).length + t'.length ≤ fuel := by
        rw [← ht] at hfuel
        simp only [List.length_append, List.length_cons] at hfuel ⊢
        omega
      have hsplit : fuel = (fuel - (f :: q).length) + (f :: q).length := by omega
      rw [hsplit, doAfterVmCallActionsLoop_generation h (f :: q) [] _ c (by simp [hq])]
      rw [ih _ v' t' (by simpa [Context.afterActions] using hs') _ (by omega)]
      simp only [Context.afterActions, ← ht, List.append_assoc]

theorem doAfterVmCallActions_queue_empty {W A V : Type} (h : Host W A V) :
    ∀ (fuel : Nat) (c c' : Context W A V), doAfterVmCallActionsLoop h fuel c = some c' →
      c'.after_vm_call_actions_ = [] := by
  intro fuel
  induction fuel with
  | zero =>
    intro c c' hc
    rw [doAfterVmCallActionsLoop] at hc
    split at hc
    · rename_i hq
      cases hc
      exact hq
    · cases hc
  | succ fuel ih =>
    intro c c' hc
    rw [doAfterVmCallActionsLoop] at hc
    split at hc
    · rename_i hq
      cases hc
      exact hq
    · exact ih _ _ hc

theorem doAfterVmCallActions_eq_loop {W A V : Type} (h : Host W A V) (fuel : Nat)
    (c : Context W A V) : doAfterVmCallActions h fuel c = doAfterVmCallActionsLoop h fuel c := by
  unfold doAfterVmCallActions
  cases hq : c.after_vm_call_actions_ with
  | nil => simp [doAfterVmCallActionsLoop_empty h fuel c hq]
  | cons f q => simp

/-- C20: when the first-in first-out schedule of the queue is finite (`fifoSchedule` yields
the run order `t`: the queued closures in registration order, then, in order, the closures
registered by the running ones), `doAfterVmCallActions` with fuel for `t.length` steps runs
exactly the closures of `t`, each once and in that order, and leaves the queue empty.
`decodeHeaders` and `encodeHeaders` (at the end of the stream), `decodeData` and
`encodeData` return, and what they return is the translated status of the guest call and the
context that the guest call left, with its queue run in that way: when `c` is the context
at the return of the guest call, the entry point returns `c` with the closures of `t` run
once each, in order, and an empty queue. -/
theorem doAfterVmCallActions_fifo {W A V : Type} (h : Host W A V) (E : StatusCodes)
    (c : Context W A V) (k : Nat) (v : V) (t : List A)
    (hs : fifoSchedule h k c.proxy c.after_vm_call_actions_ = some (v, t)) :
    (∀ fuel, t.length ≤ fuel →
      doAfterVmCallActions h fuel c = some (c.afterActions v [] t)) ∧
    (∀ (fuel : Nat) (c0 : Context W A V) (headers : HeaderMap) (data : Bytes)
      (end_stream : Bool), t.length ≤ fuel →
      ((decodeHeadersCall h E c0 headers).2 = c →
        decodeHeaders h E fuel c0 headers true
          = some (convertFilterHeadersStatus E (decodeHeadersCall h E c0 headers).1,
              c.afterActions v [] t)) ∧
      (c0.in_vm_context_created_ = true → (decodeDataCall h E c0 data end_stream).2 = c →
        decodeData h E fuel c0 data end_stream
          = some (convertFilterDataStatus E (decodeDataCall h E c0 data end_stream).1,
              c.afterActions v [] t)) ∧
      (c0.in_vm_context_created_ = true → (encodeHeadersCall h E c0 headers).2 = c →
        encodeHeaders h E fuel c0 headers true
          = some (convertFilterHeadersStatus E (encodeHeadersCall h E c0 headers).1,
              c.afterActions v [] t)) ∧
      (c0.in_vm_context_created_ = true → (encodeDataCall h E c0 data end_stream).2 = c →
        encodeData h E fuel c0 data end_stream
          = some (convertFilterDataStatus E (encodeDataCall h E c0 data end_stream).1,
              c.afterActions v [] t))) := by
  have hrun : ∀ fuel, t.length ≤ fuel →
      doAfterVmCallActions h fuel c = some (c.afterActions v [] t) := by
    intro fuel hfuel
    rw [doAfterVmCallActions_eq_loop]
    exact doAfterVmCallActionsLoop_schedule h k c v t hs fuel hfuel
  refine ⟨hrun, ?_⟩
  intro fuel c0 headers data end_stream hfuel
  refine ⟨?_, ?_, ?_, ?_⟩
  · intro hc
    have hd : decodeHeaders h E fuel c0 headers true
        = (doAfterVmCallActions h fuel (decodeHeadersCall h E c0 headers).2).map
            (fun c' => (convertFilterHeadersStatus E (decodeHeadersCall h E c0 headers).1, c')) :=
      rfl
    rw [hd, hc, hrun fuel hfuel]
    rfl
  · intro hin hc
    have hd : decodeData h E fuel c0 data end_stream
        = (doAfterVmCallActions h fuel (decodeDataCall h E c0 data end_stream).2).map
            (fun c' =>
              (convertFilterDataStatus E (decodeDataCall h E c0 data end_stream).1, c')) := by
      unfold decodeData
      rw [if_neg (by rw [hin]; decide)]
      rfl
    rw [hd, hc, hrun fuel hfuel]
    rfl
  · intro hin hc
    have hd : encodeHeaders h E fuel c0 headers true
        = (doAfterVmCallActions h fuel (encodeHeadersCall h E c0 headers).2).map
            (fun c' =>
              (convertFilterHeadersStatus E (encodeHeadersCall h E c0 headers).1, c')) := by
      unfold encodeHeaders
      rw [if_neg (by show ¬ (!c0.in_vm_context_created_) = true; rw [hin]; decide),
        if_neg (by decide)]
      rfl
    rw [hd, hc, hrun fuel hfuel]
    rfl
  · intro hin hc
    have hd : encodeData h E fuel c0 data end_stream
        = (doAfterVmCallActions h fuel (encodeDataCall h E c0 data end_stream).2).map
            (fun c' =>
              (convertFilterDataStatus E (encodeDataCall h E c0 data end_stream).1, c')) := by
      unfold encodeData
      rw [if_neg (by rw [hin]; decide)]
      rfl
    rw [hd, hc, hrun fuel hfuel]
    rfl

/-- C20 on the queue `902, 5`, where 902 registers 901, which registers 900: the closures
run in the order 902, 5, 901, 900; on `decodeHeaders` and `decodeData` with a guest that
registers the closure 503 during `handle_request`, and on `encodeHeaders` and `encodeData`
with a guest that registers the closure 901 during `handle_response`: the closures have run,
in order, when the entry point returns. -/
theorem doAfterVmCallActions_fifo_witness :
    fifoSchedule healthyHost 3 queuedContext.proxy queuedContext.after_vm_call_actions_
      = some ([902, 5, 901, 900], [902, 5, 901, 900]) ∧
    doAfterVmCallActions healthyHost 4 queuedContext
      = some (queuedContext.afterActions [902, 5, 901, 900] [] [902, 5, 901, 900]) ∧
    (decodeHeaders healthyHost exampleCodes 1 liveContext [] true).map
        (fun r => (r.1, r.2.ranActions, r.2.proxy, r.2.after_vm_call_actions_))
      = some (Http.FilterHeadersStatus.StopAllIterationAndWatermark, [503], [503], []) ∧
    (decodeData healthyHost exampleCodes 1 liveContext [1, 2] true).map
        (fun r => (r.1, r.2.ranActions, r.2.proxy, r.2.after_vm_call_actions_))
      = some (Http.FilterDataStatus.StopIterationAndBuffer, [503], [503], []) ∧
    (encodeHeaders respondingHost exampleCodes 2 liveContext [] true).map
        (fun r => (r.1, r.2.ranActions, r.2.proxy, r.2.after_vm_call_actions_))
      = some (Http.FilterHeadersStatus.Continue, [901, 900], [901, 900], []) ∧
    (encodeData respondingHost exampleCodes 2 liveContext [1, 2] true).map
        (fun r => (r.1, r.2.ranActions, r.2.proxy, r.2.after_vm_call_actions_))
      = some (Http.FilterDataStatus.Continue, [901, 900], [901, 900], []) :=
  ⟨by decide,
    (doAfterVmCallActions_fifo healthyHost exampleCodes queuedContext 3 [902, 5, 901, 900]
      [902, 5, 901, 900] (by decide)).1 4 (by decide),
    congrArg (Option.map (fun r => (r.1, r.2.ranActions, r.2.proxy, r.2.after_vm_call_actions_)))
      (((doAfterVmCallActions_fifo healthyHost exampleCodes
        (decodeHeadersCall healthyHost exampleCodes liveContext []).2 1 [503] [503]
        (by decide)).2 1 liveContext [] [] true (by decide)).1 rfl),
    congrArg (Option.map (fun r => (r.1, r.2.ranActions, r.2.proxy, r.2.after_vm_call_actions_)))
      (((doAfterVmCallActions_fifo healthyHost exampleCodes
        (decodeDataCall healthyHost exampleCodes liveContext [1, 2] true).2 1 [503] [503]
        (by decide)).2 1 liveContext [] [1, 2] true (by decide)).2.1 (by decide) rfl),
    congrArg (Option.map (fun r => (r.1, r.2.ranActions, r.2.proxy, r.2.after_vm_call_actions_)))
      (((doAfterVmCallActions_fifo respondingHost exampleCodes
        (encodeHeadersCall respondingHost exampleCodes liveContext []).2 2 [901, 900]
        [901, 900] (by decide)).2 2 liveContext [] [] true (by decide)).2.2.1 (by decide) rfl),
    congrArg (Option.map (fun r => (r.1, r.2.ranActions, r.2.proxy, r.2.after_vm_call_actions_)))
      (((doAfterVmCallActions_fifo respondingHost exampleCodes
        (encodeDataCall respondingHost exampleCodes liveContext [1, 2] true).2 2 [901, 900]
        [901, 900] (by decide)).2 2 liveContext [] [1, 2] true (by decide)).2.2.2 (by decide)
        rfl)⟩

/-! ### The buffer view -/

theorem or_two_pow_32 (n : Nat) (h : n < 2 ^ 32) : n ||| 2 ^ 32 = 2 ^ 32 + n := by
  have := Nat.mul_add_lt_is_or h 1
  rw [Nat.or_comm]
  simpa using this.symm

/-- The call of `copyTo` on a bound buffer whose cursor is inside the data. -/
theorem copyTo_inside (b : Buffer) (data : Bytes) (dest_size : Nat)
    (hbound : b.const_buffer_instance_ = some data) (hcursor : b.bytes_to_skip_ < data.length) :
    b.copyTo dest_size
      = (min dest_size (data.length - b.bytes_to_skip_) ||| 2 ^ 32,
         (data.drop b.bytes_to_skip_).take (min dest_size (data.length - b.bytes_to_skip_)),
         { b with bytes_to_skip_ := (b.bytes_to_skip_ + dest_size) % 2 ^ 64 }) := by
  unfold Buffer.copyTo
  simp only [hbound]
  rw [if_neg (by omega), if_pos (Nat.min_le_left _ _)]
  rfl

/-- The call of `copyTo` on an unbound buffer or with the cursor at or past the end. -/
theorem copyTo_outside (b : Buffer) (dest_size : Nat)
    (h : b.const_buffer_instance_ = none ∨ b.size ≤ b.bytes_to_skip_) :
    b.copyTo dest_size = (2 ^ 32, [], b) := by
  unfold Buffer.copyTo
  cases hc : b.const_buffer_instance_ with
  | none => rfl
  | some data =>
    have hs : data.length ≤ b.bytes_to_skip_ := by
      rcases h with h | h
      · rw [hc] at h; cases h
      · simpa [Buffer.size, hc] using h
    simp only []
    rw [if_pos hs]
    rfl

/-- C23: on a buffer with no underlying buffer bound, or whose cursor is at or past the end
of the data, `copyTo` returns exactly `2 ^ 32` (end-of-data set, zero bytes copied) for
every requested capacity, copies nothing and leaves the buffer, cursor included, as it
was. -/
theorem copyTo_end_of_data (b : Buffer) (dest_size : Nat)
    (h : b.const_buffer_instance_ = none ∨ b.size ≤ b.bytes_to_skip_) :
    (b.copyTo dest_size).1 = 2 ^ 32 ∧
    (b.copyTo dest_size).1 % 2 ^ 32 = 0 ∧
    (b.copyTo dest_size).1 / 2 ^ 32 % 2 = 1 ∧
    (b.copyTo dest_size).2.1 = [] ∧
    (b.copyTo dest_size).2.2 = b := by
  rw [copyTo_outside b dest_size h]
  exact ⟨rfl, by norm_num, by norm_num, rfl, rfl⟩

/-- C23 on an unbound buffer and on the ten-byte buffer with the cursor moved to 14. -/
theorem copyTo_end_of_data_witness :
    (copyToAll exampleBuffer [4, 10]).size
      ≤ (copyToAll exampleBuffer [4, 10]).bytes_to_skip_ ∧
    ((copyToAll exampleBuffer [4, 10]).copyTo 3).1 = 4294967296 ∧
    ((copyToAll exampleBuffer [4, 10]).copyTo 3).2.2.bytes_to_skip_ = 14 :=
  ⟨by decide,
    (copyTo_end_of_data (copyToAll exampleBuffer [4, 10]) 3 (Or.inr (by decide))).1,
    by decide⟩

/-- C24, at the failing input: the ten-byte buffer with cursor 0 and capacity 4.  Four bytes
are copied and six remain, yet the result is `2 ^ 32 + 4`, with the end-of-data bit set, and
not 4: the flag is computed from `bytes_to_copy <= dest_size`, which always holds. -/
theorem copyTo_eof_with_bytes_remaining :
    exampleBuffer.const_buffer_instance_ = some [0, 1, 2, 3, 4, 5, 6, 7, 8, 9] ∧
    exampleBuffer.bytes_to_skip_ = 0 ∧
    4 < exampleBuffer.size - exampleBuffer.bytes_to_skip_ ∧
    (exampleBuffer.copyTo 4).2.1 = [0, 1, 2, 3] ∧
    (exampleBuffer.copyTo 4).1 = 2 ^ 32 + 4 ∧
    (exampleBuffer.copyTo 4).1 / 2 ^ 32 % 2 = 1 ∧
    (exampleBuffer.copyTo 4).1 ≠ 4 := by
  decide

/-- The end-of-data bit of the result of `copyTo` is set on every call. -/
theorem copyTo_eof_always (b : Buffer) (dest_size : Nat) (hsize : b.size < 2 ^ 32) :
    (b.copyTo dest_size).1 / 2 ^ 32 % 2 = 1 := by
  cases hc : b.const_buffer_instance_ with
  | none => rw [copyTo_outside b dest_size (Or.inl hc)]; norm_num
  | some data =>
    have hs : b.size = data.length := by simp [Buffer.size, hc]
    by_cases hcur : b.bytes_to_skip_ < data.length
    · rw [copyTo_inside b data dest_size hc hcur]
      have hlt : min dest_size (data.length - b.bytes_to_skip_) < 2 ^ 32 := by omega
      simp only [or_two_pow_32 _ hlt]
      omega
    · rw [copyTo_outside b dest_size (Or.inr (by omega))]; norm_num

/-- One call of `copyTo` keeps the buffer references. -/
theorem copyTo_references (b : Buffer) (dest_size : Nat) :
    (b.copyTo dest_size).2.2.const_buffer_instance_ = b.const_buffer_instance_ ∧
    (b.copyTo dest_size).2.2.buffer_instance_ = b.buffer_instance_ := by
  cases hc : b.const_buffer_instance_ with
  | none => rw [copyTo_outside b dest_size (Or.inl hc)]; exact ⟨hc, rfl⟩
  | some data =>
    by_cases hcur : b.bytes_to_skip_ < data.length
    · rw [copyTo_inside b data dest_size hc hcur]; exact ⟨hc, rfl⟩
    · rw [copyTo_outside b dest_size (Or.inr (by simp [Buffer.size, hc]; omega))]
      exact ⟨hc, rfl⟩

/-- The cursor after a sequence of calls, from any cursor within the bound. -/
theorem copyToAll_bound (data : Bytes) (D : Nat) (sizes : List Nat) :
    ∀ b : Buffer, b.const_buffer_instance_ = some data →
      b.bytes_to_skip_ ≤ data.length + D → (∀ d ∈ sizes, d ≤ D) →
      (copyToAll b sizes).bytes_to_skip_ ≤ data.length + D := by
  induction sizes with
  | nil => intro b _ hb _; exact hb
  | cons d sizes ih =>
    intro b hbound hb hD
    have hd : d ≤ D := hD d (by simp)
    apply ih _ ((copyTo_references b d).1.trans hbound) _
      (fun e he => hD e (List.mem_cons_of_mem _ he))
    by_cases hcur : b.bytes_to_skip_ < data.length
    · rw [copyTo_inside b data d hbound hcur]
      have := Nat.mod_le (b.bytes_to_skip_ + d) (2 ^ 64)
      show (b.bytes_to_skip_ + d) % 2 ^ 64 ≤ _
      omega
    · rw [copyTo_outside b d (Or.inr (by simp [Buffer.size, hbound]; omega))]
      exact hb

/-- The cursor after a sequence of calls that request no more than the data holds. -/
theorem copyToAll_sum (data : Bytes) (hlen : data.length < 2 ^ 64) (sizes : List Nat) :
    ∀ b : Buffer, b.const_buffer_instance_ = some data →
      b.bytes_to_skip_ + sizes.sum ≤ data.length →
      (copyToAll b sizes).bytes_to_skip_ = b.bytes_to_skip_ + sizes.sum := by
  induction sizes with
  | nil => intro b _ _; rfl
  | cons d sizes ih =>
    intro b hbound hsum
    simp only [List.sum_cons] at hsum ⊢
    by_cases hcur : b.bytes_to_skip_ < data.length
    · have hstep : (b.copyTo d).2.2.bytes_to_skip_ = b.bytes_to_skip_ + d := by
        rw [copyTo_inside b data d hbound hcur]
        exact Nat.mod_eq_of_lt (by omega)
      have := ih (b.copyTo d).2.2 ((copyTo_references b d).1.trans hbound)
        (by rw [hstep]; omega)
      rw [hstep] at this
      show (copyToAll (b.copyTo d).2.2 sizes).bytes_to_skip_ = _
      omega
    · have hstep : (b.copyTo d).2.2 = b := by
        rw [copyTo_outside b d (Or.inr (by simp [Buffer.size, hbound]; omega))]
      have := ih b hbound (by omega)
      show (copyToAll (b.copyTo d).2.2 sizes).bytes_to_skip_ = _
      rw [hstep]
      omega

/-- C25, the claim fails: on the ten-byte buffer, starting from cursor 0, the calls with
capacities 4 and 10 leave the cursor at 14, past the length 10. -/
theorem copyTo_cursor_past_length :
    exampleBuffer.const_buffer_instance_ = some [0, 1, 2, 3, 4, 5, 6, 7, 8, 9] ∧
    exampleBuffer.bytes_to_skip_ = 0 ∧
    exampleBuffer.size = 10 ∧
    (copyToAll exampleBuffer [4, 10]).bytes_to_skip_ = 14 ∧
    ¬ (copyToAll exampleBuffer [4, 10]).bytes_to_skip_ ≤ exampleBuffer.size := by
  decide

/-- C25, amended: for every bound buffer and every sequence of `copyTo` calls starting from
cursor 0, the cursor after the calls is not greater than the length of the buffer plus the
largest capacity requested; while the capacities requested add up to no more than the
length, the cursor is their sum and so within the length. -/
theorem copyTo_cursor_bound (b : Buffer) (data : Bytes) (sizes : List Nat) (D : Nat)
    (hbound : b.const_buffer_instance_ = some data) (hstart : b.bytes_to_skip_ = 0)
    (hlen : data.length < 2 ^ 64) (hD : ∀ d ∈ sizes, d ≤ D) :
    (copyToAll b sizes).bytes_to_skip_ ≤ data.length + D ∧
    (sizes.sum ≤ data.length →
      (copyToAll b sizes).bytes_to_skip_ = sizes.sum ∧
      (copyToAll b sizes).bytes_to_skip_ ≤ data.length) := by
  refine ⟨copyToAll_bound data D sizes b hbound (by omega) hD, fun hsum => ?_⟩
  have h := copyToAll_sum data hlen sizes b hbound (by omega)
  rw [hstart, Nat.zero_add] at h
  exact ⟨h, by omega⟩

/-- C25 amended, on the ten-byte buffer with the capacities 4 and 10: the cursor 14 is
within 10 + 10. -/
theorem copyTo_cursor_bound_witness :
    exampleBuffer.const_buffer_instance_ = some [0, 1, 2, 3, 4, 5, 6, 7, 8, 9] ∧
    exampleBuffer.bytes_to_skip_ = 0 ∧
    (copyToAll exampleBuffer [4, 10]).bytes_to_skip_ = 14 ∧
    (copyToAll exampleBuffer [4, 10]).bytes_to_skip_ ≤ 10 + 10 :=
  ⟨by decide, by decide, by decide,
    (copyTo_cursor_bound exampleBuffer [0, 1, 2, 3, 4, 5, 6, 7, 8, 9] [4, 10] 10 (by decide)
      (by decide) (by decide) (by decide)).1⟩

/-- C26, the claim fails: with `length` 0 the old content is not drained.  On the bound
ten-byte buffer, `copyFrom(0, [7], 0)` leaves the byte 7 followed by the ten old bytes, not
the byte 7 alone. -/
theorem copyFrom_keeps_content_on_zero_length :
    exampleBuffer.buffer_instance_ = some [0, 1, 2, 3, 4, 5, 6, 7, 8, 9] ∧
    (exampleBuffer.copyFrom 0 [7] 0).1 = WasmResult.Ok ∧
    (exampleBuffer.copyFrom 0 [7] 0).2.buffer_instance_
      = some [7, 0, 1, 2, 3, 4, 5, 6, 7, 8, 9] ∧
    (exampleBuffer.copyFrom 0 [7] 0).2.buffer_instance_ ≠ some [7] := by
  decide

/-- C26, amended: on a buffer with a mutable destination bound, whatever its content, and
for every data and start, `copyFrom` returns `Ok`; when `length` is not 0 the content of the
destination afterwards is exactly the data (the old content is drained first), when
`length` is 0 the old content stays, behind the data.  With no mutable destination bound
`copyFrom` changes nothing and returns `Ok`.  The cursor stays in every case. -/
theorem copyFrom_replaces (b : Buffer) (start : Nat) (data : Bytes) (length : Nat) :
    (∀ content, b.buffer_instance_ = some content →
      (b.copyFrom start data length).1 = WasmResult.Ok ∧
      (length ≠ 0 → (b.copyFrom start data length).2.buffer_instance_ = some data) ∧
      (length = 0 →
        (b.copyFrom start data length).2.buffer_instance_ = some (data ++ content)) ∧
      (b.copyFrom start data length).2.bytes_to_skip_ = b.bytes_to_skip_) ∧
    (b.buffer_instance_ = none → b.copyFrom start data length = (WasmResult.Ok, b)) := by
  constructor
  · intro content hc
    have h : b.copyFrom start data length
        = (WasmResult.Ok, { b with
            buffer_instance_ :=
              some (data ++ if length ≠ 0 then content.drop content.length else content),
            const_buffer_instance_ := b.const_buffer_instance_.map (fun _ =>
              data ++ if length ≠ 0 then content.drop content.length else content) }) := by
      unfold Buffer.copyFrom
      rw [hc]
    rw [h]
    refine ⟨rfl, ?_, ?_, rfl⟩
    · intro hl
      show some (data ++ if length ≠ 0 then content.drop content.length else content) = _
      rw [if_pos hl, List.drop_length, List.append_nil]
    · intro hl
      show some (data ++ if length ≠ 0 then content.drop content.length else content) = _
      rw [if_neg (not_not.mpr hl)]
  · intro hn
    unfold Buffer.copyFrom
    simp only [hn]

/-- C26 amended, on the bound ten-byte buffer with `length` 1, and on an unbound buffer. -/
theorem copyFrom_replaces_witness :
    exampleBuffer.buffer_instance_ = some [0, 1, 2, 3, 4, 5, 6, 7, 8, 9] ∧
    (exampleBuffer.copyFrom 0 [7] 1).2.buffer_instance_ = some [7] ∧
    (exampleBuffer.copyFrom 0 [7] 1).2.const_buffer_instance_ = some [7] ∧
    Buffer.copyFrom {} 0 [7] 1 = (WasmResult.Ok, {}) :=
  ⟨by decide,
    ((copyFrom_replaces exampleBuffer 0 [7] 1).1 [0, 1, 2, 3, 4, 5, 6, 7, 8, 9]
      (by decide)).2.1 (by decide),
    by decide,
    (copyFrom_replaces {} 0 [7] 1).2 (by decide)⟩

/-! ### Header maps and the route cache -/

/-- The lookup of `getMap` keeps the callbacks and the count of route-cache clears. -/
theorem getMap_frame {W A V : Type} (c : Context W A V) (type : WasmHeaderMapType) :
    (getMap c type).2.decoder_callbacks_ = c.decoder_callbacks_ ∧
    (getMap c type).2.clearRouteCacheCalls = c.clearRouteCacheCalls ∧
    (getMap c type).2.request_headers_ = c.request_headers_ := by
  cases type <;> unfold getMap <;> dsimp only
  case RequestHeaders => exact ⟨rfl, rfl, rfl⟩
  case ResponseHeaders => exact ⟨rfl, rfl, rfl⟩
  case Other => exact ⟨rfl, rfl, rfl⟩
  all_goals split <;> exact ⟨rfl, rfl, rfl⟩

/-- When `getMap` returns the null pointer the context is as before. -/
theorem getMap_none {W A V : Type} (c : Context W A V) (type : WasmHeaderMapType)
    (h : (getMap c type).1 = none) : (getMap c type).2 = c := by
  cases type <;> simp only [getMap] at h ⊢
  all_goals
    split
    · rename_i hc
      rw [if_pos hc] at h
      cases h
    · rfl

/-- The write through the pointer and the guarded clear: callbacks and count. -/
theorem write_clear_frame {W A V : Type} (c : Context W A V) (type : WasmHeaderMapType)
    (m : HeaderMap) :
    (clearRouteCacheIfRequestHeaders (c.writeMap type m) type).decoder_callbacks_
      = c.decoder_callbacks_ ∧
    (clearRouteCacheIfRequestHeaders (c.writeMap type m) type).clearRouteCacheCalls
      = c.clearRouteCacheCalls
        + (if type = .RequestHeaders ∧ c.decoder_callbacks_ = true then 1 else 0) ∧
    (type = .RequestHeaders →
      (clearRouteCacheIfRequestHeaders (c.writeMap type m) type).request_headers_ = some m) := by
  cases type <;> simp only [clearRouteCacheIfRequestHeaders, Context.writeMap] <;>
    (split <;> simp_all)

/-- One mutating call: its effect on the callbacks, the count of route-cache clears and the
presence of the request headers. -/
theorem HeaderMapCall.run_frame {W A V : Type} (L : HeaderMapImpl) (c : Context W A V)
    (type : WasmHeaderMapType) (call : HeaderMapCall) :
    (call.run L c type).decoder_callbacks_ = c.decoder_callbacks_ ∧
    (call.run L c type).clearRouteCacheCalls
      = c.clearRouteCacheCalls
        + (if type = .RequestHeaders ∧ c.request_headers_.isSome = true
            ∧ c.decoder_callbacks_ = true then 1 else 0) ∧
    (type = .RequestHeaders → c.request_headers_.isSome = true →
      (call.run L c type).request_headers_.isSome = true) := by
  have hf := getMap_frame c type
  have hn := getMap_none c type
  have hrh : type = .RequestHeaders → (getMap c type).1 = c.request_headers_ := by
    intro ht; subst ht; rfl
  cases call <;>
    simp only [HeaderMapCall.run, addHeaderMapValue, removeHeaderMapValue,
      replaceHeaderMapValue] <;>
    (rcases hg : getMap c type with ⟨_ | map, c1⟩
     · rw [hg] at hn hrh
       have hc1 : c1 = c := hn rfl
       subst hc1
       refine ⟨rfl, ?_, ?_⟩
       · by_cases ht : type = .RequestHeaders
         · have := hrh ht
           simp [← this]
         · simp [ht]
       · intro ht hs
         have := hrh ht
         rw [← this] at hs
         cases hs
     · rw [hg] at hf hrh
       have hw := write_clear_frame c1 type
       refine ⟨(hw _).1.trans hf.1, ?_, ?_⟩
       · rw [(hw _).2.1, hf.1, hf.2.1]
         by_cases ht : type = .RequestHeaders
         · have := hrh ht
           simp [← this, ht]
         · simp [ht]
       · intro ht _
         rw [(hw _).2.2 ht]
         rfl)

/-- A sequence of mutating calls on the request headers, present, with the decoder callbacks
set: one route-cache clear per call. -/
theorem runHeaderMapCalls_clears {W A V : Type} (L : HeaderMapImpl)
    (calls : List HeaderMapCall) :
    ∀ c : Context W A V, c.request_headers_.isSome = true → c.decoder_callbacks_ = true →
      (runHeaderMapCalls L .RequestHeaders c calls).clearRouteCacheCalls
        = c.clearRouteCacheCalls + calls.length := by
  induction calls with
  | nil => intro c _ _; rfl
  | cons call calls ih =>
    intro c hs hcb
    have hf := HeaderMapCall.run_frame L c .RequestHeaders call
    simp only [runHeaderMapCalls]
    rw [ih _ (hf.2.2 rfl hs) (hf.1.trans hcb), hf.2.1, if_pos ⟨rfl, hs, hcb⟩,
      List.length_cons]
    omega

/-- A sequence of mutating calls on another map, or without decoder callbacks: no
route-cache clear. -/
theorem runHeaderMapCalls_no_clear {W A V : Type} (L : HeaderMapImpl)
    (type : WasmHeaderMapType) (calls : List HeaderMapCall) :
    ∀ c : Context W A V, (type ≠ .RequestHeaders ∨ c.decoder_callbacks_ = false) →
      (runHeaderMapCalls L type c calls).clearRouteCacheCalls = c.clearRouteCacheCalls := by
  induction calls with
  | nil => intro c _; rfl
  | cons call calls ih =>
    intro c h
    have hf := HeaderMapCall.run_frame L c type call
    have hn : ¬ (type = .RequestHeaders ∧ c.request_headers_.isSome = true
        ∧ c.decoder_callbacks_ = true) := by
      rintro ⟨h1, _, h3⟩
      rcases h with h | h
      · exact h h1
      · rw [h] at h3; cases h3
    simp only [runHeaderMapCalls]
    rw [ih _ (h.imp id (fun x => hf.1.trans x)), hf.2.1, if_neg hn, Nat.add_zero]

/-- C27, the claim fails: on a context whose request headers are present and whose decoder
callbacks are not set, `addHeaderMapValue` on `RequestHeaders` finds the map, adds the entry
and returns `Ok`, and no route-cache clear takes place. -/
theorem addHeaderMapValue_without_callbacks_no_clear :
    headersContext.request_headers_ = some [("host", "a")] ∧
    headersContext.decoder_callbacks_ = false ∧
    (addHeaderMapValue exampleHeaderMapImpl headersContext .RequestHeaders "k" "v").1
      = WasmResult.Ok ∧
    (addHeaderMapValue exampleHeaderMapImpl headersContext .RequestHeaders "k"
      "v").2.request_headers_ = some [("host", "a"), ("k", "v")] ∧
    (addHeaderMapValue exampleHeaderMapImpl headersContext .RequestHeaders "k"
      "v").2.clearRouteCacheCalls = headersContext.clearRouteCacheCalls := by
  decide

/-- C27, amended: every call of `addHeaderMapValue`, `removeHeaderMapValue` or
`replaceHeaderMapValue` on the `RequestHeaders` map that finds the map present and the
decoder callbacks set returns `Ok` and triggers exactly one route-cache clear, also when
called several times in a row (one clear per call); with the decoder callbacks not set, and
on the other map kinds, the calls trigger none. -/
theorem clearRouteCache_once_per_call {W A V : Type} (L : HeaderMapImpl) (c : Context W A V)
    (key value : String) (calls : List HeaderMapCall) :
    (c.request_headers_.isSome = true → c.decoder_callbacks_ = true →
      (addHeaderMapValue L c .RequestHeaders key value).1 = WasmResult.Ok ∧
      (addHeaderMapValue L c .RequestHeaders key value).2.clearRouteCacheCalls
        = c.clearRouteCacheCalls + 1 ∧
      (removeHeaderMapValue L c .RequestHeaders key).1 = WasmResult.Ok ∧
      (removeHeaderMapValue L c .RequestHeaders key).2.clearRouteCacheCalls
        = c.clearRouteCacheCalls + 1 ∧
      (replaceHeaderMapValue L c .RequestHeaders key value).1 = WasmResult.Ok ∧
      (replaceHeaderMapValue L c .RequestHeaders key value).2.clearRouteCacheCalls
        = c.clearRouteCacheCalls + 1 ∧
      (runHeaderMapCalls L .RequestHeaders c calls).clearRouteCacheCalls
        = c.clearRouteCacheCalls + calls.length) ∧
    (c.decoder_callbacks_ = false →
      (runHeaderMapCalls L .RequestHeaders c calls).clearRouteCacheCalls
        = c.clearRouteCacheCalls) ∧
    (∀ type, type ≠ .RequestHeaders →
      (runHeaderMapCalls L type c calls).clearRouteCacheCalls = c.clearRouteCacheCalls) := by
  refine ⟨fun hs hcb => ?_, fun hcb => runHeaderMapCalls_no_clear L _ calls c (Or.inr hcb),
    fun type ht => runHeaderMapCalls_no_clear L type calls c (Or.inl ht)⟩
  obtain ⟨m, hm⟩ := Option.isSome_iff_exists.mp hs
  have hg : getMap c .RequestHeaders = (some m, c) := by
    show (c.request_headers_, c) = _
    rw [hm]
  have h1 := (HeaderMapCall.run_frame L c .RequestHeaders (.add key value)).2.1
  have h2 := (HeaderMapCall.run_frame L c .RequestHeaders (.remove key)).2.1
  have h3 := (HeaderMapCall.run_frame L c .RequestHeaders (.replace key value)).2.1
  rw [if_pos ⟨rfl, hs, hcb⟩] at h1 h2 h3
  refine ⟨?_, h1, ?_, h2, ?_, h3, runHeaderMapCalls_clears L calls c hs hcb⟩
  · simp only [addHeaderMapValue, hg]
  · simp only [removeHeaderMapValue, hg]
  · simp only [replaceHeaderMapValue, hg]

/-- C27 amended, on a context at the end of the request body with the decoder callbacks set:
a replace on the request headers clears the route cache once, three calls in a row three
times, and the same calls on the request trailers never. -/
theorem clearRouteCache_once_per_call_witness :
    bodyEndContext.request_headers_.isSome = true ∧
    bodyEndContext.decoder_callbacks_ = true ∧
    (replaceHeaderMapValue exampleHeaderMapImpl bodyEndContext .RequestHeaders "host"
      "b").2.clearRouteCacheCalls = 1 ∧
    (runHeaderMapCalls exampleHeaderMapImpl .RequestHeaders bodyEndContext
      [.add "k" "v", .replace "k" "w", .remove "k"]).clearRouteCacheCalls = 3 ∧
    (runHeaderMapCalls exampleHeaderMapImpl .RequestTrailers bodyEndContext
      [.add "k" "v", .replace "k" "w", .remove "k"]).clearRouteCacheCalls = 0 :=
  ⟨by decide, by decide,
    ((clearRouteCache_once_per_call exampleHeaderMapImpl bodyEndContext "host" "b" []).1
      (by decide) (by decide)).2.2.2.2.2.1,
    ((clearRouteCache_once_per_call exampleHeaderMapImpl bodyEndContext "host" "b"
      [.add "k" "v", .replace "k" "w", .remove "k"]).1 (by decide) (by decide)).2.2.2.2.2.2,
    (clearRouteCache_once_per_call exampleHeaderMapImpl bodyEndContext "host" "b"
      [.add "k" "v", .replace "k" "w", .remove "k"]).2.2 .RequestTrailers (by decide)⟩

/-! ### Lazy trailer maps -/

/-- The lookup of `getMap` for a trailer kind while no trailer map is recorded. -/
theorem getMap_trailers {W A V : Type} (c : Context W A V) (type : WasmHeaderMapType)
    (htype : type = .RequestTrailers ∨ type = .ResponseTrailers)
    (hnone : c.trailers type = none) :
    getMap c type
      = if c.trailersAvailable type then (some [], c.writeMap type []) else (none, c) := by
  rcases htype with h | h <;> subst h <;>
    simp only [Context.trailers] at hnone <;>
    simp only [getMap, Context.trailersAvailable, Context.writeMap, hnone, Option.isNone_none,
      Bool.true_and] <;>
    split <;> simp_all

/-- A second write through the same pointer replaces the first. -/
theorem writeMap_writeMap {W A V : Type} (c : Context W A V) (type : WasmHeaderMapType)
    (m n : HeaderMap) : (c.writeMap type m).writeMap type n = c.writeMap type n := by
  cases type <;> rfl

/-- No route-cache clear for a trailer kind. -/
theorem clearRouteCache_trailers {W A V : Type} (c : Context W A V) (type : WasmHeaderMapType)
    (htype : type = .RequestTrailers ∨ type = .ResponseTrailers) :
    clearRouteCacheIfRequestHeaders c type = c := by
  rcases htype with h | h <;> subst h <;> simp [clearRouteCacheIfRequestHeaders]

/-- C28: for a trailer kind (`RequestTrailers`, `ResponseTrailers`) with no trailer map
recorded, add, remove, replace and get-byte-size create the (empty) trailer map and apply
the operation to it when the body buffer of the direction is set, the end of the stream has
been seen and the callback handle of the direction is set; otherwise they return
`BadArgument` and leave the context (and the value at `result`) as it was.  The read
operations `getHeaderMapValue` and `getHeaderNames` return `BadArgument`, leave their output
as it was and, having no access to the context but to read it, create no map. -/
theorem trailers_lazily_created {W A V : Type} (L : HeaderMapImpl) (c : Context W A V)
    (type : WasmHeaderMapType) (key value : String) (result : Nat) (out : List String)
    (htype : type = .RequestTrailers ∨ type = .ResponseTrailers)
    (hnone : c.trailers type = none) :
    (c.trailersAvailable type = true →
      addHeaderMapValue L c type key value
        = (WasmResult.Ok, c.writeMap type (L.addCopy [] (L.LowerCaseString key) value)) ∧
      removeHeaderMapValue L c type key
        = (WasmResult.Ok, c.writeMap type (L.remove [] (L.LowerCaseString key))) ∧
      replaceHeaderMapValue L c type key value
        = (WasmResult.Ok, c.writeMap type (L.setCopy [] (L.LowerCaseString key) value)) ∧
      getHeaderMapSize L c type result
        = (WasmResult.Ok, L.byteSize [] % 2 ^ 32, c.writeMap type [])) ∧
    (c.trailersAvailable type = false →
      addHeaderMapValue L c type key value = (WasmResult.BadArgument, c) ∧
      removeHeaderMapValue L c type key = (WasmResult.BadArgument, c) ∧
      replaceHeaderMapValue L c type key value = (WasmResult.BadArgument, c) ∧
      getHeaderMapSize L c type result = (WasmResult.BadArgument, result, c)) ∧
    getHeaderMapValue L c type key out = (WasmResult.BadArgument, out) ∧
    getHeaderNames c type out = (WasmResult.BadArgument, out) := by
  have hg := getMap_trailers c type htype hnone
  have hconst : getConstMap c type = none := by
    rcases htype with h | h <;> subst h <;> exact hnone
  refine ⟨fun ha => ?_, fun ha => ?_, ?_, ?_⟩
  · rw [ha, if_pos rfl] at hg
    refine ⟨?_, ?_, ?_, ?_⟩ <;>
      simp only [addHeaderMapValue, removeHeaderMapValue, replaceHeaderMapValue,
        getHeaderMapSize, hg, writeMap_writeMap, clearRouteCache_trailers _ type htype]
  · rw [ha] at hg
    refine ⟨?_, ?_, ?_, ?_⟩ <;>
      simp only [addHeaderMapValue, removeHeaderMapValue, replaceHeaderMapValue,
        getHeaderMapSize, hg, Bool.false_eq_true, if_false]
  · simp only [getHeaderMapValue, hconst]
  · simp only [getHeaderNames, hconst]

/-- C28 on the request trailers of a context at the end of the request body (the trailer
map is created, the entry added) and of a context that has seen no body (`BadArgument`). -/
theorem trailers_lazily_created_witness :
    bodyEndContext.trailers .RequestTrailers = none ∧
    bodyEndContext.trailersAvailable .RequestTrailers = true ∧
    (addHeaderMapValue exampleHeaderMapImpl bodyEndContext .RequestTrailers "k" "v").1
      = WasmResult.Ok ∧
    (addHeaderMapValue exampleHeaderMapImpl bodyEndContext .RequestTrailers "k"
      "v").2.request_trailers_ = some [("k", "v")] ∧
    headersContext.trailersAvailable .RequestTrailers = false ∧
    addHeaderMapValue exampleHeaderMapImpl headersContext .RequestTrailers "k" "v"
      = (WasmResult.BadArgument, headersContext) ∧
    getHeaderNames bodyEndContext .RequestTrailers [] = (WasmResult.BadArgument, []) :=
  ⟨by decide, by decide, by decide, by decide, by decide,
    ((trailers_lazily_created exampleHeaderMapImpl headersContext .RequestTrailers "k" "v" 0
      [] (Or.inl rfl) (by decide)).2.1 (by decide)).1,
    (trailers_lazily_created exampleHeaderMapImpl bodyEndContext .RequestTrailers "k" "v" 0
      [] (Or.inl rfl) (by decide)).2.2.2⟩

/-! ### A failed context, fail-closed -/

/-- The closed statuses are translated to the proxy's statuses of the same name. -/
theorem convert_closed (E : StatusCodes) (hE : E.Distinct) :
    convertFilterHeadersStatus E E.headersStopAllIterationAndWatermark
      = .StopAllIterationAndWatermark ∧
    convertFilterDataStatus E E.dataStopIterationNoBuffer = .StopIterationNoBuffer := by
  obtain ⟨h1, h2, _⟩ := hE
  simp only [List.nodup_cons, List.mem_cons, List.mem_singleton, not_or, List.not_mem_nil,
    not_false_eq_true, List.nodup_nil, and_true] at h1 h2
  obtain ⟨⟨_, _, a1⟩, ⟨_, a2⟩, a3⟩ := h1
  obtain ⟨⟨_, _, b1⟩, ⟨_, b2⟩, b3⟩ := h2
  constructor
  · unfold convertFilterHeadersStatus
    rw [if_neg (Ne.symm a2), if_neg (Ne.symm a3), if_pos rfl]
  · unfold convertFilterDataStatus
    rw [if_neg (Ne.symm b2), if_neg (Ne.symm b3), if_pos rfl]

/-- C21, the claim fails: on a context without engine, fail-closed, with the decoder
callbacks set, `decodeHeaders` at the end of the stream and then `decodeData` return the
blocking statuses and nothing else happens: no closure is queued, none has run and the proxy
has received no local reply (running a closure would record its response code there). -/
theorem failed_closed_sends_no_local_reply :
    closedContext.isFailed trappingHost = true ∧
    closedContext.plugin_.fail_open_ = false ∧
    closedContext.decoder_callbacks_ = true ∧
    (decodeHeaders trappingHost exampleCodes 0 closedContext [] true).map
        (fun r => (r.1, r.2.after_vm_call_actions_, r.2.ranActions, r.2.proxy))
      = some (Http.FilterHeadersStatus.StopAllIterationAndWatermark, [], [], []) ∧
    ((decodeHeaders trappingHost exampleCodes 0 closedContext [] true).bind
        (fun r => decodeData trappingHost exampleCodes 0 r.2 [1, 2] true)).map
        (fun r => (r.1, r.2.after_vm_call_actions_, r.2.ranActions, r.2.proxy))
      = some (Http.FilterDataStatus.StopIterationNoBuffer, [], [], []) ∧
    (sendLocalResponse (fun code => code) closedContext 503).after_vm_call_actions_ = [503] := by
  decide

/-- C21, amended: a request-phase lifecycle call (`decodeHeaders` with end of stream,
`decodeData` once `decodeHeaders` has run) made on a context that is failed with fail-open
unset returns the blocking status (`StopAllIterationAndWatermark`, `StopIterationNoBuffer`)
without a guest call, and registers and runs no action: the queue, empty at entry, is empty
at the return, no closure has run and the proxy is as it was. -/
theorem failed_closed_blocks {W A V : Type} (h : Host W A V) (E : StatusCodes) (fuel : Nat)
    (c : Context W A V) (headers : HeaderMap) (data : Bytes) (end_stream : Bool)
    (hE : E.Distinct) (hfailed : c.isFailed h = true) (hclosed : c.plugin_.fail_open_ = false)
    (hqueue : c.after_vm_call_actions_ = []) :
    (decodeHeaders h E fuel c headers true).map
        (fun r => (r.1, r.2.guestCalls, r.2.after_vm_call_actions_, r.2.ranActions, r.2.proxy))
      = some (Http.FilterHeadersStatus.StopAllIterationAndWatermark, c.guestCalls, [],
          c.ranActions, c.proxy) ∧
    (c.in_vm_context_created_ = true →
      (decodeData h E fuel c data end_stream).map
          (fun r => (r.1, r.2.guestCalls, r.2.after_vm_call_actions_, r.2.ranActions,
            r.2.proxy))
        = some (Http.FilterDataStatus.StopIterationNoBuffer, c.guestCalls, [], c.ranActions,
            c.proxy)) := by
  have hcv := convert_closed E hE
  constructor
  · unfold decodeHeaders
    simp only [Bool.not_true, Bool.false_eq_true, if_false]
    unfold onRequestHeaders
    rw [CHECK_FAIL_failed h _ _ _ (by simpa [Context.isFailed] using hfailed)]
    simp only [hclosed, Bool.false_eq_true, if_false]
    simp [doAfterVmCallActions, hqueue, hcv.1]
  · intro hin
    unfold decodeData
    simp only [hin, Bool.not_true, Bool.false_eq_true, if_false, getBuffer]
    unfold onRequestBody
    rw [CHECK_FAIL_failed h _ _ _ (by simpa [Context.isFailed] using hfailed)]
    simp only [hclosed, Bool.false_eq_true, if_false]
    simp [doAfterVmCallActions, hqueue, hcv.2]

/-- C21 amended, on a context without engine, fail-closed, with the decoder callbacks
set. -/
theorem failed_closed_blocks_witness :
    exampleCodes.Distinct ∧
    closedContext.isFailed trappingHost = true ∧
    closedContext.plugin_.fail_open_ = false ∧
    closedContext.after_vm_call_actions_ = [] ∧
    (decodeHeaders trappingHost exampleCodes 0 closedContext [] true).map
        (fun r => (r.1, r.2.guestCalls, r.2.after_vm_call_actions_, r.2.ranActions, r.2.proxy))
      = some (Http.FilterHeadersStatus.StopAllIterationAndWatermark, [], [], [], []) :=
  ⟨by decide, by decide, by decide, by decide,
    (failed_closed_blocks trappingHost exampleCodes 0 closedContext [] [] true (by decide)
      (by decide) (by decide) (by decide)).1⟩

/-! ### The plugin key -/

/-- C29: the key of a plugin is `root_id ++ "||" ++ serialized configuration ++ "||" ++ name
++ "||" ++ direction name`, followed by `"||"` and the hash of the listener metadata in
decimal exactly when listener metadata is present.  Two plugins with equal root id,
serialized configuration, name, direction and listener-metadata hash have equal keys; the
vm id, the engine identifier and the fail-open flag do not influence the key. -/
theorem plugin_key {C M : Type} (U : Protobuf C M) (config : PluginConfig C)
    (direction : TrafficDirection) (listener_metadata : Option M) :
    (Plugin.ctor U config direction listener_metadata).key_
      = config.root_id ++ "||" ++ U.anyToBytes config.configuration ++ "||" ++ config.name
          ++ "||" ++ U.TrafficDirection_Name direction
          ++ (match listener_metadata with
              | some m => "||" ++ toString (U.hash m)
              | none => "") ∧
    (∀ (config2 : PluginConfig C) (listener_metadata2 : Option M),
      config2.root_id = config.root_id →
      U.anyToBytes config2.configuration = U.anyToBytes config.configuration →
      config2.name = config.name →
      listener_metadata2.map U.hash = listener_metadata.map U.hash →
      (Plugin.ctor U config2 direction listener_metadata2).key_
        = (Plugin.ctor U config direction listener_metadata).key_) ∧
    (∀ (vm_config : VmConfig) (fail_open : Bool),
      (Plugin.ctor U { config with vm_config := vm_config, fail_open := fail_open } direction
        listener_metadata).key_
        = (Plugin.ctor U config direction listener_metadata).key_) := by
  refine ⟨?_, ?_, ?_⟩
  · simp only [Plugin.ctor, createPluginKey, String.append_assoc]
  · intro config2 md2 h1 h2 h3 h4
    simp only [Plugin.ctor, createPluginKey, h1, h2, h3]
    cases md2 <;> cases listener_metadata <;> simp_all
  · intro vm_config fail_open
    rfl

/-- C29 on two configurations that differ in vm id, engine and fail-open flag only, with
listener metadata of hash 42. -/
theorem plugin_key_witness :
    (Plugin.ctor exampleProtobuf examplePluginConfig .INBOUND (some 42)).key_
      = "r1||cfg||auth||INBOUND||42" ∧
    (Plugin.ctor exampleProtobuf examplePluginConfig .INBOUND none).key_
      = "r1||cfg||auth||INBOUND" ∧
    (Plugin.ctor exampleProtobuf
        { examplePluginConfig with vm_config := { vm_id := "other", runtime := "wamr" },
                                   fail_open := true } .INBOUND (some 42)).key_
      = (Plugin.ctor exampleProtobuf examplePluginConfig .INBOUND (some 42)).key_ :=
  ⟨by decide, by decide,
    (plugin_key exampleProtobuf examplePluginConfig .INBOUND (some 42)).2.1 _ (some 42) rfl rfl
      rfl rfl⟩

/-! ### The parent of a stream context -/

/-- C30, at the failing input: an engine whose table holds the VM context under id 0 and a
root context under id 1, on which a stream context is constructed with `root_context_id` 1
and the allocated id 2, the storage of the new object holding 0.  The new context is
registered under its id 2, but its parent id is 0 and not 1, its parent is the VM context
and not the root registered under 1, and `root_context()` returns the VM context.  When the
storage holds 7, an id under which no context is registered, the parent is the null pointer
and `root_context()` follows it.  Whatever the storage holds, the constructed context does
not depend on `root_context_id`: the initializer of `parent_context_id_` reads the member
itself. -/
theorem streamContext_ignores_root_context_id :
    exampleEngine.2.contexts_.lookup 1 = some (some 1) ∧
    root_context exampleEngine.1 1 1 = .ok (some 1) ∧
    (Context.streamContext exampleEngine.1 (some exampleEngine.2) 2 1 0).2.map
        (fun w => w.contexts_.lookup 2) = some (some (some 2)) ∧
    (Context.streamContext exampleEngine.1 (some exampleEngine.2) 2 1 0).1[2]?
      = some { id_ := 2, parent_context_id_ := 0, parent_context_ := some 0 } ∧
    root_context (Context.streamContext exampleEngine.1 (some exampleEngine.2) 2 1 0).1 3 2
      = .ok (some 0) ∧
    root_context (Context.streamContext exampleEngine.1 (some exampleEngine.2) 2 1 0).1 3 2
      ≠ .ok (some 1) ∧
    (Context.streamContext exampleEngine.1 (some exampleEngine.2) 2 1 7).1[2]?
      = some { id_ := 2, parent_context_id_ := 7, parent_context_ := none } ∧
    root_context (Context.streamContext exampleEngine.1 (some exampleEngine.2) 2 1 7).1 3 2
      = .fault ∧
    (∀ (heap : List ContextLinks) (wasm : Option Wasm)
        (allocated root_context_id other indeterminate : Nat),
      Context.streamContext heap wasm allocated root_context_id indeterminate
        = Context.streamContext heap wasm allocated other indeterminate) := by
  refine ⟨by decide, by decide, by decide, by decide, by decide, by decide, by decide,
    by decide, ?_⟩
  intro heap wasm allocated root_context_id other indeterminate
  rfl

/-! ### Stripping twice -/

/-- The sections kept by `getStrippedSource` are sections of the input. -/
theorem strippedSections_subset (secs : List WasmSection) :
    ∀ s ∈ strippedSections secs, s ∈ secs := by
  induction secs with
  | nil => intro s hs; exact hs
  | cons a secs ih =>
    intro s hs
    unfold strippedSections at hs
    split at hs
    · exact List.mem_cons_of_mem _ (List.mem_of_mem_filter hs)
    · rcases List.mem_cons.mp hs with h | h
      · rw [h]; exact List.mem_cons_self _ _
      · exact List.mem_cons_of_mem _ (ih s h)

/-- None of the sections kept by `getStrippedSource` is reserved. -/
theorem strippedSections_not_reserved (secs : List WasmSection) :
    ∀ s ∈ strippedSections secs, s.isReserved = false := by
  induction secs with
  | nil => intro s hs; cases hs
  | cons a secs ih =>
    intro s hs
    unfold strippedSections at hs
    split at hs
    · have hc := (List.mem_filter.mp hs).2
      cases s with
      | custom lenEnc nameEnc name body => simp [WasmSection.isCustom] at hc
      | plain type lenEnc payload => rfl
    · rename_i ha
      rcases List.mem_cons.mp hs with h | h
      · rw [h]; simpa using ha
      · exact ih s h

/-- A sequence without reserved section is kept whole. -/
theorem strippedSections_of_not_reserved (secs : List WasmSection)
    (h : ∀ s ∈ secs, s.isReserved = false) : strippedSections secs = secs := by
  induction secs with
  | nil => rfl
  | cons a secs ih =>
    unfold strippedSections
    rw [if_neg (by simp [h a (List.mem_cons_self _ _)]),
      ih (fun s hs => h s (List.mem_cons_of_mem _ hs))]

/-- Stripping is idempotent on well-formed modules: the output of `getStrippedSource` on a
well-formed module is a well-formed module without reserved section, which
`getStrippedSource` returns unchanged. -/
theorem getStrippedSource_idempotent_wellFormed (hdr : Bytes) (secs : List WasmSection)
    (hhdr : IsHeader hdr) (hsecs : ∀ s ∈ secs, s.Framed) :
    ∃ out, getStrippedSource (hdr ++ sectionsBytes secs) [] = .ok out ∧
      getStrippedSource out [] = .ok out := by
  refine ⟨hdr ++ sectionsBytes (strippedSections secs),
    getStrippedSource_sections hdr secs hhdr hsecs, ?_⟩
  have h := getStrippedSource_sections hdr (strippedSections secs) hhdr
    (fun s hs => hsecs s (strippedSections_subset secs s hs))
  rw [strippedSections_of_not_reserved _ (strippedSections_not_reserved secs)] at h
  exact h

/-- C31, at the failing input: a module whose first section is a custom section of declared
length 0, followed by a custom section named `"precompiled_"`.  `getStrippedSource` reads
the name field of the first section past its end, up to the end of the module (there it
finds the empty name), succeeds and returns the header and the first section.  On that
output the same name field lies at the end of the buffer and cannot be read:
`getStrippedSource` reports failure.  `getCustomSection`, which reads the name field up to
the end of the section, rejects the module in the first place. -/
theorem getStrippedSource_not_idempotent :
    overrunModule
      = [0x00, 0x61, 0x73, 0x6d, 0x01, 0x00, 0x00, 0x00, 0x00, 0x00, 0x00, 0x0d, 0x0c,
         0x70, 0x72, 0x65, 0x63, 0x6f, 0x6d, 0x70, 0x69, 0x6c, 0x65, 0x64, 0x5f] ∧
    getStrippedSource overrunModule []
      = .ok [0x00, 0x61, 0x73, 0x6d, 0x01, 0x00, 0x00, 0x00, 0x00, 0x00] ∧
    getStrippedSource [0x00, 0x61, 0x73, 0x6d, 0x01, 0x00, 0x00, 0x00, 0x00, 0x00] []
      = .fail ∧
    getStrippedSource [0x00, 0x61, 0x73, 0x6d, 0x01, 0x00, 0x00, 0x00, 0x00, 0x00] []
      ≠ .ok [0x00, 0x61, 0x73, 0x6d, 0x01, 0x00, 0x00, 0x00, 0x00, 0x00] ∧
    getCustomSection overrunModule nameSectionName [] = .fail := by
  decide

/-! ### The cursor of the buffer view across calls -/

/-- C32, the claim fails: on the ten-byte buffer with the cursor at 9, `copyTo` with the
capacity `2 ^ 64 - 1` copies the last byte and leaves the cursor at 8: the sum of the cursor
and the requested capacity wraps in the `uint64_t`, and the cursor has decreased. -/
theorem copyTo_cursor_wraps :
    (exampleBuffer.copyTo 9).2.2.const_buffer_instance_ = some [0, 1, 2, 3, 4, 5, 6, 7, 8, 9] ∧
    (exampleBuffer.copyTo 9).2.2.bytes_to_skip_ = 9 ∧
    2 ^ 64 - 1 < 2 ^ 64 ∧
    ((exampleBuffer.copyTo 9).2.2.copyTo (2 ^ 64 - 1)).2.1 = [9] ∧
    ((exampleBuffer.copyTo 9).2.2.copyTo (2 ^ 64 - 1)).2.2.bytes_to_skip_ = 8 ∧
    ((exampleBuffer.copyTo 9).2.2.copyTo (2 ^ 64 - 1)).2.2.bytes_to_skip_
      < (exampleBuffer.copyTo 9).2.2.bytes_to_skip_ := by
  decide

/-- C32, amended: `Buffer::clear` and the two overloads of `Buffer::set` change the bound
references only and leave the cursor `bytes_to_skip_` as it was; `getBuffer`, which binds the
body buffer of the current chunk through `set`, hands out a view whose cursor is the one left
by the calls of `copyTo` on the chunks before.  No operation of `Buffer` resets the cursor:
`copyFrom` leaves it, and `copyTo` leaves it when nothing is bound or the cursor is at or
past the end of the data, and otherwise replaces it by the cursor plus the requested
capacity, modulo `2 ^ 64`; the cursor decreases only when that sum reaches `2 ^ 64`. -/
theorem buffer_cursor_kept {W A V : Type} (b : Buffer) (buffer_instance : Option Bytes)
    (start : Nat) (data : Bytes) (length dest_size : Nat) (c : Context W A V)
    (type : WasmBufferType) :
    b.clear = { const_buffer_instance_ := none, buffer_instance_ := none,
                bytes_to_skip_ := b.bytes_to_skip_ } ∧
    b.set buffer_instance
      = { const_buffer_instance_ := buffer_instance, buffer_instance_ := buffer_instance,
          bytes_to_skip_ := b.bytes_to_skip_ } ∧
    b.setConst buffer_instance
      = { const_buffer_instance_ := buffer_instance, buffer_instance_ := none,
          bytes_to_skip_ := b.bytes_to_skip_ } ∧
    (b.copyFrom start data length).2.bytes_to_skip_ = b.bytes_to_skip_ ∧
    (b.copyTo dest_size).2.2.bytes_to_skip_
      = (if b.const_buffer_instance_.isSome = true ∧ b.bytes_to_skip_ < b.size
          then (b.bytes_to_skip_ + dest_size) % 2 ^ 64 else b.bytes_to_skip_) ∧
    ((b.copyTo dest_size).2.2.bytes_to_skip_ < b.bytes_to_skip_ →
      2 ^ 64 ≤ b.bytes_to_skip_ + dest_size) ∧
    (getBuffer c type).2.buffer_.bytes_to_skip_ = c.buffer_.bytes_to_skip_ ∧
    (∀ view, (getBuffer c type).1 = some view →
      view.bytes_to_skip_ = c.buffer_.bytes_to_skip_ ∧ (getBuffer c type).2.buffer_ = view) := by
  have hcopy : (b.copyTo dest_size).2.2.bytes_to_skip_
      = (if b.const_buffer_instance_.isSome = true ∧ b.bytes_to_skip_ < b.size
          then (b.bytes_to_skip_ + dest_size) % 2 ^ 64 else b.bytes_to_skip_) := by
    cases hc : b.const_buffer_instance_ with
    | none =>
      rw [copyTo_outside b dest_size (Or.inl hc), if_neg (by simp)]
    | some bytes =>
      have hsize : b.size = bytes.length := by simp [Buffer.size, hc]
      by_cases hcur : b.bytes_to_skip_ < bytes.length
      · rw [copyTo_inside b bytes dest_size hc hcur, if_pos ⟨rfl, by omega⟩]
      · rw [copyTo_outside b dest_size (Or.inr (by omega)), if_neg (by omega)]
  refine ⟨rfl, rfl, rfl, ?_, hcopy, ?_, ?_, ?_⟩
  · unfold Buffer.copyFrom
    split <;> rfl
  · intro hlt
    rw [hcopy] at hlt
    by_contra hwrap
    split at hlt
    · rw [Nat.mod_eq_of_lt (by omega)] at hlt
      omega
    · omega
  · cases type <;> rfl
  · intro view hv
    cases type
    · cases hv; exact ⟨rfl, rfl⟩
    · cases hv; exact ⟨rfl, rfl⟩
    · cases hv

/-- C32 amended, on two body chunks: the guest reads the first chunk, of ten bytes, with one
`copyTo` of capacity 10; the view that `getBuffer` binds to the second chunk, of three bytes,
still has the cursor 10, so that `copyTo` on it returns end-of-data and copies nothing.  On
the ten-byte buffer with the cursor at 9 the capacity `2 ^ 64 - 1` makes the sum reach
`2 ^ 64`, and the cursor decreases. -/
theorem buffer_cursor_kept_witness :
    secondChunkContext.buffer_.bytes_to_skip_ = 10 ∧
    (getBuffer { secondChunkContext with request_body_buffer_ := some [10, 11, 12] }
      .HttpRequestBody).2.buffer_
      = { const_buffer_instance_ := some [10, 11, 12], buffer_instance_ := some [10, 11, 12],
          bytes_to_skip_ := 10 } ∧
    ((getBuffer { secondChunkContext with request_body_buffer_ := some [10, 11, 12] }
      .HttpRequestBody).2.buffer_.copyTo 3).1 = 2 ^ 32 ∧
    (exampleBuffer.copyTo 10).2.2.bytes_to_skip_ = 10 ∧
    ((exampleBuffer.copyTo 9).2.2.copyTo (2 ^ 64 - 1)).2.2.bytes_to_skip_
      < (exampleBuffer.copyTo 9).2.2.bytes_to_skip_ ∧
    2 ^ 64 ≤ (exampleBuffer.copyTo 9).2.2.bytes_to_skip_ + (2 ^ 64 - 1) :=
  ⟨by decide, by decide, by decide,
    (buffer_cursor_kept exampleBuffer none 0 [] 0 10 secondChunkContext
      .HttpRequestBody).2.2.2.2.1,
    by decide,
    (buffer_cursor_kept (exampleBuffer.copyTo 9).2.2 none 0 [] 0 (2 ^ 64 - 1) secondChunkContext
      .HttpRequestBody).2.2.2.2.2.1 (by decide)⟩

/-! ### Keys of different plugins -/

/-- Two lists cut at the first occurrence of `a` are equal part by part. -/
theorem append_cons_cancel {α : Type} (a : α) :
    ∀ (x y z w : List α), a ∉ x → a ∉ y → x ++ a :: z = y ++ a :: w → x = y ∧ z = w := by
  intro x
  induction x with
  | nil =>
    intro y z w _ hy h
    cases y with
    | nil => simpa using h
    | cons b y =>
      simp only [List.nil_append, List.cons_append, List.cons.injEq] at h
      exact absurd (List.mem_cons.mpr (Or.inl h.1)) hy
  | cons b x ih =>
    intro y z w hx hy h
    cases y with
    | nil =>
      simp only [List.nil_append, List.cons_append, List.cons.injEq] at h
      exact absurd (List.mem_cons.mpr (Or.inl h.1.symm)) hx
    | cons d y =>
      simp only [List.cons_append, List.cons.injEq] at h
      have := ih y z w (fun m => hx (List.mem_cons_of_mem _ m))
        (fun m => hy (List.mem_cons_of_mem _ m)) h.2
      exact ⟨by rw [h.1, this.1], this.2⟩

/-- The characters of the key of a plugin without listener metadata. -/
theorem key_data {C M : Type} (U : Protobuf C M) (config : PluginConfig C)
    (direction : TrafficDirection) :
    (Plugin.ctor U config direction none).key_.data
      = config.root_id.data ++ keyBar :: (keyBar :: ((U.anyToBytes config.configuration).data
          ++ keyBar :: (keyBar :: (config.name.data
            ++ (keyBar :: keyBar :: (U.TrafficDirection_Name direction).data))))) := by
  have hsep : "||".data = [keyBar, keyBar] := by decide
  have hempty : "".data = [] := rfl
  simp only [Plugin.ctor, createPluginKey, String.data_append, hsep, hempty, List.append_assoc,
    List.cons_append, List.nil_append, List.append_nil]
  rfl

/-- C33, the claim fails: two plugin configurations with the same direction and no listener
metadata, whose root ids and serialized configurations differ (`"a||b"` with `"c"`, and
`"a"` with `"b||c"`), have the same key `"a||b||c||n||INBOUND"`. -/
theorem plugin_key_collision :
    (barredRootConfig.root_id, exampleProtobuf.anyToBytes barredRootConfig.configuration,
        barredRootConfig.name)
      ≠ (barredBytesConfig.root_id, exampleProtobuf.anyToBytes barredBytesConfig.configuration,
        barredBytesConfig.name) ∧
    (Plugin.ctor exampleProtobuf barredRootConfig .INBOUND (none : Option Nat)).key_
      = "a||b||c||n||INBOUND" ∧
    (Plugin.ctor exampleProtobuf barredBytesConfig .INBOUND (none : Option Nat)).key_
      = "a||b||c||n||INBOUND" ∧
    (Plugin.ctor exampleProtobuf barredRootConfig .INBOUND (none : Option Nat)).key_
      = (Plugin.ctor exampleProtobuf barredBytesConfig .INBOUND (none : Option Nat)).key_ := by
  decide

/-- C33, amended: for every two plugin configurations with the same direction and no
listener metadata, whose root ids and serialized configurations hold no character `|` and
whose triples (root id, serialized configuration, name) differ, the two keys differ. -/
theorem plugin_key_separates {C M : Type} (U : Protobuf C M) (config1 config2 : PluginConfig C)
    (direction : TrafficDirection)
    (hroot1 : keyBar ∉ config1.root_id.data)
    (hbytes1 : keyBar ∉ (U.anyToBytes config1.configuration).data)
    (hroot2 : keyBar ∉ config2.root_id.data)
    (hbytes2 : keyBar ∉ (U.anyToBytes config2.configuration).data)
    (hne : (config1.root_id, U.anyToBytes config1.configuration, config1.name)
      ≠ (config2.root_id, U.anyToBytes config2.configuration, config2.name)) :
    (Plugin.ctor U config1 direction (none : Option M)).key_
      ≠ (Plugin.ctor U config2 direction (none : Option M)).key_ := by
  intro hkey
  have hdata := congrArg String.data hkey
  rw [key_data, key_data] at hdata
  obtain ⟨hr, h1⟩ := append_cons_cancel keyBar _ _ _ _ hroot1 hroot2 hdata
  have h2 := (List.cons.inj h1).2
  obtain ⟨hc, h3⟩ := append_cons_cancel keyBar _ _ _ _ hbytes1 hbytes2 h2
  have h4 := (List.cons.inj h3).2
  have hn := List.append_cancel_right h4
  apply hne
  rw [String.ext hr, String.ext hc, String.ext hn]

/-- C33 amended, on two configurations that differ in their name only. -/
theorem plugin_key_separates_witness :
    keyBar ∉ examplePluginConfig.root_id.data ∧
    keyBar ∉ (exampleProtobuf.anyToBytes examplePluginConfig.configuration).data ∧
    (Plugin.ctor exampleProtobuf examplePluginConfig .INBOUND (none : Option Nat)).key_
      ≠ (Plugin.ctor exampleProtobuf { examplePluginConfig with name := "other" } .INBOUND
          (none : Option Nat)).key_ :=
  ⟨by decide, by decide,
    plugin_key_separates exampleProtobuf examplePluginConfig
      { examplePluginConfig with name := "other" } .INBOUND (by decide) (by decide) (by decide)
      (by decide) (by decide)⟩

/-! ### A custom section without room for its name -/

/-- A reserved section is one whose reserved name the scan reads. -/
theorem HasReservedSection.scans {B : Bytes} (h : HasReservedSection B) :
    ScansReservedName B := by
  obtain ⟨p, q, len, nameEnc, name, hstart, hsec, hne, hrd, _, htag⟩ := h
  exact ⟨p, q, len, nameEnc, name, hstart, hsec, hne, hrd, htag⟩

/-- The sections of `strayNameModule` start at the offsets 8 and 10; offset 24 is its end. -/
theorem sectionStart_strayNameModule {p : Nat} (h : SectionStart strayNameModule p) :
    p = 8 ∨ p = 10 ∨ p = 24 := by
  induction h with
  | first => exact Or.inl rfl
  | next p q len t _ hsec ih =>
    obtain ⟨_, hv⟩ := sectionAt_scan hsec
    rcases ih with h | h | h <;> subst h
    · have : parseVarint strayNameModule (8 + 1) strayNameModule.length = .ok (0, 10) := by
        decide
      rw [this] at hv
      simp only [Outcome.ok.injEq, Prod.mk.injEq] at hv
      omega
    · have : parseVarint strayNameModule (10 + 1) strayNameModule.length = .ok (12, 12) := by
        decide
      rw [this] at hv
      simp only [Outcome.ok.injEq, Prod.mk.injEq] at hv
      omega
    · have : parseVarint strayNameModule (24 + 1) strayNameModule.length = .fail := by
        decide
      rw [this] at hv
      cases hv

/-- No custom section of `strayNameModule` has a name: its one custom section has an empty
payload. -/
theorem not_hasReservedSection_strayNameModule : ¬ HasReservedSection strayNameModule := by
  rintro ⟨p, q, len, nameEnc, name, hstart, hsec, hne, _, hbound, _⟩
  obtain ⟨hget, hv⟩ := sectionAt_scan hsec
  have hpos := isVarint_length_pos hne
  rcases sectionStart_strayNameModule hstart with h | h | h <;> subst h
  · have : parseVarint strayNameModule (8 + 1) strayNameModule.length = .ok (0, 10) := by
      decide
    rw [this] at hv
    simp only [Outcome.ok.injEq, Prod.mk.injEq] at hv
    omega
  · have : strayNameModule[10]? = some 13 := by decide
    rw [this] at hget
    cases hget
  · have : strayNameModule[24]? = none := by decide
    rw [this] at hget
    cases hget

/-- C4, at the failing input: a header, a custom section of declared length 0 and a section
of type 13 whose payload is `"precompiled_"`.  No custom section of this module has a name
containing `"precompiled_"` (the only custom section has no payload, hence no name), and
`getStrippedSource`, called with an empty output, succeeds; yet its output is not the input:
the custom section is missing, 22 bytes out of 24 are returned.  The scan reads the name
field of the custom section past the end of the section, in the bytes of the next one, and
takes the section for a reserved one. -/
theorem getStrippedSource_strips_without_reserved_section :
    strayNameModule
      = [0x00, 0x61, 0x73, 0x6d, 0x01, 0x00, 0x00, 0x00, 0x00, 0x00, 0x0d, 0x0c,
         0x70, 0x72, 0x65, 0x63, 0x6f, 0x6d, 0x70, 0x69, 0x6c, 0x65, 0x64, 0x5f] ∧
    ¬ HasReservedSection strayNameModule ∧
    getStrippedSource strayNameModule []
      = .ok [0x00, 0x61, 0x73, 0x6d, 0x01, 0x00, 0x00, 0x00, 0x0d, 0x0c,
         0x70, 0x72, 0x65, 0x63, 0x6f, 0x6d, 0x70, 0x69, 0x6c, 0x65, 0x64, 0x5f] ∧
    getStrippedSource strayNameModule [] ≠ .ok strayNameModule ∧
    ScansReservedName strayNameModule := by
  refine ⟨by decide, not_hasReservedSection_strayNameModule, by decide, by decide, ?_⟩
  refine ⟨8, 10, 0, [13], [12] ++ precompiledTag, SectionStart.first, ?_, by decide, by decide,
    by decide⟩
  exact ⟨[0], by decide, by decide, by decide, by decide⟩

end HttpWasm
